import Mathlib

/-!
# soquee/query: the query mini-language parser

A shallow embedding of `query.go`.

* Go strings and byte slices are lists of bytes, and bytes and runes are natural numbers
  (`List Nat`; a genuine byte is `< 256`, every definition is total on the whole type
  and every theorem holds on all of it).
* `utf8.DecodeRune`, `unicode.IsSpace`, `strconv.Atoi`, `strings.IndexByte`,
  `strings.TrimPrefix` and `bufio.Scanner` are Go standard library; they are modelled here
  after their Go sources.  The machine `int` is 64 bits wide.
* `precis.UsernameCaseMapped.String` is an external collaborator and is a parameter
  (`norm`) of everything that parses.
* `bufio.Scanner` is modelled after its Go source: the buffer with its length, `start`
  and `end`, its growth from `startBufSize` by doubling up to `bufio.MaxScanTokenSize`,
  the error `bufio.ErrTooLong` when the full buffer holds no token, the reading loop with
  `io.ErrNoProgress` after more than 100 empty reads, and the sticky error after which
  the split function is called with `atEOF = true`.  The split function `scanTokens`
  never returns an error, never advances too far and never returns a token without
  advancing, and a `Reader` of the model never returns a count out of range, so the
  branches of `Scan` for those (`ErrFinalToken`, `ErrNegativeAdvance`,
  `ErrAdvanceTooFar`, `ErrBadReadCount`, the count of empty tokens) are left out.
* A `Reader` reports its error by a `Read` of its own, `(0, err)`, as
  `strings.Reader`, `bytes.Reader` and the reader of the test do.
* Loops whose Go form is `for i < len(data)` carry a fuel argument that the callers set
  to a value the loop cannot exhaust.
-/

namespace Soquee

/-! ## Bytes, runes, strings -/

/-- A Go `error`, identified by its message. -/
abbrev Err := String

/-- The constant `utf8.RuneError`, U+FFFD. -/
def RuneError : Nat := 0xFFFD

/-- Go's `utf8.EncodeRune`: the UTF-8 encoding of a code point (surrogates and
out-of-range values encode `RuneError`). -/
def encodeRune (r : Nat) : List Nat :=
  if r < 0x80 then [r]
  else if r < 0x800 then [0xC0 + r / 64, 0x80 + r % 64]
  else if (0xD800 ≤ r ∧ r ≤ 0xDFFF) ∨ 0x10FFFF < r then [0xEF, 0xBF, 0xBD]
  else if r < 0x10000 then [0xE0 + r / 4096, 0x80 + r / 64 % 64, 0x80 + r % 64]
  else [0xF0 + r / 262144, 0x80 + r / 4096 % 64, 0x80 + r / 64 % 64, 0x80 + r % 64]

/-- The bytes of a string literal (its UTF-8 encoding), as Go stores it. -/
def str (s : String) : List Nat :=
  s.data.flatMap (fun c => encodeRune c.toNat)

/-- Go's `unicode.IsSpace`: the Latin-1 spaces, else the `White_Space` range table. -/
def IsSpace (r : Nat) : Bool :=
  if r ≤ 0xFF then
    r == 0x09 || r == 0x0A || r == 0x0B || r == 0x0C || r == 0x0D || r == 0x20
      || r == 0x85 || r == 0xA0
  else
    r == 0x1680 || (0x2000 ≤ r && r ≤ 0x200A) || r == 0x2028 || r == 0x2029
      || r == 0x202F || r == 0x205F || r == 0x3000

/-- The source's `isSkipable`: white space and the tsquery operators `! | & ( )`. -/
def isSkipable (r : Nat) : Bool :=
  IsSpace r ||
    r == 0x21 ||
    r == 0x7C ||
    r == 0x26 ||
    r == 0x28 ||
    r == 0x29

/-- Whether `b` is a UTF-8 continuation byte (`locb ≤ b ≤ hicb`). -/
def isCont (b : Nat) : Bool := 0x80 ≤ b && b ≤ 0xBF

/-- The size of the encoding a lead byte `0xC2 ≤ p0 ≤ 0xF4` announces (Go: `first[p0] & 7`). -/
def leadSize (p0 : Nat) : Nat :=
  if p0 < 0xE0 then 2 else if p0 < 0xF0 then 3 else 4

/-- The least second byte accepted after the lead byte `p0` (Go: `acceptRanges[..].lo`). -/
def acceptLo (p0 : Nat) : Nat :=
  if p0 = 0xE0 then 0xA0 else if p0 = 0xF0 then 0x90 else 0x80

/-- The greatest second byte accepted after the lead byte `p0` (Go: `acceptRanges[..].hi`). -/
def acceptHi (p0 : Nat) : Nat :=
  if p0 = 0xED then 0x9F else if p0 = 0xF4 then 0x8F else 0xBF

/-- The multi-byte part of `utf8.DecodeRune`, for a lead byte `0xC2 ≤ p0 ≤ 0xF4`
followed by `rest`.  The masks and shifts of the Go source are written as `%` and `*`. -/
def decodeMulti (p0 : Nat) (rest : List Nat) : Nat × Nat :=
  if rest.length + 1 < leadSize p0 then (RuneError, 1)
  else
    match rest with
    | [] => (RuneError, 1)
    | b1 :: rest1 =>
      if b1 < acceptLo p0 ∨ acceptHi p0 < b1 then (RuneError, 1)
      else if leadSize p0 ≤ 2 then (p0 % 32 * 64 + b1 % 64, 2)
      else
        match rest1 with
        | [] => (RuneError, 1)
        | b2 :: rest2 =>
          if b2 < 0x80 ∨ 0xBF < b2 then (RuneError, 1)
          else if leadSize p0 ≤ 3 then (p0 % 16 * 4096 + b1 % 64 * 64 + b2 % 64, 3)
          else
            match rest2 with
            | [] => (RuneError, 1)
            | b3 :: _ =>
              if b3 < 0x80 ∨ 0xBF < b3 then (RuneError, 1)
              else (p0 % 8 * 262144 + b1 % 64 * 4096 + b2 % 64 * 64 + b3 % 64, 4)

/-- Go's `utf8.DecodeRune`: the first code point of `p` and its width in bytes;
`(RuneError, 0)` on empty input and `(RuneError, 1)` on an invalid or truncated
encoding. -/
def decodeRune (p : List Nat) : Nat × Nat :=
  match p with
  | [] => (RuneError, 0)
  | p0 :: rest =>
    if p0 < 0x80 then (p0, 1)
    else if p0 < 0xC2 ∨ 0xF4 < p0 then (RuneError, 1)
    else decodeMulti p0 rest

/-- The Go slice expression `data[lo:hi]`. -/
def slice (data : List Nat) (lo hi : Nat) : List Nat :=
  (data.take hi).drop lo

/-! ## The token scanner -/

/-- The first loop of `scanTokens` ("skip leading spaces"), from index `start`. -/
def skipLeading (data : List Nat) : Nat → Nat → Nat
  | 0, start => start
  | fuel + 1, start =>
    if start < data.length then
      let rw := decodeRune (data.drop start)
      if !isSkipable rw.1 then start
      else skipLeading data fuel (start + rw.2)
    else start

/-- The second loop of `scanTokens` ("scan until space"), from index `i`: the
`advance` and token of its `return`, or `none` when the loop runs off the data. -/
def scanWord (data : List Nat) (start : Nat) : Nat → Nat → Option (Nat × List Nat)
  | 0, _ => none
  | fuel + 1, i =>
    if i < data.length then
      let rw := decodeRune (data.drop i)
      if isSkipable rw.1 then some (i + rw.2, slice data start i)
      else scanWord data start fuel (i + rw.2)
    else none

/-- The source's `scanTokens`: `(advance, token, err)`; a `nil` token is `none`. -/
def scanTokens (data : List Nat) (atEOF : Bool) : Nat × Option (List Nat) × Option Err :=
  let start := skipLeading data (data.length + 1) 0
  match scanWord data start (data.length + 1) start with
  | some (adv, tok) => (adv, some tok, none)
  | none =>
    if atEOF && data.length > start then (data.length, some (data.drop start), none)
    else (start, none, none)

/-! ## Tokens of a complete input -/

/-- The input decoded as Go's `for range` decodes a string: each code point with the
bytes it was decoded from (`fuel` bounds the number of code points). -/
def segsAux : Nat → List Nat → List (Nat × List Nat)
  | 0, _ => []
  | fuel + 1, p =>
    if p = [] then []
    else (((decodeRune p).1, p.take (decodeRune p).2)) :: segsAux fuel (p.drop (decodeRune p).2)

/-- The decoded code points of `p`, each with its bytes. -/
def segs (p : List Nat) : List (Nat × List Nat) := segsAux p.length p

/-- The code points of `p`, as `utf8.DecodeRune` yields them one after the other. -/
def runes (p : List Nat) : List Nat := (segs p).map Prod.fst

/-- The bytes of a run of decoded code points. -/
def bytesOf (S : List (Nat × List Nat)) : List Nat := S.flatMap Prod.snd

/-- The predicate "this code point is skippable" on decoded code points. -/
abbrev skipP : Nat × List Nat → Bool := fun s => isSkipable s.1

/-- The predicate "this code point is not skippable" on decoded code points. -/
abbrev wordP : Nat × List Nat → Bool := fun s => !isSkipable s.1

/-- The maximal runs of consecutive non-skippable code points of a decoded input;
`cur` is the run being collected. -/
def splitSegs : List (Nat × List Nat) → List (Nat × List Nat) →
    List (List (Nat × List Nat))
  | [], cur => if cur = [] then [] else [cur]
  | s :: rest, cur =>
    if isSkipable s.1 then
      if cur = [] then splitSegs rest [] else cur :: splitSegs rest []
    else splitSegs rest (cur ++ [s])

/-- Tokenizing a complete buffer: call `scanTokens` with `atEOF = true` on the
remaining bytes and drop `advance` of them, until no token is returned. -/
def tokensAux : Nat → List Nat → List (List Nat)
  | 0, _ => []
  | fuel + 1, data =>
    match (scanTokens data true).2.1 with
    | some tok => tok :: tokensAux fuel (data.drop (scanTokens data true).1)
    | none => []

/-- The tokens of a complete input, in order. -/
def tokens (data : List Nat) : List (List Nat) := tokensAux (data.length + 1) data

/-! ## Standard-library string helpers -/

/-- Go's `strings.IndexByte`: the index of the first `c` in `s`, or `-1`. -/
def IndexByte (s : List Nat) (c : Nat) : Int :=
  if c ∈ s then (s.indexOf c : Int) else -1

/-- Go's `strings.TrimPrefix`. -/
def trimLeading (s pre : List Nat) : List Nat :=
  if pre.isPrefixOf s then s.drop pre.length else s

/-- The two error kinds of `strconv` (`ErrSyntax`, `ErrRange`). -/
inductive NumErr where
  | ErrSyntax
  | ErrRange
  deriving DecidableEq, Repr

/-- The largest `uint64`. -/
def maxUint64 : Nat := 2 ^ 64 - 1

/-- The digit loop of `strconv.ParseUint(s, 10, 64)`, with accumulator `n`. -/
def parseUintLoop : List Nat → Nat → Nat × Option NumErr
  | [], n => (n, none)
  | c :: cs, n =>
    if 0x30 ≤ c ∧ c ≤ 0x39 then
      let d := c - 0x30
      if n ≥ maxUint64 / 10 + 1 then (maxUint64, some NumErr.ErrRange)
      else
        let n10 := n * 10
        let n1 := (n10 + d) % 2 ^ 64
        if n1 < n10 ∨ n1 > maxUint64 then (maxUint64, some NumErr.ErrRange)
        else parseUintLoop cs n1
    else (0, some NumErr.ErrSyntax)

/-- Go's `strconv.ParseUint(s, 10, 64)`. -/
def ParseUint (s : List Nat) : Nat × Option NumErr :=
  if s = [] then (0, some NumErr.ErrSyntax) else parseUintLoop s 0

/-- Go's `strconv.ParseInt(s, 10, 0)` on a 64-bit platform. -/
def ParseInt (s : List Nat) : Int × Option NumErr :=
  if s = [] then (0, some NumErr.ErrSyntax)
  else
    let neg : Bool := s.head? != some 0x2B && s.head? == some 0x2D
    let s1 := if s.head? = some 0x2B then s.tail else if neg then s.tail else s
    let un := ParseUint s1
    if un.2 = some NumErr.ErrSyntax then (0, un.2)
    else
      let cutoff : Nat := 2 ^ 63
      if !neg && un.1 ≥ cutoff then ((cutoff : Int) - 1, some NumErr.ErrRange)
      else if neg && un.1 > cutoff then (-(cutoff : Int), some NumErr.ErrRange)
      else (if neg then -(un.1 : Int) else (un.1 : Int), none)

/-- The digit loop of the fast path of `strconv.Atoi`; `none` is its syntax error. -/
def atoiFast : List Nat → Nat → Option Nat
  | [], n => some n
  | ch :: cs, n =>
    if 0x30 ≤ ch ∧ ch ≤ 0x39 then atoiFast cs (n * 10 + (ch - 0x30)) else none

/-- Go's `strconv.Atoi` on a 64-bit platform: the value and the error.  With a
syntax error the value is `0`; with a range error it is the nearest `int`. -/
def Atoi (s : List Nat) : Int × Option NumErr :=
  if 0 < s.length ∧ s.length < 19 then
    let signed : Bool := s.head? == some 0x2D || s.head? == some 0x2B
    let s1 := if signed then s.tail else s
    if signed && s1.length < 1 then (0, some NumErr.ErrSyntax)
    else
      match atoiFast s1 0 with
      | none => (0, some NumErr.ErrSyntax)
      | some n => (if s.head? = some 0x2D then -(n : Int) else (n : Int), none)
  else ParseInt s

/-- Go's `strconv.Itoa`: the decimal digits of `n`, most significant first
(`fuel` bounds the number of digits). -/
def formatNat : Nat → Nat → List Nat
  | 0, _ => []
  | fuel + 1, n => if n < 10 then [0x30 + n] else formatNat fuel (n / 10) ++ [0x30 + n % 10]

/-- Go's `strconv.Itoa`: the decimal representation of an integer. -/
def Itoa (n : Int) : List Nat :=
  if n < 0 then 0x2D :: formatNat (n.natAbs + 1) n.natAbs else formatNat (n.natAbs + 1) n.natAbs

/-! ## The parsed query -/

/-- The source's `IssueStatus`: `StatusAny = 0`, `StatusClosed = 1`, `StatusOpen = 2`. -/
inductive IssueStatus where
  | StatusAny
  | StatusClosed
  | StatusOpen
  deriving DecidableEq, Repr

/-- The source's `Query` struct. -/
structure Query where
  Status : IssueStatus
  TSVector : List Nat
  Assignee : List Nat
  Limit : Int
  Labels : List (List Nat)
  deriving DecidableEq, Repr

/-- The constant `prefixStatus`. -/
def prefixStatus : List Nat := str "status:"
/-- The constant `prefixLabel`. -/
def prefixLabel : List Nat := str "label:"
/-- The constant `prefixLimit`. -/
def prefixLimit : List Nat := str "limit:"
/-- The constant `prefixAssignee`. -/
def prefixAssignee : List Nat := str "assignee:"

/-- The username normalizer `precis.UsernameCaseMapped.String`: a string and an error. -/
abbrev Normalizer := List Nat → List Nat × Option Err

/-- The variables of `Parse` that live across iterations of its loop: the query
under construction, the builder `w`, and the strings `sep` and `no`. -/
structure ParseState where
  parsed : Query
  w : List Nat
  sep : List Nat
  no : List Nat
  deriving DecidableEq, Repr

/-- The state of `Parse` before its loop: the zero `Query`, an empty builder. -/
def ParseState.init : ParseState :=
  { parsed := { Status := IssueStatus.StatusAny, TSVector := [], Assignee := [], Limit := 0,
                Labels := [] },
    w := [], sep := [], no := [] }

/-- One iteration of the loop of `Parse` on the token `tok`. -/
def parseStep (norm : Normalizer) (st : ParseState) (tok : List Nat) : ParseState :=
  let idx := IndexByte tok 0x3A
  if idx > -1 then
    let pre := tok.take (idx + 1).toNat
    if pre = prefixAssignee then
      { st with parsed := { st.parsed with
          Assignee := (norm (tok.drop prefixAssignee.length)).1 } }
    else if pre = prefixLimit then
      { st with parsed := { st.parsed with Limit := (Atoi (tok.drop prefixLimit.length)).1 } }
    else if pre = prefixLabel then
      let l := tok.drop prefixLabel.length
      if l = [] then st
      else { st with parsed := { st.parsed with Labels := st.parsed.Labels ++ [l] } }
    else if pre = prefixStatus then
      let v := tok.drop prefixStatus.length
      if v = str "open" then
        { st with parsed := { st.parsed with Status := IssueStatus.StatusOpen } }
      else if v = str "closed" then
        { st with parsed := { st.parsed with Status := IssueStatus.StatusClosed } }
      else if v = str "any" then
        { st with parsed := { st.parsed with Status := IssueStatus.StatusAny } }
      else st
    else st
  else
    let t := trimLeading tok (str "-")
    if t = [] then st
    else
      let no := if tok ≠ t then str "!" else st.no
      { st with w := st.w ++ (st.sep ++ (no ++ t)), no := str "", sep := str "&" }

/-- The code of `Parse` after its loop: store the builder's string, default and
clamp the limit. -/
def finish (st : ParseState) : Query :=
  let parsed := { st.parsed with TSVector := st.w }
  if parsed.Limit = 0 then { parsed with Limit := 15 }
  else if parsed.Limit < 10 then { parsed with Limit := 10 }
  else if parsed.Limit > 100 then { parsed with Limit := 100 }
  else parsed

/-! ## The scanner and the entry points -/

/-- An `io.Reader` as the script of what it has to deliver: each chunk is the bytes the
reader has ready for one `Read` (an empty chunk is a `Read` that returns `(0, nil)`);
once the chunks are used up every `Read` returns `(0, err)`, where `none` stands for
`io.EOF`.  The error is reported by a `Read` of its own, as `strings.Reader`,
`bytes.Reader` and the reader of the test do. -/
structure Reader where
  chunks : List (List Nat)
  err : Option Err
  deriving DecidableEq, Repr

/-- One call `Read(p)` with `len(p) = n`: the bytes, the error and the reader
afterwards.  The reader delivers its next chunk, or the first `n` bytes of it when the
chunk is longer (the rest stays for the next `Read`).  The error is `none` for `nil`,
`some none` for `io.EOF` and `some (some e)` for the error `e`. -/
def Reader.Read (r : Reader) (n : Nat) : List Nat × Option (Option Err) × Reader :=
  match r.chunks with
  | [] => ([], some r.err, r)
  | c :: cs =>
    if c.length ≤ n then (c, none, { r with chunks := cs })
    else (c.take n, none, { r with chunks := c.drop n :: cs })

/-- The constant `bufio.MaxScanTokenSize`. -/
def maxTokenSize : Nat := 64 * 1024

/-- The constant `startBufSize` of `bufio`: the size of the first buffer. -/
def startBufSize : Nat := 4096

/-- The constant `maxConsecutiveEmptyReads` of `bufio`. -/
def maxConsecutiveEmptyReads : Nat := 100

/-- The error `bufio.ErrTooLong`. -/
def ErrTooLong : Err := "bufio.Scanner: token too long"

/-- The error `io.ErrNoProgress`. -/
def ErrNoProgress : Err := "multiple Read calls return no data or error"

/-- A `bufio.Scanner` with split function `scanTokens`: the reader, the length of the
buffer `len(s.buf)`, the offset `s.start`, the unread bytes `s.buf[s.start:s.end]`
(so that `s.end = start + data.length`), and the sticky error `s.err` (`none` for
`nil`, `some none` for `io.EOF`). -/
structure Scanner where
  r : Reader
  bufLen : Nat
  start : Nat
  data : List Nat
  err : Option (Option Err)
  deriving DecidableEq, Repr

/-- The source's `bufio.NewScanner(r)` followed by `s.Split(scanTokens)`: no buffer
yet, the maximal token size is `bufio.MaxScanTokenSize`. -/
def NewScanner (r : Reader) : Scanner :=
  { r := r, bufLen := 0, start := 0, data := [], err := none }

/-- The reading loop of `Scanner.Scan`, into a free space of `n` bytes: `Read` is
called until it returns bytes or an error; `k` is the number of empty reads still
allowed, and when none is left the error is `io.ErrNoProgress`. -/
def readLoop (n : Nat) : Nat → Reader → List Nat × Option (Option Err) × Reader
  | 0, r => ([], some (some ErrNoProgress), r)
  | k + 1, r =>
    if (r.Read n).2.1 ≠ none ∨ (r.Read n).1 ≠ [] then r.Read n
    else readLoop n k (r.Read n).2.2

/-- The end of one iteration of the loop of `Scanner.Scan`: `Scan` returns (with a
token, or `false`), or the loop goes round again. -/
inductive ScanStep where
  | ret (tok : Option (List Nat)) (s : Scanner)
  | again (s : Scanner)
  deriving DecidableEq, Repr

/-- The last part of an iteration of the loop of `Scanner.Scan`: read into the free
space of the buffer, append what was read and keep the error. -/
def Scanner.fill (s : Scanner) : Scanner :=
  { s with
    data := s.data ++ (readLoop (s.bufLen - (s.start + s.data.length))
      (maxConsecutiveEmptyReads + 1) s.r).1,
    err := (readLoop (s.bufLen - (s.start + s.data.length))
      (maxConsecutiveEmptyReads + 1) s.r).2.1,
    r := (readLoop (s.bufLen - (s.start + s.data.length))
      (maxConsecutiveEmptyReads + 1) s.r).2.2 }

/-- The first part of an iteration of the loop of `Scanner.Scan`: the result of the
split function on what is buffered, with `atEOF = true` once an error is held; the
split function is not called on an empty buffer without error. -/
def Scanner.split (s : Scanner) : Nat × Option (List Nat) × Option Err :=
  if s.data ≠ [] ∨ s.err ≠ none then scanTokens s.data s.err.isSome else (0, none, none)

/-- The scanner after `s.advance(n)`. -/
def Scanner.advance (s : Scanner) (n : Nat) : Scanner :=
  { s with start := s.start + n, data := s.data.drop n }

/-- The scanner after the unread bytes were moved to the start of the buffer, which
`Scan` does before a read when the buffer is used up to its end or more than half of
it is read. -/
def Scanner.shift (s : Scanner) : Scanner :=
  if 0 < s.start ∧ (s.start + s.data.length = s.bufLen ∨ s.bufLen / 2 < s.start)
  then { s with start := 0 } else s

/-- The scanner with its buffer doubled (from nothing to `startBufSize`), up to
`maxTokenSize`. -/
def Scanner.grow (s : Scanner) : Scanner :=
  { s with
    bufLen := min (if s.bufLen * 2 = 0 then startBufSize else s.bufLen * 2) maxTokenSize,
    start := 0 }

/-- One iteration of the loop of `Scanner.Scan`: split what is buffered and advance;
return a token if there is one; return `false` if an error is held; else move the
unread bytes to the start of the buffer if space is needed, give up with
`bufio.ErrTooLong` if the buffer is full at its maximal size, double it if it is full,
and read. -/
def scanStep (s : Scanner) : ScanStep :=
  match s.split.2.1 with
  | some tok => ScanStep.ret (some tok) (s.advance s.split.1)
  | none =>
    if (s.advance s.split.1).err ≠ none then
      ScanStep.ret none { s.advance s.split.1 with start := 0, data := [] }
    else if (s.advance s.split.1).shift.start + (s.advance s.split.1).shift.data.length =
        (s.advance s.split.1).shift.bufLen then
      if maxTokenSize ≤ (s.advance s.split.1).shift.bufLen then
        ScanStep.ret none { (s.advance s.split.1).shift with err := some (some ErrTooLong) }
      else ScanStep.again (s.advance s.split.1).shift.grow.fill
    else ScanStep.again (s.advance s.split.1).shift.fill

/-- The loop of `Scanner.Scan`; `fuel` bounds its iterations. -/
def scanLoop : Nat → Scanner → Option (List Nat) × Scanner
  | 0, s => (none, s)
  | fuel + 1, s =>
    match scanStep s with
    | ScanStep.ret tok s1 => (tok, s1)
    | ScanStep.again s1 => scanLoop fuel s1

/-- The number of bytes a reader delivers. -/
def Reader.size (r : Reader) : Nat := (r.chunks.map List.length).sum

/-- Go's `Scanner.Scan`: the next token (`none` when `Scan` returns false) and the
scanner afterwards.  Every iteration but the last two reads a byte or uses up a
chunk, which bounds the iterations. -/
def Scanner.Scan (s : Scanner) : Option (List Nat) × Scanner :=
  scanLoop (s.r.size + s.r.chunks.length + 2) s

/-- Go's `Scanner.Err`: the error held, `nil` when it is `io.EOF`. -/
def Scanner.Err (s : Scanner) : Option Err :=
  match s.err with
  | some (some e) => some e
  | _ => none

/-- The loop `for s.Scan() { ... }` of `Parse`; every iteration that runs consumes
at least one byte, `fuel` bounds the iterations. -/
def parseLoop (norm : Normalizer) : Nat → Scanner → ParseState → ParseState × Scanner
  | 0, s, st => (st, s)
  | fuel + 1, s, st =>
    match s.Scan with
    | (some tok, s1) => parseLoop norm fuel s1 (parseStep norm st tok)
    | (none, s1) => (st, s1)

/-- The source's `Parse`: the parsed query and `s.Err()`. -/
def Parse (norm : Normalizer) (r : Reader) : Query × Option Err :=
  let res := parseLoop norm (r.size + 1) (NewScanner r) ParseState.init
  (finish res.1, res.2.Err)

/-- Go's `strings.NewReader`: every `Read` copies as much of the rest of the string as
the caller's buffer holds, and `Read` returns `io.EOF` once nothing is left. -/
def stringsNewReader (q : List Nat) : Reader :=
  { chunks := if q = [] then [] else [q], err := none }

/-- Go's `bytes.NewReader`, which reads as `strings.NewReader` does. -/
def bytesNewReader (q : List Nat) : Reader :=
  { chunks := if q = [] then [] else [q], err := none }

/-- The source's `String`. -/
def String (norm : Normalizer) (q : List Nat) : Query :=
  (Parse norm (stringsNewReader q)).1

/-- The source's `Bytes`. -/
def Bytes (norm : Normalizer) (q : List Nat) : Query :=
  (Parse norm (bytesNewReader q)).1

/-- A stand-in normalizer for concrete runs: it returns its argument and no error
(what `precis.UsernameCaseMapped` does on lower-case ASCII names). -/
def idNorm : Normalizer := fun v => (v, none)

/-- The bytes a reader delivers before it reports its error, in order. -/
def Reader.content (r : Reader) : List Nat := r.chunks.flatten

/-- The bytes a scanner has still to split: its unread bytes and, while it holds no
error, what the reader has still to deliver. -/
def Scanner.pending (s : Scanner) : List Nat :=
  s.data ++ (if s.err = none then s.r.content else [])

/-- The number of empty chunks at the head of a reader's script. -/
def leadingEmpty : List (List Nat) → Nat
  | [] => 0
  | c :: cs => if c = [] then leadingEmpty cs + 1 else 0

/-- Whether a reader's script never has more than `maxConsecutiveEmptyReads` empty
chunks in a row: such a reader never makes the scanner give up with
`io.ErrNoProgress`. -/
def noStall : List (List Nat) → Bool
  | [] => true
  | c :: cs => decide (leadingEmpty (c :: cs) ≤ maxConsecutiveEmptyReads) && noStall cs

/-- The length up to which a token is sure to fit the buffer of the scanner together
with the code point that ends it (at most four bytes). -/
def maxFit : Nat := maxTokenSize - 4

/-- Whether every token of the input fits the buffer of the scanner. -/
def Fits (q : List Nat) : Prop := ∀ tok ∈ tokens q, tok.length ≤ maxFit

/-- A token too long for the buffer of the scanner: `maxTokenSize` bytes `x`. -/
def longToken : List Nat := List.replicate maxTokenSize 0x78

instance (q : List Nat) : Decidable (Fits q) :=
  inferInstanceAs (Decidable (∀ tok ∈ tokens q, tok.length ≤ maxFit))

/-- What a reader has still to do: the bytes and the chunks it has to deliver. -/
def Reader.weight (r : Reader) : Nat := r.size + r.chunks.length

/-- The invariant of a scanner that runs over a reader without stall: the unread
bytes lie within the buffer, the buffer is no longer than `maxTokenSize`, and the error
held, if any, is the reader's. -/
def Scanner.Inv (s : Scanner) : Prop :=
  s.start + s.data.length ≤ s.bufLen ∧ s.bufLen ≤ maxTokenSize ∧
  (s.err = none ∨ s.err = some s.r.err) ∧ noStall s.r.chunks = true

/-- A token with an unknown key that is too long for the buffer of the scanner:
`another:` and `maxTokenSize` bytes `x`. -/
def longDirective : List Nat := str "another:" ++ longToken

/-! ## The token scanner with checked slices -/

/-- The Go slice expression `data[lo:]`, which panics (`none`) when `lo > len(data)`. -/
def sliceFromChecked (data : List Nat) (lo : Nat) : Option (List Nat) :=
  if lo ≤ data.length then some (data.drop lo) else none

/-- The Go slice expression `data[lo:hi]`, which panics (`none`) unless
`lo ≤ hi ≤ len(data)`. -/
def sliceChecked (data : List Nat) (lo hi : Nat) : Option (List Nat) :=
  if lo ≤ hi ∧ hi ≤ data.length then some (slice data lo hi) else none

/-- The first loop of `scanTokens` with its slice expression checked: `none` is a
panic. -/
def skipLeadingChecked (data : List Nat) : Nat → Nat → Option Nat
  | 0, start => some start
  | fuel + 1, start =>
    if start < data.length then
      match sliceFromChecked data start with
      | none => none
      | some p =>
        let rw := decodeRune p
        if !isSkipable rw.1 then some start
        else skipLeadingChecked data fuel (start + rw.2)
    else some start

/-- The second loop of `scanTokens` with its slice expressions checked: `none` is a
panic, `some none` is the loop running off the data. -/
def scanWordChecked (data : List Nat) (start : Nat) :
    Nat → Nat → Option (Option (Nat × List Nat))
  | 0, _ => some none
  | fuel + 1, i =>
    if i < data.length then
      match sliceFromChecked data i with
      | none => none
      | some p =>
        let rw := decodeRune p
        if isSkipable rw.1 then
          match sliceChecked data start i with
          | none => none
          | some tok => some (some (i + rw.2, tok))
        else scanWordChecked data start fuel (i + rw.2)
    else some none

/-- The source's `scanTokens` with every slice expression checked: `none` is a panic
(an index out of range). -/
def scanTokensChecked (data : List Nat) (atEOF : Bool) :
    Option (Nat × Option (List Nat) × Option Err) :=
  match skipLeadingChecked data (data.length + 1) 0 with
  | none => none
  | some start =>
    match scanWordChecked data start (data.length + 1) start with
    | none => none
    | some (some (adv, tok)) => some (adv, some tok, none)
    | some none =>
      if atEOF && data.length > start then
        match sliceFromChecked data start with
        | none => none
        | some tok => some (data.length, some tok, none)
      else some (start, none, none)

/-! ## Reference values, written after the specification -/

/-- The text of a token up to and including its first `:` (the whole token when it
has none). -/
def keyOf (tok : List Nat) : List Nat := tok.take (tok.indexOf 0x3A + 1)

/-- The text of a token after its first `:`. -/
def valueOf (tok : List Nat) : List Nat := tok.drop (tok.indexOf 0x3A + 1)

/-- The term a token contributes to the search expression: none when the token
contains `:` or is empty once one leading `-` is removed; `!` and the rest for a
token that begins with `-`; the token itself otherwise. -/
def renderTerm (tok : List Nat) : Option (List Nat) :=
  if 0x3A ∈ tok then none
  else
    match tok with
    | [] => none
    | b :: rest =>
      if b = 0x2D then (if rest = [] then none else some (0x21 :: rest))
      else some (b :: rest)

/-- The accepted terms of a token sequence, rendered, in order. -/
def specTerms (toks : List (List Nat)) : List (List Nat) := toks.filterMap renderTerm

/-- The reference search expression: the rendered terms joined by a single `&`. -/
def specTSVector (toks : List (List Nat)) : List Nat :=
  List.intercalate [0x26] (specTerms toks)

/-- The status a token names: only the exact tokens `status:open`, `status:closed`
and `status:any` name one. -/
def statusOf (tok : List Nat) : Option IssueStatus :=
  if tok = str "status:open" then some IssueStatus.StatusOpen
  else if tok = str "status:closed" then some IssueStatus.StatusClosed
  else if tok = str "status:any" then some IssueStatus.StatusAny
  else none

/-- The reference status: the one named by the last token that names one, else
`StatusAny`. -/
def specStatus (toks : List (List Nat)) : IssueStatus :=
  ((toks.filterMap statusOf).getLast?).getD IssueStatus.StatusAny

/-- The label a token adds: the non-empty text after the prefix of a `label:` token. -/
def labelOf (tok : List Nat) : Option (List Nat) :=
  if 0x3A ∈ tok ∧ keyOf tok = str "label:" ∧ valueOf tok ≠ [] then some (valueOf tok) else none

/-- The reference labels: the labels the tokens add, in order of appearance. -/
def specLabels (toks : List (List Nat)) : List (List Nat) := toks.filterMap labelOf

/-- The value of an `assignee:` token. -/
def assigneeOf (tok : List Nat) : Option (List Nat) :=
  if 0x3A ∈ tok ∧ keyOf tok = str "assignee:" then some (valueOf tok) else none

/-- The reference assignee: what the normalizer returns for the value of the last
`assignee:` token, error or not; empty without such a token. -/
def specAssignee (norm : Normalizer) (toks : List (List Nat)) : List Nat :=
  (((toks.filterMap assigneeOf).getLast?).map (fun v => (norm v).1)).getD []

/-- The value of a `limit:` token. -/
def limitOf (tok : List Nat) : Option (List Nat) :=
  if 0x3A ∈ tok ∧ keyOf tok = str "limit:" then some (valueOf tok) else none

/-- The defaulting of the limit as the specification words it: `15` for `0`, else
at least `10` and at most `100`. -/
def clampLimit (n : Int) : Int :=
  if n = 0 then 15 else if n < 10 then 10 else if n > 100 then 100 else n

/-- Whether the decoding of `u` holds no skippable code point. -/
def noSkippable (u : List Nat) : Bool := (runes u).all (fun r => !isSkipable r)

/-- The number of occurrences of the byte `c` in `s` (Go's `strings.Count`). -/
def countByte (c : Nat) (s : List Nat) : Nat := s.count c

/-- The invariant of the loop of `Parse` on the builder: `no` is empty, the builder
holds the terms accepted so far joined by `&`, and `sep` is `&` once a term was
written. -/
def BuilderInv (st : ParseState) (acc : List (List Nat)) : Prop :=
  st.no = [] ∧ st.sep = (if acc = [] then [] else [0x26]) ∧ st.w = List.intercalate [0x26] acc

/-- A byte string at whose start a code point can start: it is empty or its first
byte is not a continuation byte. -/
def Boundary (x : List Nat) : Prop :=
  x = [] ∨ ∃ b rest, x = b :: rest ∧ isCont b = false

/-- A term of the search expression without one leading `!`. -/
def stripBang (t : List Nat) : List Nat :=
  match t with
  | [] => []
  | c :: rest => if c = 0x21 then rest else c :: rest

/-- What a rendered term is, for the input `q`: a token of `q` without `:` that does
not begin with `-`, or `!` and the non-empty rest of a token `-rest` without `:`. -/
def GoodTerm (q : List Nat) (term : List Nat) : Prop :=
  (term ∈ tokens q ∧ 0x3A ∉ term ∧ term.head? ≠ some 0x2D) ∨
  (∃ rest, rest ≠ [] ∧ term = 0x21 :: rest ∧ 0x2D :: rest ∈ tokens q ∧ 0x3A ∉ rest)

/-- The byte offset just past the leading run of skippable code points of `data`. -/
def leadEnd (data : List Nat) : Nat := (bytesOf ((segs data).takeWhile skipP)).length

/-- The byte offset of the first skippable code point at or after `leadEnd data`; the
length of `data` when there is none. -/
def wordEnd (data : List Nat) : Nat :=
  leadEnd data + (bytesOf (((segs data).dropWhile skipP).takeWhile wordP)).length

/-- The first skippable code point at or after `leadEnd data`, with its bytes. -/
def firstDelim (data : List Nat) : Option (Nat × List Nat) :=
  (((segs data).dropWhile skipP).dropWhile wordP).head?

/-- The incremental driver as the specification words it: split the buffered bytes
with `atEOF = false`, drop `advance` bytes, emit the token if one is returned, append
the next chunk when none is returned; once all chunks are buffered, tokenize what is
left with `atEOF = true`. -/
def driveChunks : Nat → List (List Nat) → List Nat → List (List Nat)
  | 0, _, _ => []
  | fuel + 1, chunks, buf =>
    match chunks with
    | [] => tokens buf
    | c :: cs =>
      match (scanTokens buf false).2.1 with
      | some tok => tok :: driveChunks fuel (c :: cs) (buf.drop (scanTokens buf false).1)
      | none => driveChunks fuel cs (buf.drop (scanTokens buf false).1 ++ c)

/-- The `Query` of an input without tokens: every field at its default. -/
def emptyQuery : Query :=
  { Status := IssueStatus.StatusAny, TSVector := [], Assignee := [], Limit := 15, Labels := [] }

/-! ## Decoding lemmas -/

theorem decodeRune_width_le (p : List Nat) : (decodeRune p).2 ≤ p.length := by
  rcases p with _ | ⟨p0, _ | ⟨b1, _ | ⟨b2, _ | ⟨b3, rest⟩⟩⟩⟩ <;>
    simp only [decodeRune, decodeMulti] <;> (repeat' split) <;> simp

theorem decodeRune_width_pos (p : List Nat) (h : p ≠ []) : 1 ≤ (decodeRune p).2 := by
  rcases p with _ | ⟨p0, _ | ⟨b1, _ | ⟨b2, _ | ⟨b3, rest⟩⟩⟩⟩ <;>
    simp only [decodeRune, decodeMulti] <;> (repeat' split) <;> simp at *

theorem segsAux_fuel (f g : Nat) (p : List Nat) (hf : p.length ≤ f) (hg : p.length ≤ g) :
    segsAux f p = segsAux g p := by
  induction f generalizing g p with
  | zero =>
    have : p = [] := List.length_eq_zero.mp (by omega)
    subst this
    cases g <;> simp [segsAux]
  | succ f ih =>
    cases g with
    | zero =>
      have : p = [] := List.length_eq_zero.mp (by omega)
      subst this
      simp [segsAux]
    | succ g =>
      by_cases hp : p = []
      · simp [segsAux, hp]
      · have h1 := decodeRune_width_pos p hp
        have hlen : 0 < p.length := List.length_pos.mpr hp
        simp only [segsAux, hp, if_false]
        rw [ih g (p.drop (decodeRune p).2) (by simp; omega) (by simp; omega)]

theorem segs_nil : segs [] = [] := rfl

theorem segs_of_ne_nil (p : List Nat) (hp : p ≠ []) :
    segs p = ((decodeRune p).1, p.take (decodeRune p).2) :: segs (p.drop (decodeRune p).2) := by
  have h1 := decodeRune_width_pos p hp
  have hlen : 0 < p.length := List.length_pos.mpr hp
  unfold segs
  obtain ⟨n, hn⟩ : ∃ n, p.length = n + 1 := ⟨p.length - 1, by omega⟩
  rw [hn]
  simp only [segsAux, hp, if_false]
  rw [segsAux_fuel n _ (p.drop (decodeRune p).2) (by simp; omega) (le_refl _)]

theorem bytesOf_nil : bytesOf [] = [] := rfl

theorem bytesOf_cons (s : Nat × List Nat) (S : List (Nat × List Nat)) :
    bytesOf (s :: S) = s.2 ++ bytesOf S := by
  simp [bytesOf]

theorem bytesOf_append (A B : List (Nat × List Nat)) :
    bytesOf (A ++ B) = bytesOf A ++ bytesOf B := by
  simp [bytesOf]

/-- Induction along the decoding of a byte string. -/
theorem decode_induction {P : List Nat → Prop} (h0 : P [])
    (hstep : ∀ p, p ≠ [] → P (p.drop (decodeRune p).2) → P p) : ∀ p, P p := by
  have key : ∀ n, ∀ p : List Nat, p.length ≤ n → P p := by
    intro n
    induction n with
    | zero =>
      intro p hp
      have : p = [] := List.length_eq_zero.mp (by omega)
      subst this; exact h0
    | succ n ih =>
      intro p hp
      by_cases hnil : p = []
      · subst hnil; exact h0
      · have h1 := decodeRune_width_pos p hnil
        have hlen : 0 < p.length := List.length_pos.mpr hnil
        exact hstep p hnil (ih _ (by simp; omega))
  exact fun p => key p.length p (le_refl _)

/-- The bytes of the decoded code points are the input. -/
theorem bytesOf_segs (p : List Nat) : bytesOf (segs p) = p := by
  induction p using decode_induction with
  | h0 => rfl
  | hstep p hp ih =>
    rw [segs_of_ne_nil p hp, bytesOf_cons]
    simp only
    rw [ih, List.take_append_drop]

/-- Every decoded code point stands on at least one byte. -/
theorem segs_snd_ne_nil (p : List Nat) : ∀ s ∈ segs p, s.2 ≠ [] := by
  induction p using decode_induction with
  | h0 => simp [segs_nil]
  | hstep p hp ih =>
    have h1 := decodeRune_width_pos p hp
    rw [segs_of_ne_nil p hp]
    intro s hs
    rcases List.mem_cons.mp hs with rfl | hs
    · simp only [ne_eq, List.take_eq_nil_iff, hp, or_false]; omega
    · exact ih s hs

/-- The decoded code points of a suffix that starts on a code point boundary. -/
theorem segs_split (p : List Nat) (A B : List (Nat × List Nat)) (h : segs p = A ++ B) :
    segs (p.drop (bytesOf A).length) = B ∧ p.take (bytesOf A).length = bytesOf A := by
  induction A generalizing p with
  | nil => simpa [bytesOf] using h
  | cons a A ih =>
    by_cases hp : p = []
    · subst hp; simp [segs_nil] at h
    · rw [segs_of_ne_nil p hp] at h
      simp only [List.cons_append, List.cons.injEq] at h
      obtain ⟨ha, hrest⟩ := h
      have hw := decodeRune_width_le p
      have ha2 : a.2 = p.take (decodeRune p).2 := by rw [← ha]
      have hl : a.2.length = (decodeRune p).2 := by rw [ha2]; simp; omega
      obtain ⟨i1, i2⟩ := ih _ hrest
      rw [bytesOf_cons, List.length_append, hl]
      constructor
      · rw [← List.drop_drop] at *; exact i1
      · rw [List.take_add, i2, ha2]

/-! ## The two loops of `scanTokens` -/

theorem skipLeading_eq (data : List Nat) : ∀ (fuel start : Nat), start ≤ data.length →
    data.length - start < fuel →
    skipLeading data fuel start =
      start + (bytesOf ((segs (data.drop start)).takeWhile skipP)).length := by
  intro fuel
  induction fuel with
  | zero => intro start _ h; omega
  | succ fuel ih =>
    intro start hle hfuel
    unfold skipLeading
    by_cases hlt : start < data.length
    · have hp : data.drop start ≠ [] := by
        intro h; have := congrArg List.length h; simp at this; omega
      have h1 := decodeRune_width_pos _ hp
      have h2 := decodeRune_width_le (data.drop start)
      simp only [List.length_drop] at h2
      rw [if_pos hlt, segs_of_ne_nil _ hp]
      cases hs : isSkipable (decodeRune (data.drop start)).1
      · simp [List.takeWhile_cons, hs, bytesOf_nil]
      · simp only [Bool.not_true, Bool.false_eq_true, if_false]
        rw [ih (start + (decodeRune (data.drop start)).2) (by omega) (by omega)]
        simp only [List.takeWhile_cons, hs, if_true, bytesOf_cons, List.length_append,
          List.length_take, List.length_drop, List.drop_drop]
        simp only [Bool.not_true, Bool.false_eq_true, if_false]
        omega
    · have : data.drop start = [] := List.drop_eq_nil_of_le (by omega)
      rw [if_neg hlt, this, segs_nil]
      simp [bytesOf_nil]

theorem scanWord_eq (data : List Nat) (start : Nat) : ∀ (fuel i : Nat), i ≤ data.length →
    data.length - i < fuel →
    scanWord data start fuel i =
      match (segs (data.drop i)).dropWhile wordP with
      | [] => none
      | d :: _ =>
        some (i + (bytesOf ((segs (data.drop i)).takeWhile wordP)).length + d.2.length,
          slice data start (i + (bytesOf ((segs (data.drop i)).takeWhile wordP)).length)) := by
  intro fuel
  induction fuel with
  | zero => intro i _ h; omega
  | succ fuel ih =>
    intro i hle hfuel
    unfold scanWord
    by_cases hlt : i < data.length
    · have hp : data.drop i ≠ [] := by
        intro h; have := congrArg List.length h; simp at this; omega
      have h1 := decodeRune_width_pos _ hp
      have h2 := decodeRune_width_le (data.drop i)
      simp only [List.length_drop] at h2
      rw [if_pos hlt, segs_of_ne_nil _ hp]
      cases hs : isSkipable (decodeRune (data.drop i)).1
      · simp only [Bool.false_eq_true, if_false]
        rw [ih (i + (decodeRune (data.drop i)).2) (by omega) (by omega)]
        have hw : wordP ((decodeRune (data.drop i)).1,
            List.take (decodeRune (data.drop i)).2 (data.drop i)) = true := by
          simp [wordP, hs]
        simp only [List.takeWhile_cons, List.dropWhile_cons, hw, if_true,
          bytesOf_cons, List.length_append,
          List.length_take, List.length_drop, List.drop_drop]
        have e : min (decodeRune (data.drop i)).2 (data.length - i) = (decodeRune (data.drop i)).2 := by
          omega
        rw [e]
        simp only [hs, Bool.false_eq_true, if_false, Nat.add_assoc]
      · simp [List.takeWhile_cons, List.dropWhile_cons, hs, bytesOf_nil]
        omega
    · have : data.drop i = [] := List.drop_eq_nil_of_le (by omega)
      rw [if_neg hlt, this, segs_nil]
      simp

theorem length_eq_bytesOf_segs (data : List Nat) : data.length = (bytesOf (segs data)).length := by
  rw [bytesOf_segs]

theorem takeWhile_skip_decomp (A X : List (Nat × List Nat)) (hA : ∀ a ∈ A, skipP a = true)
    (hX : X = [] ∨ ∃ x X', X = x :: X' ∧ skipP x = false) :
    (A ++ X).takeWhile skipP = A ∧ (A ++ X).dropWhile skipP = X := by
  rw [List.takeWhile_append_of_pos hA, List.dropWhile_append_of_pos hA]
  rcases hX with rfl | ⟨x, X', rfl, hx⟩
  · simp
  · simp [List.takeWhile_cons, List.dropWhile_cons, hx]

theorem takeWhile_word_decomp (T X : List (Nat × List Nat)) (hT : ∀ t ∈ T, wordP t = true)
    (hX : X = [] ∨ ∃ x X', X = x :: X' ∧ wordP x = false) :
    (T ++ X).takeWhile wordP = T ∧ (T ++ X).dropWhile wordP = X := by
  rw [List.takeWhile_append_of_pos hT, List.dropWhile_append_of_pos hT]
  rcases hX with rfl | ⟨x, X', rfl, hx⟩
  · simp
  · simp [List.takeWhile_cons, List.dropWhile_cons, hx]

theorem wordP_eq_not_skipP (s : Nat × List Nat) : wordP s = !skipP s := rfl

/-- The outcome of `scanTokens` when a delimiter follows the first word. -/
theorem scanTokens_delim (data : List Nat) (atEOF : Bool)
    (A T R : List (Nat × List Nat)) (d : Nat × List Nat)
    (hS : segs data = A ++ (T ++ d :: R)) (hA : ∀ a ∈ A, skipP a = true)
    (hT : ∀ t ∈ T, wordP t = true) (hne : T ≠ []) (hd : skipP d = true) :
    scanTokens data atEOF =
      ((bytesOf A).length + (bytesOf T).length + d.2.length, some (bytesOf T), none) := by
  obtain ⟨t, T', rfl⟩ := List.exists_cons_of_ne_nil hne
  have ht : skipP t = false := by
    have := hT t (List.mem_cons_self _ _)
    simpa [wordP_eq_not_skipP] using this
  have hlen : data.length = (bytesOf (A ++ (t :: T' ++ d :: R))).length := by
    rw [← hS, bytesOf_segs]
  have h1 := takeWhile_skip_decomp A (t :: T' ++ d :: R) hA (Or.inr ⟨t, T' ++ d :: R, rfl, ht⟩)
  have h2 := takeWhile_word_decomp (t :: T') (d :: R) hT
    (Or.inr ⟨d, R, rfl, by simp [wordP_eq_not_skipP, hd]⟩)
  have h3 := segs_split data A _ hS
  have h4 := segs_split data (A ++ t :: T') (d :: R) (by rw [hS]; simp)
  have hstart : skipLeading data (data.length + 1) 0 = (bytesOf A).length := by
    rw [skipLeading_eq data _ 0 (Nat.zero_le _) (by omega)]
    simp only [List.drop_zero, Nat.zero_add, hS, h1.1]
  unfold scanTokens
  simp only [hstart]
  rw [scanWord_eq data _ _ _ (by rw [hlen, bytesOf_append]; simp) (by omega)]
  rw [h3.1, h2.1, h2.2]
  simp only
  congr 2
  · unfold slice
    rw [← List.length_append, ← bytesOf_append, h4.2, bytesOf_append, List.drop_left]

/-- The outcome of `scanTokens` when no delimiter follows the first word. -/
theorem scanTokens_end (data : List Nat) (atEOF : Bool)
    (A T : List (Nat × List Nat))
    (hS : segs data = A ++ T) (hA : ∀ a ∈ A, skipP a = true)
    (hT : ∀ t ∈ T, wordP t = true) :
    scanTokens data atEOF =
      if atEOF = true ∧ T ≠ [] then (data.length, some (bytesOf T), none)
      else ((bytesOf A).length, none, none) := by
  have hX : T = [] ∨ ∃ x X', T = x :: X' ∧ skipP x = false := by
    rcases T with _ | ⟨t, T'⟩
    · exact Or.inl rfl
    · refine Or.inr ⟨t, T', rfl, ?_⟩
      have := hT t (List.mem_cons_self _ _)
      simpa [wordP_eq_not_skipP] using this
  have hlen : data.length = (bytesOf A).length + (bytesOf T).length := by
    rw [length_eq_bytesOf_segs, hS, bytesOf_append, List.length_append]
  have h1 := takeWhile_skip_decomp A T hA hX
  have h2 := takeWhile_word_decomp T [] hT (Or.inl rfl)
  simp only [List.append_nil] at h2
  have h3 := segs_split data A _ hS
  have hstart : skipLeading data (data.length + 1) 0 = (bytesOf A).length := by
    rw [skipLeading_eq data _ 0 (Nat.zero_le _) (by omega)]
    simp only [List.drop_zero, Nat.zero_add, hS, h1.1]
  have hdrop : data.drop (bytesOf A).length = bytesOf T := by
    have := bytesOf_segs (data.drop (bytesOf A).length)
    rw [h3.1] at this; exact this.symm
  unfold scanTokens
  simp only [hstart]
  rw [scanWord_eq data _ _ _ (by omega) (by omega)]
  rw [h3.1, h2.2, hdrop]
  simp only
  have hTlen : T ≠ [] ↔ (bytesOf A).length < data.length := by
    constructor
    · intro hne
      obtain ⟨t, T', rfl⟩ := List.exists_cons_of_ne_nil hne
      have hmem : t ∈ segs data := by rw [hS]; simp
      have := segs_snd_ne_nil data t hmem
      have : 0 < t.2.length := List.length_pos.mpr this
      rw [hlen, bytesOf_cons, List.length_append]; omega
    · intro hlt hnil
      subst hnil
      simp [bytesOf_nil] at hlen; omega
  by_cases hc : atEOF = true ∧ T ≠ []
  · rw [if_pos hc]
    have := hTlen.mp hc.2
    simp [hc.1, this]
  · rw [if_neg hc]
    have : ¬ (atEOF = true ∧ (bytesOf A).length < data.length) := by
      rw [← hTlen]; exact hc
    simp only [Bool.and_eq_true, decide_eq_true_eq, gt_iff_lt, this, if_false]

/-- Every decoded input is a run of skippable code points, then a run of
non-skippable ones, then nothing or a skippable code point and a rest. -/
theorem segs_decomp (S : List (Nat × List Nat)) :
    ∃ A T R, S = A ++ (T ++ R) ∧ (∀ a ∈ A, skipP a = true) ∧ (∀ t ∈ T, wordP t = true) ∧
      (R = [] ∨ (T ≠ [] ∧ ∃ d R', R = d :: R' ∧ skipP d = true)) := by
  refine ⟨S.takeWhile skipP, (S.dropWhile skipP).takeWhile wordP,
    (S.dropWhile skipP).dropWhile wordP, ?_, ?_, ?_, ?_⟩
  · rw [List.takeWhile_append_dropWhile, List.takeWhile_append_dropWhile]
  · intro a ha; exact (List.mem_takeWhile_imp ha)
  · intro a ha; exact (List.mem_takeWhile_imp ha)
  · rcases hR : (S.dropWhile skipP).dropWhile wordP with _ | ⟨d, R'⟩
    · exact Or.inl rfl
    · right
      have hd : wordP d = false := by
        have := List.head_dropWhile_not wordP (S.dropWhile skipP) (by rw [hR]; simp)
        simpa [hR] using this
      constructor
      · intro hT
        rcases hS1 : S.dropWhile skipP with _ | ⟨x, X⟩
        · rw [hS1] at hR; simp at hR
        · have hx : skipP x = false := by
            have := List.head_dropWhile_not skipP S (by rw [hS1]; simp)
            simpa [hS1] using this
          rw [hS1] at hT
          simp [List.takeWhile_cons, wordP_eq_not_skipP, hx] at hT
      · exact ⟨d, R', rfl, by simpa [wordP_eq_not_skipP] using hd⟩

/-! ## The tokens of a complete input -/

theorem splitSegs_skip_run (A X : List (Nat × List Nat)) (hA : ∀ a ∈ A, skipP a = true) :
    splitSegs (A ++ X) [] = splitSegs X [] := by
  induction A with
  | nil => rfl
  | cons a A ih =>
    have ha : isSkipable a.1 = true := hA a (List.mem_cons_self _ _)
    simp only [List.cons_append, splitSegs, ha, if_true]
    exact ih (fun x hx => hA x (List.mem_cons_of_mem _ hx))

theorem splitSegs_word_run (T X cur : List (Nat × List Nat)) (hT : ∀ t ∈ T, wordP t = true) :
    splitSegs (T ++ X) cur = splitSegs X (cur ++ T) := by
  induction T generalizing cur with
  | nil => simp
  | cons t T ih =>
    have ht : isSkipable t.1 = false := by
      have := hT t (List.mem_cons_self _ _)
      simpa [wordP] using this
    have h := ih (cur ++ [t]) (fun x hx => hT x (List.mem_cons_of_mem _ hx))
    simp only [List.cons_append, splitSegs, ht, Bool.false_eq_true, if_false]
    simpa using h

theorem splitSegs_delim (d : Nat × List Nat) (X cur : List (Nat × List Nat))
    (hd : skipP d = true) (hc : cur ≠ []) :
    splitSegs (d :: X) cur = cur :: splitSegs X [] := by
  have hd1 : isSkipable d.1 = true := hd
  simp [splitSegs, hd1, hc]

theorem scanTokens_nil (atEOF : Bool) : scanTokens [] atEOF = (0, none, none) := by
  cases atEOF <;> rfl

theorem tokensAux_nil (fuel : Nat) : tokensAux fuel [] = [] := by
  cases fuel with
  | zero => rfl
  | succ n => simp [tokensAux, scanTokens_nil]

theorem tokensAux_eq : ∀ (fuel : Nat) (data : List Nat), data.length < fuel →
    tokensAux fuel data = (splitSegs (segs data) []).map bytesOf := by
  intro fuel
  induction fuel with
  | zero => intro data h; omega
  | succ fuel ih =>
    intro data hlen
    obtain ⟨A, T, R, hS, hA, hT, hR⟩ := segs_decomp (segs data)
    rcases hR with rfl | ⟨hne, d, R', rfl, hd⟩
    · rw [List.append_nil] at hS
      have hsc := scanTokens_end data true A T hS hA hT
      rw [hS, splitSegs_skip_run A T hA]
      have hw := splitSegs_word_run T [] [] hT
      simp only [List.append_nil, List.nil_append] at hw
      rw [hw]
      by_cases hne : T = []
      · subst hne
        simp [tokensAux, hsc, splitSegs]
      · rw [if_pos ⟨rfl, hne⟩] at hsc
        simp [tokensAux, hsc, splitSegs, hne, tokensAux_nil]
    · have hsc := scanTokens_delim data true A T R' d hS hA hT hne hd
      have hsplit := segs_split data (A ++ (T ++ [d])) R' (by rw [hS]; simp)
      have hpos : 0 < (bytesOf T).length := by
        obtain ⟨t, T', rfl⟩ := List.exists_cons_of_ne_nil hne
        have hmem : t ∈ segs data := by rw [hS]; simp
        have := List.length_pos.mpr (segs_snd_ne_nil data t hmem)
        rw [bytesOf_cons, List.length_append]; omega
      have hadv : (bytesOf (A ++ (T ++ [d]))).length =
          (bytesOf A).length + (bytesOf T).length + d.2.length := by
        rw [bytesOf_append, bytesOf_append, bytesOf_cons, bytesOf_nil]
        simp only [List.length_append, List.length_nil]; omega
      rw [hadv] at hsplit
      have hle : (bytesOf A).length + (bytesOf T).length + d.2.length ≤ data.length := by
        rw [length_eq_bytesOf_segs data, hS, ← hadv]
        simp only [bytesOf_append, bytesOf_cons, bytesOf_nil, List.length_append,
          List.length_nil]
        omega
      rw [hS, splitSegs_skip_run A _ hA, splitSegs_word_run T _ [] hT, List.nil_append,
        splitSegs_delim d R' T hd hne]
      simp only [tokensAux, hsc, List.map_cons]
      rw [ih _ (by rw [List.length_drop]; omega), hsplit.1]

/-- The tokens of a complete input are the maximal runs of consecutive non-skippable
code points of its decoding. -/
theorem tokens_eq (data : List Nat) : tokens data = (splitSegs (segs data) []).map bytesOf :=
  tokensAux_eq _ data (Nat.lt_succ_self _)

theorem tokens_nil : tokens [] = [] := by
  rw [tokens_eq]; rfl

/-- One step of the tokenizer: a returned token heads the tokens of the input. -/
theorem tokens_of_scan_some (data : List Nat) (adv : Nat) (tok : List Nat) (e : Option Err)
    (h : scanTokens data true = (adv, some tok, e)) (hadv : 0 < adv) :
    tokens data = tok :: tokens (data.drop adv) := by
  have h1 : tokens data = tokensAux (data.length + 1) data := rfl
  have hne : 0 < data.length := by
    rcases data with _ | ⟨b, bs⟩
    · rw [scanTokens_nil] at h; simp at h
    · simp
  rw [h1]
  simp only [tokensAux, h]
  rw [tokensAux_eq _ _ (by rw [List.length_drop]; omega), tokens_eq]

theorem tokens_of_scan_none (data : List Nat) (adv : Nat) (e : Option Err)
    (h : scanTokens data true = (adv, none, e)) : tokens data = [] := by
  have h1 : tokens data = tokensAux (data.length + 1) data := rfl
  rw [h1]
  simp only [tokensAux, h]

/-! ## A token returned before the end of the input -/

/-- With `atEOF = false` a returned token is the one `atEOF = true` returns. -/
theorem scanTokens_false_some (data : List Nat) (adv : Nat) (tok : List Nat) (e : Option Err)
    (h : scanTokens data false = (adv, some tok, e)) :
    scanTokens data true = (adv, some tok, e) ∧ 0 < adv ∧ adv ≤ data.length := by
  obtain ⟨A, T, R, hS, hA, hT, hR⟩ := segs_decomp (segs data)
  rcases hR with rfl | ⟨hne, d, R', rfl, hd⟩
  · rw [List.append_nil] at hS
    rw [scanTokens_end data false A T hS hA hT] at h
    simp at h
  · rw [scanTokens_delim data false A T R' d hS hA hT hne hd] at h
    rw [scanTokens_delim data true A T R' d hS hA hT hne hd]
    refine ⟨h, ?_, ?_⟩
    · have hd2 : 0 < d.2.length :=
        List.length_pos.mpr (segs_snd_ne_nil data d (by rw [hS]; simp))
      simp only [Prod.mk.injEq] at h
      omega
    · simp only [Prod.mk.injEq] at h
      rw [← h.1, length_eq_bytesOf_segs data, hS]
      simp only [bytesOf_append, bytesOf_cons, List.length_append]
      omega

/-- With `atEOF = false` and no token, the scanner is asked to drop the leading
skippable bytes; what remains is the final token, if any byte remains. -/
theorem scanTokens_false_none (data : List Nat) (adv : Nat) (e : Option Err)
    (h : scanTokens data false = (adv, none, e)) :
    adv ≤ data.length ∧
    ((data.drop adv = [] ∧ tokens data = []) ∨
     (data.drop adv ≠ [] ∧ tokens data = [data.drop adv] ∧
      scanTokens (data.drop adv) true = ((data.drop adv).length, some (data.drop adv), none))) := by
  obtain ⟨A, T, R, hS, hA, hT, hR⟩ := segs_decomp (segs data)
  rcases hR with rfl | ⟨hne, d, R', rfl, hd⟩
  · rw [List.append_nil] at hS
    rw [scanTokens_end data false A T hS hA hT] at h
    simp only [Bool.false_eq_true, false_and, if_false, Prod.mk.injEq] at h
    obtain ⟨hadv, -⟩ := h
    subst hadv
    have h3 := segs_split data A T hS
    have hdrop : data.drop (bytesOf A).length = bytesOf T := by
      have := bytesOf_segs (data.drop (bytesOf A).length)
      rw [h3.1] at this; exact this.symm
    have hlen : data.length = (bytesOf A).length + (bytesOf T).length := by
      rw [length_eq_bytesOf_segs, hS, bytesOf_append, List.length_append]
    refine ⟨by omega, ?_⟩
    have htrue := scanTokens_end data true A T hS hA hT
    by_cases hT0 : T = []
    · subst hT0
      left
      refine ⟨by rw [hdrop]; rfl, ?_⟩
      simp only [ne_eq, not_true_eq_false, and_false, if_false] at htrue
      exact tokens_of_scan_none data _ _ htrue
    · right
      have hTb : bytesOf T ≠ [] := by
        obtain ⟨t, T', rfl⟩ := List.exists_cons_of_ne_nil hT0
        have := segs_snd_ne_nil data t (by rw [hS]; simp)
        rw [bytesOf_cons]; simp [this]
      rw [if_pos ⟨rfl, hT0⟩] at htrue
      refine ⟨by rw [hdrop]; exact hTb, ?_, ?_⟩
      · rw [tokens_of_scan_some data _ _ _ htrue (by
          have := List.length_pos.mpr hTb; omega)]
        rw [List.drop_length, tokens_nil, hdrop]
      · have := scanTokens_end (data.drop (bytesOf A).length) true [] T (by rw [h3.1]; rfl)
          (by simp) hT
        rw [if_pos ⟨rfl, hT0⟩] at this
        rw [this, hdrop]
  · rw [scanTokens_delim data false A T R' d hS hA hT hne hd] at h
    simp at h

/-- A returned token is non-empty and its advance is positive and within the data. -/
theorem scanTokens_some_bounds (data : List Nat) (atEOF : Bool) (adv : Nat) (tok : List Nat)
    (e : Option Err) (h : scanTokens data atEOF = (adv, some tok, e)) :
    0 < adv ∧ adv ≤ data.length ∧ tok ≠ [] := by
  obtain ⟨A, T, R, hS, hA, hT, hR⟩ := segs_decomp (segs data)
  have hTb : T ≠ [] → bytesOf T ≠ [] := by
    intro hT0
    obtain ⟨t, T', rfl⟩ := List.exists_cons_of_ne_nil hT0
    have := segs_snd_ne_nil data t (by rw [hS]; simp)
    rw [bytesOf_cons]; simp [this]
  rcases hR with rfl | ⟨hne, d, R', rfl, hd⟩
  · rw [List.append_nil] at hS
    rw [scanTokens_end data atEOF A T hS hA hT] at h
    have hlen : data.length = (bytesOf A).length + (bytesOf T).length := by
      rw [length_eq_bytesOf_segs, hS, bytesOf_append, List.length_append]
    by_cases hc : atEOF = true ∧ T ≠ []
    · rw [if_pos hc] at h
      simp only [Prod.mk.injEq, Option.some.injEq] at h
      have := List.length_pos.mpr (hTb hc.2)
      refine ⟨by omega, by omega, ?_⟩
      rw [← h.2.1]; exact hTb hc.2
    · rw [if_neg hc] at h; simp at h
  · rw [scanTokens_delim data atEOF A T R' d hS hA hT hne hd] at h
    simp only [Prod.mk.injEq, Option.some.injEq] at h
    have := List.length_pos.mpr (hTb hne)
    refine ⟨by omega, ?_, by rw [← h.2.1]; exact hTb hne⟩
    rw [← h.1, length_eq_bytesOf_segs data, hS]
    simp only [bytesOf_append, bytesOf_cons, List.length_append]
    omega

/-! ## One iteration of the loop of `Parse` -/

theorem IndexByte_of_mem (tok : List Nat) (c : Nat) (h : c ∈ tok) :
    IndexByte tok c = (tok.indexOf c : Int) := by
  simp [IndexByte, h]

theorem IndexByte_of_not_mem (tok : List Nat) (c : Nat) (h : c ∉ tok) :
    IndexByte tok c = -1 := by
  simp [IndexByte, h]

theorem keyOf_append_valueOf (tok : List Nat) : keyOf tok ++ valueOf tok = tok :=
  List.take_append_drop _ _

theorem length_keyOf (tok : List Nat) (h : 0x3A ∈ tok) :
    (keyOf tok).length = tok.indexOf 0x3A + 1 := by
  have := List.indexOf_lt_length.mpr h
  simp [keyOf]; omega

theorem drop_of_keyOf (tok pre : List Nat) (h : 0x3A ∈ tok) (hk : keyOf tok = pre) :
    tok.drop pre.length = valueOf tok := by
  rw [← hk, length_keyOf tok h]; rfl

/-- The loop body on a token that contains `:`, in terms of the text before and
after the first `:`. -/
theorem parseStep_directive (norm : Normalizer) (st : ParseState) (tok : List Nat)
    (h : 0x3A ∈ tok) :
    parseStep norm st tok =
      if keyOf tok = prefixAssignee then
        { st with parsed := { st.parsed with Assignee := (norm (valueOf tok)).1 } }
      else if keyOf tok = prefixLimit then
        { st with parsed := { st.parsed with Limit := (Atoi (valueOf tok)).1 } }
      else if keyOf tok = prefixLabel then
        if valueOf tok = [] then st
        else { st with parsed := { st.parsed with Labels := st.parsed.Labels ++ [valueOf tok] } }
      else if keyOf tok = prefixStatus then
        if valueOf tok = str "open" then
          { st with parsed := { st.parsed with Status := IssueStatus.StatusOpen } }
        else if valueOf tok = str "closed" then
          { st with parsed := { st.parsed with Status := IssueStatus.StatusClosed } }
        else if valueOf tok = str "any" then
          { st with parsed := { st.parsed with Status := IssueStatus.StatusAny } }
        else st
      else st := by
  have hidx : IndexByte tok 0x3A > -1 := by
    rw [IndexByte_of_mem tok _ h]; omega
  have hpre : tok.take (IndexByte tok 0x3A + 1).toNat = keyOf tok := by
    rw [IndexByte_of_mem tok _ h]
    have : ((tok.indexOf 0x3A : Int) + 1).toNat = tok.indexOf 0x3A + 1 := by omega
    rw [this]; rfl
  unfold parseStep
  simp only [hidx, if_true, hpre]
  by_cases h1 : keyOf tok = prefixAssignee
  · simp only [h1, if_true]
    rw [drop_of_keyOf tok _ h h1]
  · by_cases h2 : keyOf tok = prefixLimit
    · simp only [h1, if_false, if_true]
      rw [if_pos h2, if_pos h2, drop_of_keyOf tok _ h h2]
    · by_cases h3 : keyOf tok = prefixLabel
      · simp only [h1, h2, if_false]
        rw [if_pos h3, if_pos h3, drop_of_keyOf tok _ h h3]
      · by_cases h4 : keyOf tok = prefixStatus
        · simp only [h1, h2, h3, if_false]
          rw [if_pos h4, if_pos h4, drop_of_keyOf tok _ h h4]
        · simp only [h1, h2, h3, h4, if_false]

theorem str_dash : str "-" = [0x2D] := by decide
theorem str_bang : str "!" = [0x21] := by decide
theorem str_amp : str "&" = [0x26] := by decide
theorem str_empty : str "" = [] := by decide

/-- The loop body on a token without `:`, when `no` is empty as it is at the top of
every iteration: the rendered term, if any, is written after the separator. -/
theorem parseStep_free (norm : Normalizer) (st : ParseState) (tok : List Nat)
    (h : 0x3A ∉ tok) (hno : st.no = []) :
    parseStep norm st tok =
      match renderTerm tok with
      | none => st
      | some term => { st with w := st.w ++ (st.sep ++ term), no := [], sep := [0x26] } := by
  have hidx : ¬ (IndexByte tok 0x3A > -1) := by
    rw [IndexByte_of_not_mem tok _ h]; omega
  unfold parseStep
  simp only [hidx, if_false, str_dash, str_bang, str_amp, str_empty]
  rcases tok with _ | ⟨b, rest⟩
  · simp [trimLeading, renderTerm]
  · by_cases hb : b = 0x2D
    · subst hb
      have hne : (0x2D :: rest : List Nat) ≠ rest := by
        intro hc; have := congrArg List.length hc; simp at this
      by_cases hr : rest = []
      · subst hr
        simp [trimLeading, renderTerm]
      · simp [trimLeading, renderTerm, hr, h, hne]
    · have hb2 : ¬ ((0x2D : Nat) = b) := fun hc => hb hc.symm
      simp [trimLeading, renderTerm, hb, hb2, h, hno]

/-! ## The fields of the loop state after a run of tokens -/

theorem prefix_consts :
    prefixAssignee ≠ prefixLimit ∧ prefixAssignee ≠ prefixLabel ∧ prefixAssignee ≠ prefixStatus ∧
    prefixLimit ≠ prefixLabel ∧ prefixLimit ≠ prefixStatus ∧ prefixLabel ≠ prefixStatus := by
  decide

theorem prefix_values :
    prefixAssignee = str "assignee:" ∧ prefixLimit = str "limit:" ∧
    prefixLabel = str "label:" ∧ prefixStatus = str "status:" := ⟨rfl, rfl, rfl, rfl⟩

/-- A field that each iteration either overwrites or keeps holds, after a run of
tokens, what the last overwriting token wrote (last write wins). -/
theorem foldl_last_write {σ τ α : Type} (g : σ → τ → σ) (proj : σ → α) (f : τ → Option α)
    (hstep : ∀ st tok, proj (g st tok) = (f tok).getD (proj st)) :
    ∀ (toks : List τ) (st : σ),
      proj (toks.foldl g st) = ((toks.filterMap f).getLast?).getD (proj st) := by
  intro toks
  induction toks with
  | nil => intro st; rfl
  | cons tok toks ih =>
    intro st
    rw [List.foldl_cons, ih, hstep]
    cases hf : f tok with
    | none => simp [List.filterMap_cons, hf]
    | some a => simp [List.filterMap_cons, hf, List.getLast?_cons]

/-- A field that each iteration extends or keeps holds, after a run of tokens, all
the extensions in order. -/
theorem foldl_accumulate {σ τ α : Type} (g : σ → τ → σ) (proj : σ → List α) (f : τ → Option α)
    (hstep : ∀ st tok, proj (g st tok) = proj st ++ (f tok).toList) :
    ∀ (toks : List τ) (st : σ),
      proj (toks.foldl g st) = proj st ++ toks.filterMap f := by
  intro toks
  induction toks with
  | nil => intro st; simp
  | cons tok toks ih =>
    intro st
    rw [List.foldl_cons, ih, hstep]
    cases hf : f tok with
    | none => simp [List.filterMap_cons, hf]
    | some a => simp [List.filterMap_cons, hf]

theorem parseStep_free_parsed (norm : Normalizer) (st : ParseState) (tok : List Nat)
    (h : 0x3A ∉ tok) : (parseStep norm st tok).parsed = st.parsed := by
  unfold parseStep
  have hidx : ¬ (IndexByte tok 0x3A > -1) := by
    rw [IndexByte_of_not_mem tok _ h]; omega
  simp only [hidx, if_false]
  split_ifs <;> rfl

theorem step_Labels (norm : Normalizer) (st : ParseState) (tok : List Nat) :
    (parseStep norm st tok).parsed.Labels = st.parsed.Labels ++ (labelOf tok).toList := by
  obtain ⟨c1, c2, c3, c4, c5, c6⟩ := prefix_consts
  by_cases h : 0x3A ∈ tok
  · rw [parseStep_directive norm st tok h]
    unfold labelOf
    rw [← prefix_values.2.2.1]
    by_cases h3 : keyOf tok = prefixLabel
    · have h1 : keyOf tok ≠ prefixAssignee := by rw [h3]; exact c2.symm
      have h2 : keyOf tok ≠ prefixLimit := by rw [h3]; exact c4.symm
      rw [if_neg h1, if_neg h2, if_pos h3]
      by_cases hv : valueOf tok = []
      · have hl : ¬ (0x3A ∈ tok ∧ keyOf tok = prefixLabel ∧ valueOf tok ≠ []) :=
          fun hc => hc.2.2 hv
        rw [if_pos hv, if_neg hl]; simp
      · have hl : (0x3A ∈ tok ∧ keyOf tok = prefixLabel ∧ valueOf tok ≠ []) := ⟨h, h3, hv⟩
        rw [if_neg hv, if_pos hl]; simp
    · have hl : ¬ (0x3A ∈ tok ∧ keyOf tok = prefixLabel ∧ valueOf tok ≠ []) :=
        fun hc => h3 hc.2.1
      rw [if_neg hl]
      split_ifs <;> simp
  · rw [parseStep_free_parsed norm st tok h]
    simp [labelOf, h]

theorem step_Assignee (norm : Normalizer) (st : ParseState) (tok : List Nat) :
    (parseStep norm st tok).parsed.Assignee =
      ((assigneeOf tok).map (fun v => (norm v).1)).getD st.parsed.Assignee := by
  by_cases h : 0x3A ∈ tok
  · rw [parseStep_directive norm st tok h]
    unfold assigneeOf
    rw [← prefix_values.1]
    by_cases h1 : keyOf tok = prefixAssignee
    · have hl : (0x3A ∈ tok ∧ keyOf tok = prefixAssignee) := ⟨h, h1⟩
      rw [if_pos h1, if_pos hl]; simp
    · have hl : ¬ (0x3A ∈ tok ∧ keyOf tok = prefixAssignee) := fun hc => h1 hc.2
      rw [if_neg h1, if_neg hl]
      split_ifs <;> simp
  · rw [parseStep_free_parsed norm st tok h]
    simp [assigneeOf, h]

theorem step_Limit (norm : Normalizer) (st : ParseState) (tok : List Nat) :
    (parseStep norm st tok).parsed.Limit =
      ((limitOf tok).map (fun v => (Atoi v).1)).getD st.parsed.Limit := by
  obtain ⟨c1, c2, c3, c4, c5, c6⟩ := prefix_consts
  by_cases h : 0x3A ∈ tok
  · rw [parseStep_directive norm st tok h]
    unfold limitOf
    rw [← prefix_values.2.1]
    by_cases h2 : keyOf tok = prefixLimit
    · have h1 : keyOf tok ≠ prefixAssignee := by rw [h2]; exact c1.symm
      have hl : (0x3A ∈ tok ∧ keyOf tok = prefixLimit) := ⟨h, h2⟩
      rw [if_neg h1, if_pos h2, if_pos hl]; simp
    · have hl : ¬ (0x3A ∈ tok ∧ keyOf tok = prefixLimit) := fun hc => h2 hc.2
      rw [if_neg hl]
      split_ifs <;> simp
  · rw [parseStep_free_parsed norm st tok h]
    simp [limitOf, h]

theorem keyOf_status (v : List Nat) : keyOf (str "status:" ++ v) = str "status:" := by
  have h : str "status:" = [115, 116, 97, 116, 117, 115, 58] := by decide
  rw [h]
  simp [keyOf, List.indexOf_cons]

theorem mem_status (v : List Nat) : 0x3A ∈ str "status:" ++ v := by
  have h : str "status:" = [115, 116, 97, 116, 117, 115, 58] := by decide
  rw [h]; simp

theorem valueOf_status (v : List Nat) : valueOf (str "status:" ++ v) = v := by
  have h := keyOf_append_valueOf (str "status:" ++ v)
  rw [keyOf_status] at h
  exact List.append_cancel_left h

/-- A token has the key `status:` and the value `v` exactly when it is `status:v`. -/
theorem status_iff (tok v : List Nat) :
    (0x3A ∈ tok ∧ keyOf tok = prefixStatus ∧ valueOf tok = v) ↔ tok = str "status:" ++ v := by
  constructor
  · rintro ⟨-, hk, hv⟩
    rw [← keyOf_append_valueOf tok, hk, hv]; rfl
  · rintro rfl
    exact ⟨mem_status v, keyOf_status v, valueOf_status v⟩

theorem step_Status (norm : Normalizer) (st : ParseState) (tok : List Nat) :
    (parseStep norm st tok).parsed.Status = (statusOf tok).getD st.parsed.Status := by
  obtain ⟨c1, c2, c3, c4, c5, c6⟩ := prefix_consts
  have e1 : str "status:open" = str "status:" ++ str "open" := by decide
  have e2 : str "status:closed" = str "status:" ++ str "closed" := by decide
  have e3 : str "status:any" = str "status:" ++ str "any" := by decide
  have d1 : str "open" ≠ str "closed" := by decide
  have d2 : str "open" ≠ str "any" := by decide
  have d3 : str "closed" ≠ str "any" := by decide
  have s1 : tok = str "status:open" ↔
      (0x3A ∈ tok ∧ keyOf tok = prefixStatus ∧ valueOf tok = str "open") := by
    rw [e1]; exact (status_iff tok _).symm
  have s2 : tok = str "status:closed" ↔
      (0x3A ∈ tok ∧ keyOf tok = prefixStatus ∧ valueOf tok = str "closed") := by
    rw [e2]; exact (status_iff tok _).symm
  have s3 : tok = str "status:any" ↔
      (0x3A ∈ tok ∧ keyOf tok = prefixStatus ∧ valueOf tok = str "any") := by
    rw [e3]; exact (status_iff tok _).symm
  simp only [statusOf, s1, s2, s3]
  by_cases h : 0x3A ∈ tok
  · rw [parseStep_directive norm st tok h]
    by_cases h4 : keyOf tok = prefixStatus
    · have h1 : keyOf tok ≠ prefixAssignee := by rw [h4]; exact c3.symm
      have h2 : keyOf tok ≠ prefixLimit := by rw [h4]; exact c5.symm
      have h3 : keyOf tok ≠ prefixLabel := by rw [h4]; exact c6.symm
      rw [if_neg h1, if_neg h2, if_neg h3, if_pos h4]
      simp only [h, h4, true_and]
      split_ifs <;> rfl
    · simp only [h4, false_and, and_false, if_false]
      split_ifs <;> rfl
  · rw [parseStep_free_parsed norm st tok h]
    simp only [h, false_and, if_false]
    rfl

/-- The labels after a run of tokens. -/
theorem run_Labels (norm : Normalizer) (toks : List (List Nat)) (st : ParseState) :
    (toks.foldl (parseStep norm) st).parsed.Labels = st.parsed.Labels ++ specLabels toks :=
  foldl_accumulate (parseStep norm) (fun s => s.parsed.Labels) labelOf (step_Labels norm) toks st

/-- The status after a run of tokens. -/
theorem run_Status (norm : Normalizer) (toks : List (List Nat)) (st : ParseState) :
    (toks.foldl (parseStep norm) st).parsed.Status =
      ((toks.filterMap statusOf).getLast?).getD st.parsed.Status :=
  foldl_last_write (parseStep norm) (fun s => s.parsed.Status) statusOf (step_Status norm) toks st

/-- The assignee after a run of tokens. -/
theorem run_Assignee (norm : Normalizer) (toks : List (List Nat)) (st : ParseState) :
    (toks.foldl (parseStep norm) st).parsed.Assignee =
      (((toks.filterMap assigneeOf).getLast?).map (fun v => (norm v).1)).getD
        st.parsed.Assignee := by
  have h := foldl_last_write (parseStep norm) (fun s => s.parsed.Assignee)
    (fun tok => (assigneeOf tok).map (fun v => (norm v).1)) (step_Assignee norm) toks st
  rw [← List.map_filterMap, List.getLast?_map] at h
  exact h

/-- The raw limit after a run of tokens. -/
theorem run_Limit (norm : Normalizer) (toks : List (List Nat)) (st : ParseState) :
    (toks.foldl (parseStep norm) st).parsed.Limit =
      (((toks.filterMap limitOf).getLast?).map (fun v => (Atoi v).1)).getD
        st.parsed.Limit := by
  have h := foldl_last_write (parseStep norm) (fun s => s.parsed.Limit)
    (fun tok => (limitOf tok).map (fun v => (Atoi v).1)) (step_Limit norm) toks st
  rw [← List.map_filterMap, List.getLast?_map] at h
  exact h

/-! ## The search expression after a run of tokens -/

theorem intercalate_concat (sep : List Nat) (acc : List (List Nat)) (t : List Nat) :
    List.intercalate sep (acc ++ [t]) =
      if acc = [] then t else List.intercalate sep acc ++ (sep ++ t) := by
  induction acc with
  | nil => simp [List.intercalate]
  | cons a acc ih =>
    rcases acc with _ | ⟨b, acc⟩
    · simp [List.intercalate]
    · simp only [List.cons_append, reduceCtorEq, if_false] at ih ⊢
      have h1 : List.intercalate sep (a :: b :: (acc ++ [t])) =
          a ++ (sep ++ List.intercalate sep (b :: (acc ++ [t]))) := by
        simp [List.intercalate]
      have h2 : List.intercalate sep (a :: b :: acc) =
          a ++ (sep ++ List.intercalate sep (b :: acc)) := by
        simp [List.intercalate]
      rw [h1, h2, ih]
      simp

theorem parseStep_directive_builder (norm : Normalizer) (st : ParseState) (tok : List Nat)
    (h : 0x3A ∈ tok) :
    (parseStep norm st tok).w = st.w ∧ (parseStep norm st tok).sep = st.sep ∧
      (parseStep norm st tok).no = st.no := by
  rw [parseStep_directive norm st tok h]
  split_ifs <;> exact ⟨rfl, rfl, rfl⟩

theorem renderTerm_of_mem (tok : List Nat) (h : 0x3A ∈ tok) : renderTerm tok = none := by
  simp [renderTerm, h]

theorem BuilderInv_step (norm : Normalizer) (st : ParseState) (acc : List (List Nat))
    (tok : List Nat) (hinv : BuilderInv st acc) :
    BuilderInv (parseStep norm st tok) (acc ++ (renderTerm tok).toList) := by
  obtain ⟨hno, hsep, hw⟩ := hinv
  by_cases h : 0x3A ∈ tok
  · obtain ⟨e1, e2, e3⟩ := parseStep_directive_builder norm st tok h
    rw [renderTerm_of_mem tok h]
    simp only [Option.toList, List.append_nil]
    exact ⟨by rw [e3, hno], by rw [e2, hsep], by rw [e1, hw]⟩
  · rw [parseStep_free norm st tok h hno]
    cases hr : renderTerm tok with
    | none =>
      simp only [Option.toList, List.append_nil]
      exact ⟨hno, hsep, hw⟩
    | some term =>
      simp only [Option.toList]
      refine ⟨rfl, by simp, ?_⟩
      show st.w ++ (st.sep ++ term) = _
      rw [intercalate_concat, hw, hsep]
      by_cases ha : acc = []
      · subst ha; simp [List.intercalate]
      · simp [ha]

theorem BuilderInv_run (norm : Normalizer) (toks : List (List Nat)) :
    ∀ (st : ParseState) (acc : List (List Nat)), BuilderInv st acc →
      BuilderInv (toks.foldl (parseStep norm) st) (acc ++ specTerms toks) := by
  induction toks with
  | nil => intro st acc h; simpa [specTerms] using h
  | cons tok toks ih =>
    intro st acc h
    have h1 := ih _ _ (BuilderInv_step norm st acc tok h)
    rw [List.foldl_cons]
    have e : acc ++ specTerms (tok :: toks) = acc ++ (renderTerm tok).toList ++ specTerms toks := by
      unfold specTerms
      cases hr : renderTerm tok <;> simp [List.filterMap_cons, hr]
    rw [e]; exact h1

theorem BuilderInv_init : BuilderInv ParseState.init [] := ⟨rfl, rfl, rfl⟩

/-- The builder after the loop of `Parse` holds the reference search expression. -/
theorem run_w (norm : Normalizer) (toks : List (List Nat)) :
    (toks.foldl (parseStep norm) ParseState.init).w = specTSVector toks := by
  have h := BuilderInv_run norm toks _ _ BuilderInv_init
  simpa [specTSVector] using h.2.2

/-! ## The code after the loop -/

theorem finish_TSVector (st : ParseState) : (finish st).TSVector = st.w := by
  unfold finish; simp only; split_ifs <;> rfl

theorem finish_Status (st : ParseState) : (finish st).Status = st.parsed.Status := by
  unfold finish; simp only; split_ifs <;> rfl

theorem finish_Assignee (st : ParseState) : (finish st).Assignee = st.parsed.Assignee := by
  unfold finish; simp only; split_ifs <;> rfl

theorem finish_Labels (st : ParseState) : (finish st).Labels = st.parsed.Labels := by
  unfold finish; simp only; split_ifs <;> rfl

theorem finish_Limit (st : ParseState) : (finish st).Limit = clampLimit st.parsed.Limit := by
  unfold finish clampLimit; simp only; split_ifs <;> rfl

/-! ## Locality of decoding -/

theorem leadSize_cases (p0 : Nat) : leadSize p0 = 2 ∨ leadSize p0 = 3 ∨ leadSize p0 = 4 := by
  unfold leadSize; split_ifs <;> simp

theorem acceptLo_ge (p0 : Nat) : 0x80 ≤ acceptLo p0 := by
  unfold acceptLo; split_ifs <;> simp

theorem acceptHi_le (p0 : Nat) : acceptHi p0 ≤ 0xBF := by
  unfold acceptHi; split_ifs <;> simp

theorem decodeRune_cons (p0 : Nat) (rest : List Nat) :
    decodeRune (p0 :: rest) =
      if p0 < 0x80 then (p0, 1)
      else if p0 < 0xC2 ∨ 0xF4 < p0 then (RuneError, 1)
      else decodeMulti p0 rest := rfl

theorem decodeMulti_append_boundary (p0 : Nat) (rest : List Nat) (b : Nat) (tail : List Nat)
    (hb : b < 0x80 ∨ 0xBF < b) :
    decodeMulti p0 (rest ++ b :: tail) = decodeMulti p0 rest := by
  have hlo := acceptLo_ge p0
  have hhi := acceptHi_le p0
  have hb1 : b < acceptLo p0 ∨ acceptHi p0 < b := by omega
  rcases rest with _ | ⟨b1, _ | ⟨b2, _ | ⟨b3, rest3⟩⟩⟩
  · rcases leadSize_cases p0 with h | h | h <;>
      simp [decodeMulti, h, hb1]
  · rcases leadSize_cases p0 with h | h | h <;>
      by_cases c1 : b1 < acceptLo p0 ∨ acceptHi p0 < b1 <;>
      simp [decodeMulti, h, hb, c1]
  · rcases leadSize_cases p0 with h | h | h <;>
      by_cases c1 : b1 < acceptLo p0 ∨ acceptHi p0 < b1 <;>
      by_cases c2 : b2 < 0x80 ∨ 0xBF < b2 <;>
      simp [decodeMulti, h, hb, c1, c2]
  · rcases leadSize_cases p0 with h | h | h <;>
      by_cases c1 : b1 < acceptLo p0 ∨ acceptHi p0 < b1 <;>
      by_cases c2 : b2 < 0x80 ∨ 0xBF < b2 <;>
      by_cases c3 : b3 < 0x80 ∨ 0xBF < b3 <;>
      simp [decodeMulti, h, c1, c2, c3] <;>
      (try (split_ifs <;> first | rfl | (exfalso; omega)))

theorem not_isCont_iff (b : Nat) : isCont b = false ↔ (b < 0x80 ∨ 0xBF < b) := by
  unfold isCont
  constructor
  · intro h
    by_cases h1 : 0x80 ≤ b
    · by_cases h2 : b ≤ 0xBF
      · simp [h1, h2] at h
      · right; omega
    · left; omega
  · intro h
    rcases h with h | h
    · have : ¬ (0x80 ≤ b) := by omega
      simp [this]
    · have : ¬ (b ≤ 0xBF) := by omega
      simp [this]

/-- Decoding does not look past the start of the next code point: a tail that is
empty or begins with a non-continuation byte does not change the first code point. -/
theorem decodeRune_append_boundary (p x : List Nat) (hp : p ≠ []) (hx : Boundary x) :
    decodeRune (p ++ x) = decodeRune p := by
  rcases hx with rfl | ⟨b, rest, rfl, hb⟩
  · simp
  · obtain ⟨p0, tl, rfl⟩ := List.exists_cons_of_ne_nil hp
    rw [List.cons_append, decodeRune_cons, decodeRune_cons,
      decodeMulti_append_boundary p0 tl b rest ((not_isCont_iff b).mp hb)]

/-- The decoding of a concatenation whose second part starts on a code point
boundary is the concatenation of the decodings. -/
theorem segs_append_boundary (p x : List Nat) (hx : Boundary x) :
    segs (p ++ x) = segs p ++ segs x := by
  induction p using decode_induction with
  | h0 => simp [segs_nil]
  | hstep p hp ih =>
    have hne : p ++ x ≠ [] := by simp [hp]
    have hw := decodeRune_width_le p
    rw [segs_of_ne_nil _ hne, segs_of_ne_nil p hp, decodeRune_append_boundary p x hp hx,
      List.cons_append, ← ih]
    congr 2
    · rw [List.take_append_of_le_length hw]
    · rw [List.drop_append_of_le_length hw]

/-! ## Tokens of concatenated inputs -/

theorem splitSegs_append_delim (A B : List (Nat × List Nat)) (d : Nat × List Nat)
    (hd : skipP d = true) :
    ∀ cur, splitSegs (A ++ d :: B) cur = splitSegs A cur ++ splitSegs B [] := by
  have hd1 : isSkipable d.1 = true := hd
  induction A with
  | nil =>
    intro cur
    by_cases hc : cur = []
    · simp [splitSegs, hd1, hc]
    · simp [splitSegs, hd1, hc]
  | cons a A ih =>
    intro cur
    cases ha : isSkipable a.1
    · simp only [List.cons_append, splitSegs, ha, Bool.false_eq_true, if_false]
      exact ih _
    · by_cases hc : cur = []
      · simp only [List.cons_append, splitSegs, ha, if_true, hc]
        exact ih _
      · simp only [List.cons_append, splitSegs, ha, if_true, hc, if_false, List.cons_append]
        exact congrArg (List.cons cur) (ih [])

theorem boundary_of_ascii (c : Nat) (b : List Nat) (hc : c < 0x80) : Boundary (c :: b) :=
  Or.inr ⟨c, b, rfl, (not_isCont_iff c).mpr (Or.inl hc)⟩

theorem segs_ascii_cons (c : Nat) (b : List Nat) (hc : c < 0x80) :
    segs (c :: b) = (c, [c]) :: segs b := by
  rw [segs_of_ne_nil _ (List.cons_ne_nil _ _), decodeRune_cons]
  simp [hc]

/-- The tokens of two inputs joined by a skippable ASCII byte are the tokens of the
first followed by the tokens of the second. -/
theorem tokens_append_delim (a b : List Nat) (c : Nat) (hc : c < 0x80)
    (hs : isSkipable c = true) : tokens (a ++ c :: b) = tokens a ++ tokens b := by
  rw [tokens_eq, tokens_eq, tokens_eq, segs_append_boundary a _ (boundary_of_ascii c b hc),
    segs_ascii_cons c b hc, splitSegs_append_delim _ _ _ hs, List.map_append]

theorem tokens_append_space (a b : List Nat) :
    tokens (a ++ str " " ++ b) = tokens a ++ tokens b := by
  have h : str " " = [0x20] := by decide
  rw [h, List.append_assoc]
  exact tokens_append_delim a b 0x20 (by decide) (by decide)

theorem noSkippable_iff (u : List Nat) :
    noSkippable u = true ↔ ∀ s ∈ segs u, wordP s = true := by
  simp [noSkippable, runes, List.all_eq_true, wordP]

/-- A non-empty string without skippable code point is one token. -/
theorem tokens_single (u : List Nat) (hne : u ≠ []) (hu : noSkippable u = true) :
    tokens u = [u] := by
  have hw := (noSkippable_iff u).mp hu
  have hS : segs u ≠ [] := by
    rw [segs_of_ne_nil u hne]; simp
  have h := splitSegs_word_run (segs u) [] [] hw
  simp only [List.append_nil, List.nil_append] at h
  rw [tokens_eq, h]
  simp [splitSegs, hS, bytesOf_segs]

/-! ## The bytes and code points of a decoded segment -/

theorem RuneError_val : RuneError = 0xFFFD := rfl

/-- The continuation bytes a multi-byte decoding consumed are not ASCII. -/
theorem decodeMulti_bytes (p0 : Nat) (rest : List Nat) :
    ∀ c ∈ rest.take ((decodeMulti p0 rest).2 - 1), 0x80 ≤ c := by
  have hlo := acceptLo_ge p0
  rcases rest with _ | ⟨b1, _ | ⟨b2, _ | ⟨b3, rest3⟩⟩⟩
  · simp
  · by_cases c1 : b1 < acceptLo p0 ∨ acceptHi p0 < b1 <;>
      rcases leadSize_cases p0 with h | h | h <;>
      simp [decodeMulti, h, c1] <;> omega
  · by_cases c1 : b1 < acceptLo p0 ∨ acceptHi p0 < b1 <;>
      by_cases c2 : b2 < 0x80 ∨ 0xBF < b2 <;>
      rcases leadSize_cases p0 with h | h | h <;>
      simp [decodeMulti, h, c1, c2] <;> omega
  · have l2 : ¬ (rest3.length + 1 + 1 + 1 + 1 < 2) := by omega
    have l3 : ¬ (rest3.length + 1 + 1 + 1 + 1 < 3) := by omega
    have l4 : ¬ (rest3.length + 1 + 1 + 1 + 1 < 4) := by omega
    by_cases c1 : b1 < acceptLo p0 ∨ acceptHi p0 < b1 <;>
      by_cases c2 : b2 < 0x80 ∨ 0xBF < b2 <;>
      by_cases c3 : b3 < 0x80 ∨ 0xBF < b3 <;>
      rcases leadSize_cases p0 with h | h | h <;>
      simp [decodeMulti, h, c1, c2, c3, l2, l3, l4] <;> omega

theorem leadSize_spec (p0 : Nat) :
    (leadSize p0 = 2 ∧ p0 < 0xE0) ∨ (leadSize p0 = 3 ∧ 0xE0 ≤ p0 ∧ p0 < 0xF0) ∨
      (leadSize p0 = 4 ∧ 0xF0 ≤ p0) := by
  unfold leadSize; split_ifs <;> simp <;> omega

theorem acceptLo_spec (p0 : Nat) :
    (p0 = 0xE0 ∧ acceptLo p0 = 0xA0) ∨ (p0 = 0xF0 ∧ acceptLo p0 = 0x90) ∨
      (p0 ≠ 0xE0 ∧ p0 ≠ 0xF0 ∧ acceptLo p0 = 0x80) := by
  unfold acceptLo; split_ifs <;> simp_all

/-- A multi-byte decoding never yields an ASCII code point. -/
theorem decodeMulti_ge (p0 : Nat) (rest : List Nat) (h1 : 0xC2 ≤ p0) (h2 : p0 ≤ 0xF4) :
    0x80 ≤ (decodeMulti p0 rest).1 := by
  have hlo := acceptLo_spec p0
  have hhi := acceptHi_le p0
  have hE : (0x80 : Nat) ≤ RuneError := by decide
  rcases rest with _ | ⟨b1, _ | ⟨b2, _ | ⟨b3, rest3⟩⟩⟩
  · rcases leadSize_spec p0 with ⟨h, hr⟩ | ⟨h, hr⟩ | ⟨h, hr⟩ <;>
      simp [decodeMulti, h, hE]
  · by_cases c1 : b1 < acceptLo p0 ∨ acceptHi p0 < b1 <;>
      rcases leadSize_spec p0 with ⟨h, hr⟩ | ⟨h, hr⟩ | ⟨h, hr⟩ <;>
      simp [decodeMulti, h, c1, hE] <;> omega
  · by_cases c1 : b1 < acceptLo p0 ∨ acceptHi p0 < b1 <;>
      by_cases c2 : b2 < 0x80 ∨ 0xBF < b2 <;>
      rcases leadSize_spec p0 with ⟨h, hr⟩ | ⟨h, hr⟩ | ⟨h, hr⟩ <;>
      simp [decodeMulti, h, c1, c2, hE] <;> omega
  · have l2 : ¬ (rest3.length + 1 + 1 + 1 + 1 < 2) := by omega
    have l3 : ¬ (rest3.length + 1 + 1 + 1 + 1 < 3) := by omega
    have l4 : ¬ (rest3.length + 1 + 1 + 1 + 1 < 4) := by omega
    by_cases c1 : b1 < acceptLo p0 ∨ acceptHi p0 < b1 <;>
      by_cases c2 : b2 < 0x80 ∨ 0xBF < b2 <;>
      by_cases c3 : b3 < 0x80 ∨ 0xBF < b3 <;>
      rcases leadSize_spec p0 with ⟨h, hr⟩ | ⟨h, hr⟩ | ⟨h, hr⟩ <;>
      simp [decodeMulti, h, c1, c2, c3, l2, l3, l4, hE] <;> omega

/-- Every decoded segment is the first code point of a non-empty suffix. -/
theorem segs_mem_decode (p : List Nat) :
    ∀ s ∈ segs p, ∃ sfx, sfx ≠ [] ∧
      s = ((decodeRune sfx).1, sfx.take (decodeRune sfx).2) := by
  induction p using decode_induction with
  | h0 => simp [segs_nil]
  | hstep p hp ih =>
    rw [segs_of_ne_nil p hp]
    intro s hs
    rcases List.mem_cons.mp hs with rfl | hs
    · exact ⟨p, hp, rfl⟩
    · exact ih s hs

/-- An ASCII byte inside a decoded segment is the whole segment, and its code point. -/
theorem seg_ascii_byte (sfx : List Nat) (c : Nat)
    (hc : c ∈ sfx.take (decodeRune sfx).2) (hlt : c < 0x80) :
    (decodeRune sfx).1 = c ∧ sfx.take (decodeRune sfx).2 = [c] := by
  rcases sfx with _ | ⟨p0, rest⟩
  · simp at hc
  · rw [decodeRune_cons] at hc ⊢
    by_cases h0 : p0 < 0x80
    · simp only [h0, if_true, List.take_succ_cons, List.take_zero, List.mem_singleton] at hc ⊢
      subst hc; exact ⟨rfl, rfl⟩
    · by_cases h1 : p0 < 0xC2 ∨ 0xF4 < p0
      · simp only [h0, h1, if_true, if_false, List.take_succ_cons, List.take_zero,
          List.mem_singleton] at hc
        omega
      · simp only [h0, h1, if_false] at hc ⊢
        have hw : 1 ≤ (decodeMulti p0 rest).2 := by
          have := decodeRune_width_pos (p0 :: rest) (List.cons_ne_nil _ _)
          rw [decodeRune_cons] at this
          simpa only [h0, h1, if_false] using this
        obtain ⟨k, hk⟩ : ∃ k, (decodeMulti p0 rest).2 = k + 1 := ⟨_, (Nat.sub_add_cancel hw).symm⟩
        rw [hk, List.take_succ_cons] at hc
        rcases List.mem_cons.mp hc with rfl | hc
        · omega
        · have := decodeMulti_bytes p0 rest c (by rw [hk]; simpa using hc)
          omega

/-- An ASCII code point is decoded from the one byte that is its value. -/
theorem seg_ascii_rune (sfx : List Nat) (hne : sfx ≠ []) (hlt : (decodeRune sfx).1 < 0x80) :
    sfx.take (decodeRune sfx).2 = [(decodeRune sfx).1] := by
  obtain ⟨p0, rest, rfl⟩ := List.exists_cons_of_ne_nil hne
  rw [decodeRune_cons] at hlt ⊢
  by_cases h0 : p0 < 0x80
  · simp [h0]
  · by_cases h1 : p0 < 0xC2 ∨ 0xF4 < p0
    · simp only [h0, h1, if_true, if_false, RuneError_val] at hlt
      omega
    · simp only [h0, h1, if_false] at hlt
      have := decodeMulti_ge p0 rest (by omega) (by omega)
      omega

theorem isSkipable_RuneError : isSkipable RuneError = false := by decide

/-- A skippable code point is decoded from bytes that start with a non-continuation
byte. -/
theorem skippable_boundary (sfx tail : List Nat) (hne : sfx ≠ [])
    (hs : isSkipable (decodeRune sfx).1 = true) :
    Boundary (sfx.take (decodeRune sfx).2 ++ tail) := by
  obtain ⟨p0, rest, rfl⟩ := List.exists_cons_of_ne_nil hne
  have hw := decodeRune_width_pos (p0 :: rest) hne
  obtain ⟨k, hk⟩ : ∃ k, (decodeRune (p0 :: rest)).2 = k + 1 := ⟨_, (Nat.sub_add_cancel hw).symm⟩
  rw [hk, List.take_succ_cons, List.cons_append]
  refine Or.inr ⟨p0, _, rfl, (not_isCont_iff p0).mpr ?_⟩
  by_contra hcon
  have h1 : p0 < 0xC2 ∨ 0xF4 < p0 := by omega
  have h0 : ¬ p0 < 0x80 := by omega
  rw [decodeRune_cons] at hs
  simp only [h0, h1, if_true, if_false, isSkipable_RuneError] at hs
  exact absurd hs (by simp)

/-! ## What a token is made of -/

/-- Every run `splitSegs` returns is a non-empty run of non-skippable code points
that stands in the input and is followed by nothing or by a skippable code point. -/
theorem splitSegs_group (S : List (Nat × List Nat)) :
    ∀ cur, (∀ s ∈ cur, wordP s = true) → ∀ g ∈ splitSegs S cur,
      g ≠ [] ∧ (∀ s ∈ g, wordP s = true) ∧
      ∃ X Y, cur ++ S = X ++ (g ++ Y) ∧ (Y = [] ∨ ∃ d Y', Y = d :: Y' ∧ skipP d = true) := by
  induction S with
  | nil =>
    intro cur hcur g hg
    by_cases hc : cur = []
    · simp [splitSegs, hc] at hg
    · simp only [splitSegs, hc, if_false, List.mem_singleton] at hg
      subst hg
      exact ⟨hc, hcur, [], [], by simp, Or.inl rfl⟩
  | cons s S ih =>
    intro cur hcur g hg
    cases hs : isSkipable s.1
    · simp only [splitSegs, hs, Bool.false_eq_true, if_false] at hg
      have hcur' : ∀ x ∈ cur ++ [s], wordP x = true := by
        intro x hx
        rcases List.mem_append.mp hx with hx | hx
        · exact hcur x hx
        · rw [List.mem_singleton.mp hx]; simp [wordP, hs]
      obtain ⟨h1, h2, X, Y, h3, h4⟩ := ih _ hcur' g hg
      exact ⟨h1, h2, X, Y, by rw [← h3]; simp, h4⟩
    · by_cases hc : cur = []
      · simp only [splitSegs, hs, if_true, hc] at hg
        obtain ⟨h1, h2, X, Y, h3, h4⟩ := ih [] (by simp) g hg
        refine ⟨h1, h2, s :: X, Y, ?_, h4⟩
        rw [hc]; simp only [List.nil_append] at h3 ⊢
        rw [h3]; rfl
      · simp only [splitSegs, hs, if_true, hc, if_false, List.mem_cons] at hg
        rcases hg with rfl | hg
        · exact ⟨hc, hcur, [], s :: S, by simp, Or.inr ⟨s, S, rfl, hs⟩⟩
        · obtain ⟨h1, h2, X, Y, h3, h4⟩ := ih [] (by simp) g hg
          refine ⟨h1, h2, cur ++ s :: X, Y, ?_, h4⟩
          simp only [List.nil_append] at h3
          rw [h3]; simp

theorem bytesOf_boundary (data : List Nat) (Y : List (Nat × List Nat))
    (hmem : ∀ s ∈ Y, s ∈ segs data)
    (hY : Y = [] ∨ ∃ d Y', Y = d :: Y' ∧ skipP d = true) : Boundary (bytesOf Y) := by
  rcases hY with rfl | ⟨d, Y', rfl, hd⟩
  · exact Or.inl rfl
  · obtain ⟨sfx, hne, rfl⟩ := segs_mem_decode data d (hmem d (List.mem_cons_self _ _))
    rw [bytesOf_cons]
    exact skippable_boundary sfx _ hne hd

/-- A token and its decoding: the token is the bytes of a non-empty run `g` of
non-skippable code points of the input, and decoding the token alone yields `g`. -/
theorem tokens_decode (data : List Nat) :
    ∀ tok ∈ tokens data, ∃ g, tok = bytesOf g ∧ segs tok = g ∧ g ≠ [] ∧
      (∀ s ∈ g, wordP s = true) ∧ (∀ s ∈ g, s ∈ segs data) := by
  intro tok htok
  rw [tokens_eq, List.mem_map] at htok
  obtain ⟨g, hg, rfl⟩ := htok
  obtain ⟨h1, h2, X, Y, h3, h4⟩ := splitSegs_group (segs data) [] (by simp) g hg
  simp only [List.nil_append] at h3
  have hgm : ∀ s ∈ g, s ∈ segs data := by
    intro s hs; rw [h3]; simp [hs]
  have hYm : ∀ s ∈ Y, s ∈ segs data := by
    intro s hs; rw [h3]; simp [hs]
  refine ⟨g, rfl, ?_, h1, h2, hgm⟩
  have hb := bytesOf_boundary data Y hYm h4
  have e1 := segs_split data X (g ++ Y) h3
  have e2 := segs_split data (X ++ g) Y (by rw [h3]; simp)
  have d1 : data.drop (bytesOf X).length = bytesOf g ++ bytesOf Y := by
    have := bytesOf_segs (data.drop (bytesOf X).length)
    rw [e1.1, bytesOf_append] at this; exact this.symm
  have d2 : bytesOf Y = data.drop (bytesOf (X ++ g)).length := by
    have := bytesOf_segs (data.drop (bytesOf (X ++ g)).length)
    rw [e2.1] at this; exact this
  have e3 : segs (bytesOf g ++ bytesOf Y) = g ++ Y := by rw [← d1]; exact e1.1
  have e4 : segs (bytesOf Y) = Y := by rw [d2]; exact e2.1
  rw [segs_append_boundary _ _ hb, e4] at e3
  exact List.append_cancel_right e3

/-- Every token is non-empty. -/
theorem tokens_ne_nil (data : List Nat) : ∀ tok ∈ tokens data, tok ≠ [] := by
  intro tok htok
  obtain ⟨g, rfl, -, hne, -, hm⟩ := tokens_decode data tok htok
  obtain ⟨s, g', rfl⟩ := List.exists_cons_of_ne_nil hne
  have := segs_snd_ne_nil data s (hm s (List.mem_cons_self _ _))
  rw [bytesOf_cons]; simp [this]

/-- No token holds a skippable code point. -/
theorem tokens_noSkippable (data : List Nat) : ∀ tok ∈ tokens data, noSkippable tok = true := by
  intro tok htok
  obtain ⟨g, -, hseg, -, hw, -⟩ := tokens_decode data tok htok
  rw [noSkippable_iff, hseg]; exact hw

theorem mem_bytesOf (S : List (Nat × List Nat)) (c : Nat) :
    c ∈ bytesOf S ↔ ∃ s ∈ S, c ∈ s.2 := by
  simp [bytesOf, List.mem_flatMap]

/-- No token holds a skippable ASCII byte (white space or one of `! | & ( )`). -/
theorem tokens_ascii (data : List Nat) :
    ∀ tok ∈ tokens data, ∀ c ∈ tok, c < 0x80 → isSkipable c = false := by
  intro tok htok c hc hlt
  obtain ⟨g, rfl, -, -, hw, hm⟩ := tokens_decode data tok htok
  obtain ⟨s, hs, hcs⟩ := (mem_bytesOf g c).mp hc
  obtain ⟨sfx, hne, rfl⟩ := segs_mem_decode data s (hm s hs)
  have := (seg_ascii_byte sfx c hcs hlt).1
  have hw1 := hw _ hs
  simp only [wordP, this, Bool.not_eq_true'] at hw1
  exact hw1

/-! ## `Atoi` reads back what `Itoa` writes -/

theorem formatNat_digits : ∀ (fuel m : Nat), ∀ c ∈ formatNat fuel m, 0x30 ≤ c ∧ c ≤ 0x39 := by
  intro fuel
  induction fuel with
  | zero => intro m c hc; simp [formatNat] at hc
  | succ fuel ih =>
    intro m c hc
    unfold formatNat at hc
    by_cases h : m < 10
    · simp only [h, if_true, List.mem_singleton] at hc; omega
    · simp only [h, if_false, List.mem_append, List.mem_singleton] at hc
      rcases hc with hc | hc
      · exact ih _ c hc
      · omega

theorem formatNat_ne_nil (fuel m : Nat) : formatNat (fuel + 1) m ≠ [] := by
  unfold formatNat
  by_cases h : m < 10 <;> simp [h]

theorem atoiFast_concat (xs : List Nat) (d : Nat) (hd : 0x30 ≤ d ∧ d ≤ 0x39) :
    ∀ acc v, atoiFast xs acc = some v → atoiFast (xs ++ [d]) acc = some (v * 10 + (d - 0x30)) := by
  induction xs with
  | nil =>
    intro acc v h
    simp only [atoiFast, Option.some.injEq] at h
    subst h
    simp [atoiFast, hd]
  | cons x xs ih =>
    intro acc v h
    by_cases hx : 0x30 ≤ x ∧ x ≤ 0x39
    · simp only [atoiFast, hx, and_self, if_true, List.cons_append] at h ⊢
      exact ih _ _ h
    · simp [atoiFast, hx] at h

theorem atoiFast_formatNat : ∀ (fuel m : Nat), m < 10 ^ fuel →
    atoiFast (formatNat fuel m) 0 = some m := by
  intro fuel
  induction fuel with
  | zero => intro m h; simp at h; subst h; rfl
  | succ fuel ih =>
    intro m hm
    unfold formatNat
    by_cases h : m < 10
    · have : 0x30 ≤ 0x30 + m ∧ 0x30 + m ≤ 0x39 := by omega
      simp [h, atoiFast, this]
    · simp only [h, if_false]
      have hdiv : m / 10 < 10 ^ fuel := by
        rw [Nat.div_lt_iff_lt_mul (by norm_num)]
        rw [pow_succ] at hm; exact hm
      have := atoiFast_concat (formatNat fuel (m / 10)) (0x30 + m % 10) (by omega) 0 _
        (ih _ hdiv)
      rw [this]
      congr 1
      omega

theorem parseUintLoop_concat (xs : List Nat) (d : Nat) (hd : 0x30 ≤ d ∧ d ≤ 0x39) :
    ∀ acc v, parseUintLoop xs acc = (v, none) →
      v * 10 + (d - 0x30) < 2 ^ 64 →
      parseUintLoop (xs ++ [d]) acc = (v * 10 + (d - 0x30), none) := by
  induction xs with
  | nil =>
    intro acc v h hv
    simp only [parseUintLoop, Prod.mk.injEq, and_true] at h
    subst h
    have h1 : ¬ (acc ≥ maxUint64 / 10 + 1) := by
      simp only [maxUint64]; omega
    have h2 : (acc * 10 + (d - 0x30)) % 2 ^ 64 = acc * 10 + (d - 0x30) := Nat.mod_eq_of_lt hv
    have h3 : ¬ (acc * 10 + (d - 0x30) < acc * 10 ∨ acc * 10 + (d - 0x30) > maxUint64) := by
      simp only [maxUint64]; omega
    simp only [List.nil_append, parseUintLoop, hd, and_self, if_true, h1, if_false, h2, h3]
  | cons x xs ih =>
    intro acc v h hv
    simp only [List.cons_append, parseUintLoop] at h ⊢
    by_cases hx : 0x30 ≤ x ∧ x ≤ 0x39
    · simp only [hx, and_self, if_true] at h ⊢
      by_cases h1 : acc ≥ maxUint64 / 10 + 1
      · simp [h1] at h
      · simp only [h1, if_false] at h ⊢
        by_cases h3 : (acc * 10 + (x - 0x30)) % 2 ^ 64 < acc * 10 ∨
            (acc * 10 + (x - 0x30)) % 2 ^ 64 > maxUint64
        · rw [if_pos h3] at h; simp at h
        · rw [if_neg h3] at h ⊢
          exact ih _ _ h hv
    · simp [hx] at h

theorem parseUintLoop_formatNat : ∀ (fuel m : Nat), m < 10 ^ fuel → m < 2 ^ 64 →
    parseUintLoop (formatNat fuel m) 0 = (m, none) := by
  intro fuel
  induction fuel with
  | zero => intro m h _; simp at h; subst h; rfl
  | succ fuel ih =>
    intro m hm h64
    unfold formatNat
    by_cases h : m < 10
    · have hd : 0x30 ≤ 0x30 + m ∧ 0x30 + m ≤ 0x39 := by omega
      have h1 : ¬ ((0 : Nat) ≥ maxUint64 / 10 + 1) := by simp [maxUint64]
      have h2 : (0 * 10 + (0x30 + m - 0x30)) % 2 ^ 64 = m := by
        rw [Nat.mod_eq_of_lt] <;> omega
      have h3 : ¬ (m < 0 * 10 ∨ m > maxUint64) := by simp only [maxUint64]; omega
      simp only [h, if_true, parseUintLoop, hd, and_self, h1, if_false, h2, h3]
    · simp only [h, if_false]
      have hdiv : m / 10 < 10 ^ fuel := by
        rw [Nat.div_lt_iff_lt_mul (by norm_num)]
        rw [pow_succ] at hm; exact hm
      have hval : m / 10 * 10 + (0x30 + m % 10 - 0x30) = m := by omega
      have := parseUintLoop_concat (formatNat fuel (m / 10)) (0x30 + m % 10) (by omega) 0 _
        (ih _ hdiv (by omega)) (by rw [hval]; exact h64)
      rw [this, hval]

theorem lt_ten_pow_succ (m : Nat) : m < 10 ^ (m + 1) := by
  have h : m + 1 < 10 ^ (m + 1) := Nat.lt_pow_self (by norm_num) _
  omega

/-- `Atoi` on a non-empty string of digits `ds` that `atoiFast` and `parseUintLoop`
both read as `m`, with or without a leading `-`. -/
theorem Atoi_digits (c : Nat) (rest : List Nat) (m : Nat) (hc : 0x30 ≤ c ∧ c ≤ 0x39)
    (hfast : atoiFast (c :: rest) 0 = some m)
    (hslow : parseUintLoop (c :: rest) 0 = (m, none)) :
    (m < 2 ^ 63 → Atoi (c :: rest) = ((m : Int), none)) ∧
    (m ≤ 2 ^ 63 → Atoi (0x2D :: c :: rest) = (-(m : Int), none)) := by
  have c1 : ¬ (c = 0x2D) := by omega
  have c2 : ¬ (c = 0x2B) := by omega
  constructor
  · intro hm
    unfold Atoi
    by_cases hlen : 0 < (c :: rest).length ∧ (c :: rest).length < 19
    · rw [if_pos hlen]
      simp [c1, c2, hfast]
    · rw [if_neg hlen]
      have h3 : ¬ (2 ^ 63 ≤ m) := by omega
      simp [ParseInt, ParseUint, c1, c2, hslow, h3]
      omega
  · intro hm
    unfold Atoi
    by_cases hlen : 0 < (0x2D :: c :: rest).length ∧ (0x2D :: c :: rest).length < 19
    · rw [if_pos hlen]
      simp [hfast]
    · rw [if_neg hlen]
      have h3 : ¬ (2 ^ 63 < m) := by omega
      simp [ParseInt, ParseUint, hslow, h3]
      omega

/-- `strconv.Atoi` reads the decimal representation of every `int` back, without error. -/
theorem Atoi_Itoa (n : Int) (h1 : -(2 : Int) ^ 63 ≤ n) (h2 : n < (2 : Int) ^ 63) :
    Atoi (Itoa n) = (n, none) := by
  have hne := formatNat_ne_nil n.natAbs n.natAbs
  obtain ⟨c, rest, hds⟩ := List.exists_cons_of_ne_nil hne
  have hc := formatNat_digits (n.natAbs + 1) n.natAbs c (by rw [hds]; simp)
  have hfast := atoiFast_formatNat (n.natAbs + 1) n.natAbs (lt_ten_pow_succ _)
  have hslow := parseUintLoop_formatNat (n.natAbs + 1) n.natAbs (lt_ten_pow_succ _) (by omega)
  rw [hds] at hfast hslow
  obtain ⟨hpos, hneg⟩ := Atoi_digits c rest n.natAbs hc hfast hslow
  unfold Itoa
  by_cases hn : n < 0
  · rw [if_pos hn, hds, hneg (by omega)]
    congr 1; omega
  · rw [if_neg hn, hds, hpos (by omega)]
    congr 1; omega

/-- What `Atoi` returns next to an error: `0` with a syntax error, the largest or
the smallest `int` with a range error. -/
theorem Atoi_error_value (v : List Nat) :
    ((Atoi v).2 = some NumErr.ErrSyntax → (Atoi v).1 = 0) ∧
    ((Atoi v).2 = some NumErr.ErrRange →
      (Atoi v).1 = (2 : Int) ^ 63 - 1 ∨ (Atoi v).1 = -(2 : Int) ^ 63) := by
  unfold Atoi
  by_cases hlen : 0 < v.length ∧ v.length < 19
  · rw [if_pos hlen]
    simp only
    split_ifs <;> first
      | (simp; done)
      | (generalize atoiFast _ 0 = r; cases r <;> simp)
  · rw [if_neg hlen]
    unfold ParseInt
    simp only
    split_ifs <;> simp_all

/-! ## Directive tokens -/

/-- A token that starts with a key ending in its only `:` has that key and the rest
as its value. -/
theorem key_value_split (xs v : List Nat) (h : 0x3A ∉ xs) :
    0x3A ∈ xs ++ 0x3A :: v ∧ keyOf (xs ++ 0x3A :: v) = xs ++ [0x3A] ∧
      valueOf (xs ++ 0x3A :: v) = v := by
  have hidx : (xs ++ 0x3A :: v).indexOf 0x3A = xs.length := by
    rw [List.indexOf_append_of_not_mem h]; simp
  refine ⟨by simp, ?_, ?_⟩
  · unfold keyOf
    rw [hidx]
    have : xs ++ 0x3A :: v = (xs ++ [0x3A]) ++ v := by simp
    rw [this, List.take_left' (by simp)]
  · unfold valueOf
    rw [hidx]
    have : xs ++ 0x3A :: v = (xs ++ [0x3A]) ++ v := by simp
    rw [this, List.drop_left' (by simp)]

theorem limitOf_limit (v : List Nat) : limitOf (str "limit:" ++ v) = some v := by
  have e : str "limit:" = [108, 105, 109, 105, 116] ++ [0x3A] := by decide
  obtain ⟨h1, h2, h3⟩ := key_value_split [108, 105, 109, 105, 116] v (by decide)
  have e2 : str "limit:" ++ v = [108, 105, 109, 105, 116] ++ 0x3A :: v := by rw [e]; simp
  unfold limitOf
  rw [e2, if_pos ⟨h1, by rw [h2, e]⟩, h3]

/-- The final limit of an in-memory parse is the clamp of what `Atoi` returned for
the value of the last `limit:` token, and the clamp of `0` without such a token. -/
theorem last_limit (pre post : List (List Nat)) (v : List Nat)
    (hpost : ∀ t ∈ post, limitOf t = none) :
    ((pre ++ [str "limit:" ++ v] ++ post).filterMap limitOf).getLast? = some v := by
  have hp : post.filterMap limitOf = [] := by
    rw [List.filterMap_eq_nil_iff]; exact hpost
  rw [List.filterMap_append, List.filterMap_append, hp, List.append_nil]
  simp [List.filterMap_cons, limitOf_limit]

theorem clampLimit_range (n : Int) : 10 ≤ clampLimit n ∧ clampLimit n ≤ 100 := by
  unfold clampLimit; split_ifs <;> omega

/-! ## The fields of the parsed query -/

theorem specTerms_append (a b : List (List Nat)) :
    specTerms (a ++ b) = specTerms a ++ specTerms b := by
  simp [specTerms, List.filterMap_append]

theorem finish_Limit_range (st : ParseState) : 10 ≤ (finish st).Limit ∧ (finish st).Limit ≤ 100 := by
  rw [finish_Limit]; exact clampLimit_range _

theorem parseStep_unknown (norm : Normalizer) (st : ParseState) (u : List Nat)
    (hcolon : 0x3A ∈ u)
    (h1 : keyOf u ≠ str "status:") (h2 : keyOf u ≠ str "label:")
    (h3 : keyOf u ≠ str "limit:") (h4 : keyOf u ≠ str "assignee:") :
    parseStep norm st u = st := by
  rw [parseStep_directive norm st u hcolon]
  obtain ⟨e1, e2, e3, e4⟩ := prefix_values
  rw [if_neg (by rw [e1]; exact h4), if_neg (by rw [e2]; exact h3),
    if_neg (by rw [e3]; exact h2), if_neg (by rw [e4]; exact h1)]

theorem tokens_with_unknown (u a b : List Nat) (hne : u ≠ []) (hskip : noSkippable u = true) :
    tokens (a ++ str " " ++ u ++ str " " ++ b) = tokens a ++ [u] ++ tokens b := by
  have e : a ++ str " " ++ u ++ str " " ++ b = a ++ str " " ++ (u ++ str " " ++ b) := by
    simp [List.append_assoc]
  rw [e, tokens_append_space, tokens_append_space, tokens_single u hne hskip, List.append_assoc]

/-! ## The terms of the search expression -/

theorem renderTerm_some (tok term : List Nat) (h : renderTerm tok = some term) :
    0x3A ∉ tok ∧
    ((term = tok ∧ tok ≠ [] ∧ tok.head? ≠ some 0x2D) ∨
     (∃ rest, rest ≠ [] ∧ tok = 0x2D :: rest ∧ term = 0x21 :: rest)) := by
  unfold renderTerm at h
  by_cases hc : 0x3A ∈ tok
  · simp [hc] at h
  · refine ⟨hc, ?_⟩
    rw [if_neg hc] at h
    rcases tok with _ | ⟨b, rest⟩
    · simp at h
    · simp only at h
      by_cases hb : b = 0x2D
      · rw [if_pos hb] at h
        by_cases hr : rest = []
        · simp [hr] at h
        · rw [if_neg hr] at h
          right
          exact ⟨rest, hr, by rw [hb], (Option.some.inj h).symm⟩
      · rw [if_neg hb] at h
        left
        refine ⟨(Option.some.inj h).symm, by simp, ?_⟩
        simp [hb]

/-- Every rendered term of an input is a good term of it. -/
theorem specTerms_good (q : List Nat) : ∀ term ∈ specTerms (tokens q), GoodTerm q term := by
  intro term hterm
  unfold specTerms at hterm
  rw [List.mem_filterMap] at hterm
  obtain ⟨tok, htok, hr⟩ := hterm
  obtain ⟨hc, h | ⟨rest, hne, h1, h2⟩⟩ := renderTerm_some tok term hr
  · obtain ⟨rfl, -, hh⟩ := h
    exact Or.inl ⟨htok, hc, hh⟩
  · subst h1 h2
    refine Or.inr ⟨rest, hne, rfl, htok, ?_⟩
    intro hm; exact hc (List.mem_cons_of_mem _ hm)

theorem token_no_skip_byte (q tok : List Nat) (htok : tok ∈ tokens q) (c : Nat)
    (hc : c < 0x80) (hs : isSkipable c = true) : c ∉ tok := by
  intro hm
  have := tokens_ascii q tok htok c hm hc
  rw [this] at hs; exact absurd hs (by simp)

/-- The shape of a good term: a first byte that is not `&`, then bytes that are
neither `&` nor `!`; and the term without one leading `!` is not empty. -/
theorem GoodTerm_shape (q term : List Nat) (h : GoodTerm q term) :
    ∃ c r, term = c :: r ∧ c ≠ 0x26 ∧ 0x26 ∉ r ∧ 0x21 ∉ r ∧ stripBang term ≠ [] := by
  rcases h with ⟨htok, -, -⟩ | ⟨rest, hne, rfl, htok, -⟩
  · have hne := tokens_ne_nil q term htok
    obtain ⟨c, r, rfl⟩ := List.exists_cons_of_ne_nil hne
    have h26 := token_no_skip_byte q _ htok 0x26 (by decide) (by decide)
    have h21 := token_no_skip_byte q _ htok 0x21 (by decide) (by decide)
    simp only [List.mem_cons, not_or] at h26 h21
    refine ⟨c, r, rfl, fun hc => h26.1 hc.symm, h26.2, h21.2, ?_⟩
    have : ¬ (c = 0x21) := fun hc => h21.1 hc.symm
    simp [stripBang, this]
  · have h26 := token_no_skip_byte q _ htok 0x26 (by decide) (by decide)
    have h21 := token_no_skip_byte q _ htok 0x21 (by decide) (by decide)
    simp only [List.mem_cons, not_or] at h26 h21
    refine ⟨0x21, rest, rfl, by decide, h26.2, h21.2, ?_⟩
    simpa [stripBang] using hne

/-! ## Strings joined by a separator -/

theorem intercalate_cons_cons (sep t t2 : List Nat) (ts : List (List Nat)) :
    List.intercalate sep (t :: t2 :: ts) = t ++ (sep ++ List.intercalate sep (t2 :: ts)) := by
  simp [List.intercalate]

theorem intercalate_singleton (sep t : List Nat) : List.intercalate sep [t] = t := by
  simp [List.intercalate]

theorem intercalate_nil (sep : List Nat) : List.intercalate sep ([] : List (List Nat)) = [] := by
  simp [List.intercalate]

/-- In a join of separator-free strings every separator stands between two of them. -/
theorem intercalate_split (x : Nat) (terms : List (List Nat))
    (hx : ∀ t ∈ terms, x ∉ t) :
    ∀ pre post, List.intercalate [x] terms = pre ++ x :: post →
      ∃ k, 0 < k ∧ k < terms.length ∧ pre = List.intercalate [x] (terms.take k) ∧
        post = List.intercalate [x] (terms.drop k) := by
  induction terms with
  | nil =>
    intro pre post h
    rw [intercalate_nil] at h
    exact absurd h (by simp)
  | cons t ts ih =>
    intro pre post h
    rcases ts with _ | ⟨t2, ts⟩
    · rw [intercalate_singleton] at h
      exact absurd (by rw [h]; simp) (hx t (List.mem_cons_self _ _))
    · rw [intercalate_cons_cons, List.singleton_append] at h
      have hx' : ∀ s ∈ t2 :: ts, x ∉ s := fun s hs => hx s (List.mem_cons_of_mem _ hs)
      rcases List.append_eq_append_iff.mp h with ⟨a', h1, h2⟩ | ⟨c', h1, h2⟩
      · rcases a' with _ | ⟨y, a''⟩
        · simp only [List.nil_append, List.cons.injEq, true_and] at h2
          refine ⟨1, by omega, by simp, ?_, ?_⟩
          · simp [h1, intercalate_singleton]
          · simp [h2]
        · simp only [List.cons_append, List.cons.injEq] at h2
          obtain ⟨rfl, h2⟩ := h2
          obtain ⟨k, hk0, hk1, hpre, hpost⟩ := ih hx' a'' post h2
          refine ⟨k + 1, by omega, by simp at hk1 ⊢; omega, ?_, ?_⟩
          · obtain ⟨j, rfl⟩ : ∃ j, k = j + 1 := ⟨k - 1, by omega⟩
            rw [h1, hpre]
            simp only [List.take_succ_cons]
            rw [intercalate_cons_cons, List.singleton_append]
          · simpa using hpost
      · rcases c' with _ | ⟨y, c''⟩
        · simp only [List.nil_append, List.cons.injEq, true_and, List.append_nil] at h1 h2
          refine ⟨1, by omega, by simp, ?_, ?_⟩
          · simp [h1, intercalate_singleton]
          · simp [h2]
        · simp only [List.cons_append, List.cons.injEq] at h2
          obtain ⟨rfl, -⟩ := h2
          exact absurd (by rw [h1]; simp) (hx t (List.mem_cons_self _ _))

theorem count_intercalate (x : Nat) (terms : List (List Nat)) (hx : ∀ t ∈ terms, x ∉ t)
    (hne : terms ≠ []) :
    (List.intercalate [x] terms).count x + 1 = terms.length := by
  induction terms with
  | nil => exact absurd rfl hne
  | cons t ts ih =>
    have ht : t.count x = 0 := List.count_eq_zero.mpr (hx t (List.mem_cons_self _ _))
    rcases ts with _ | ⟨t2, ts⟩
    · rw [intercalate_singleton, ht]; rfl
    · have := ih (fun s hs => hx s (List.mem_cons_of_mem _ hs)) (by simp)
      rw [intercalate_cons_cons, List.count_append, List.count_append, ht]
      simp only [List.count_singleton_self, List.length_cons] at this ⊢
      omega

theorem head?_intercalate (x : Nat) (t : List Nat) (ts : List (List Nat)) (ht : t ≠ []) :
    (List.intercalate [x] (t :: ts)).head? = t.head? := by
  obtain ⟨c, r, rfl⟩ := List.exists_cons_of_ne_nil ht
  rcases ts with _ | ⟨t2, ts⟩
  · rw [intercalate_singleton]
  · rw [intercalate_cons_cons]; rfl

theorem getLast?_intercalate (x : Nat) (terms : List (List Nat)) (hne : ∀ t ∈ terms, t ≠ []) :
    (List.intercalate [x] terms).getLast? = (terms.getLast?).bind List.getLast? := by
  induction terms with
  | nil => simp [intercalate_nil]
  | cons t ts ih =>
    rcases ts with _ | ⟨t2, ts⟩
    · simp [intercalate_singleton]
    · have h := ih (fun s hs => hne s (List.mem_cons_of_mem _ hs))
      have hne2 : List.intercalate [x] (t2 :: ts) ≠ [] := by
        have h2 := hne t2 (by simp)
        obtain ⟨c, r, hc⟩ := List.exists_cons_of_ne_nil h2
        have := head?_intercalate x t2 ts h2
        intro hnil
        rw [hnil, hc] at this; simp at this
      rw [intercalate_cons_cons, ← List.append_assoc,
        List.getLast?_append_of_ne_nil _ hne2, h]
      simp [List.getLast?_cons_cons]

/-! ## Encoded skippable code points as separators -/

theorem isSkipable_cases (r : Nat) (h : isSkipable r = true) :
    (r < 0x80) ∨ r = 0x85 ∨ r = 0xA0 ∨ r = 0x1680 ∨ (0x2000 ≤ r ∧ r ≤ 0x200A) ∨ r = 0x2028 ∨
      r = 0x2029 ∨ r = 0x202F ∨ r = 0x205F ∨ r = 0x3000 := by
  unfold isSkipable IsSpace at h
  by_cases h1 : r ≤ 0xFF
  · simp only [h1, if_true, Bool.or_eq_true, beq_iff_eq] at h
    omega
  · simp only [h1, if_false, Bool.or_eq_true, beq_iff_eq, Bool.and_eq_true,
      decide_eq_true_eq] at h
    omega

/-- Decoding reads an encoded skippable code point back, whatever follows it. -/
theorem decodeRune_encode_skippable (r : Nat) (h : isSkipable r = true) (x : List Nat) :
    decodeRune (encodeRune r ++ x) = (r, (encodeRune r).length) := by
  rcases isSkipable_cases r h with h | h | h | h | h | h | h | h | h | h
  · simp [encodeRune, h, decodeRune]
  · subst h; simp [encodeRune, decodeRune, decodeMulti, leadSize, acceptLo, acceptHi]
  · subst h; simp [encodeRune, decodeRune, decodeMulti, leadSize, acceptLo, acceptHi]
  · subst h; simp [encodeRune, decodeRune, decodeMulti, leadSize, acceptLo, acceptHi]
  · obtain ⟨h1, h2⟩ := h
    interval_cases r <;>
      simp [encodeRune, decodeRune, decodeMulti, leadSize, acceptLo, acceptHi]
  · subst h; simp [encodeRune, decodeRune, decodeMulti, leadSize, acceptLo, acceptHi]
  · subst h; simp [encodeRune, decodeRune, decodeMulti, leadSize, acceptLo, acceptHi]
  · subst h; simp [encodeRune, decodeRune, decodeMulti, leadSize, acceptLo, acceptHi]
  · subst h; simp [encodeRune, decodeRune, decodeMulti, leadSize, acceptLo, acceptHi]
  · subst h; simp [encodeRune, decodeRune, decodeMulti, leadSize, acceptLo, acceptHi]

theorem encodeRune_ne_nil (r : Nat) : encodeRune r ≠ [] := by
  unfold encodeRune; split_ifs <;> simp

theorem segs_encode_skippable (r : Nat) (h : isSkipable r = true) (x : List Nat) :
    segs (encodeRune r ++ x) = (r, encodeRune r) :: segs x := by
  rw [segs_of_ne_nil _ (by simp [encodeRune_ne_nil]), decodeRune_encode_skippable r h x]
  simp

/-- The tokens of two inputs joined by an encoded skippable code point are the tokens
of the first followed by the tokens of the second. -/
theorem tokens_append_rune (a b : List Nat) (r : Nat) (h : isSkipable r = true) :
    tokens (a ++ encodeRune r ++ b) = tokens a ++ tokens b := by
  have hb : Boundary (encodeRune r ++ b) := by
    have := skippable_boundary (encodeRune r ++ b) b (by simp [encodeRune_ne_nil])
      (by rw [decodeRune_encode_skippable r h b]; exact h)
    rw [decodeRune_encode_skippable r h b] at this
    simpa using this
  rw [tokens_eq, tokens_eq, tokens_eq, List.append_assoc, segs_append_boundary a _ hb,
    segs_encode_skippable r h b, splitSegs_append_delim _ _ _ h, List.map_append]

/-- The tokens of two inputs joined by a non-empty run of encoded skippable code
points are the tokens of the first followed by the tokens of the second. -/
theorem tokens_append_runes (a b : List Nat) (rs : List Nat) (hne : rs ≠ [])
    (hrs : ∀ r ∈ rs, isSkipable r = true) :
    tokens (a ++ rs.flatMap encodeRune ++ b) = tokens a ++ tokens b := by
  have key : ∀ rs : List Nat, (∀ r ∈ rs, isSkipable r = true) →
      tokens (rs.flatMap encodeRune ++ b) = tokens b := by
    intro rs
    induction rs with
    | nil => intro _; rfl
    | cons r rs ih =>
      intro h
      have := tokens_append_rune [] (rs.flatMap encodeRune ++ b) r (h r (List.mem_cons_self _ _))
      simp only [List.nil_append, tokens_nil] at this
      rw [List.flatMap_cons, List.append_assoc, this]
      exact ih (fun x hx => h x (List.mem_cons_of_mem _ hx))
  obtain ⟨r, rest, rfl⟩ := List.exists_cons_of_ne_nil hne
  have h1 := tokens_append_rune a (rest.flatMap encodeRune ++ b) r (hrs r (List.mem_cons_self _ _))
  rw [List.flatMap_cons]
  have e : a ++ (encodeRune r ++ rest.flatMap encodeRune) ++ b =
      a ++ encodeRune r ++ (rest.flatMap encodeRune ++ b) := by simp [List.append_assoc]
  rw [e, h1, key rest (fun x hx => hrs x (List.mem_cons_of_mem _ hx))]

/-! ## The alphabet of the search expression -/

/-- An ASCII code point of a decoding is a byte of the decoded string. -/
theorem rune_ascii_mem (p : List Nat) : ∀ s ∈ segs p, s.1 < 0x80 → s.1 ∈ p := by
  intro s hs hlt
  obtain ⟨sfx, hne, rfl⟩ := segs_mem_decode p s hs
  have h := seg_ascii_rune sfx hne hlt
  have hm : (decodeRune sfx).1 ∈ bytesOf (segs p) := by
    rw [mem_bytesOf]
    exact ⟨_, hs, by simp only [h, List.mem_singleton]⟩
  rwa [bytesOf_segs] at hm

theorem isSkipable_false (c : Nat) (h : isSkipable c = false) :
    IsSpace c = false ∧ c ≠ 0x21 ∧ c ≠ 0x7C ∧ c ≠ 0x26 ∧ c ≠ 0x28 ∧ c ≠ 0x29 := by
  unfold isSkipable at h
  simp only [Bool.or_eq_false_iff, beq_eq_false_iff_ne, ne_eq] at h
  obtain ⟨⟨⟨⟨⟨h1, h2⟩, h3⟩, h4⟩, h5⟩, h6⟩ := h
  exact ⟨h1, h2, h3, h4, h5, h6⟩

/-- The tokens of an input are contiguous pieces of it. -/
theorem tokens_contiguous (data : List Nat) : ∀ tok ∈ tokens data, tok <:+: data := by
  intro tok htok
  rw [tokens_eq, List.mem_map] at htok
  obtain ⟨g, hg, rfl⟩ := htok
  obtain ⟨-, -, X, Y, h3, -⟩ := splitSegs_group (segs data) [] (by simp) g hg
  simp only [List.nil_append] at h3
  refine ⟨bytesOf X, bytesOf Y, ?_⟩
  have := bytesOf_segs data
  rw [h3, bytesOf_append, bytesOf_append] at this
  rw [← this]; simp

/-- The decoding of a good term: `!` as the marker, else code points that are neither
skippable nor `:`. -/
theorem GoodTerm_segs (q term : List Nat) (h : GoodTerm q term) :
    ∀ s ∈ segs term, s = (0x21, [0x21]) ∨ (wordP s = true ∧ s.1 ≠ 0x3A) := by
  rcases h with ⟨htok, hc, -⟩ | ⟨rest, -, rfl, htok, hc⟩
  · intro s hs
    right
    have hw := (noSkippable_iff term).mp (tokens_noSkippable q term htok) s hs
    refine ⟨hw, fun h58 => hc ?_⟩
    have := rune_ascii_mem term s hs (by omega)
    rwa [h58] at this
  · intro s hs
    rw [segs_ascii_cons 0x21 rest (by decide)] at hs
    rcases List.mem_cons.mp hs with rfl | hs
    · exact Or.inl rfl
    · right
      have hs' : s ∈ segs (0x2D :: rest) := by
        rw [segs_ascii_cons 0x2D rest (by decide)]
        exact List.mem_cons_of_mem _ hs
      have hw := (noSkippable_iff _).mp (tokens_noSkippable q _ htok) s hs'
      refine ⟨hw, fun h58 => hc ?_⟩
      have := rune_ascii_mem rest s hs (by omega)
      rwa [h58] at this

/-- The decoding of good terms joined by `&`. -/
theorem intercalate_segs (q : List Nat) (terms : List (List Nat))
    (hgood : ∀ t ∈ terms, GoodTerm q t) :
    ∀ s ∈ segs (List.intercalate [0x26] terms),
      s = (0x26, [0x26]) ∨ s = (0x21, [0x21]) ∨ (wordP s = true ∧ s.1 ≠ 0x3A) := by
  induction terms with
  | nil => intro s hs; rw [intercalate_nil, segs_nil] at hs; simp at hs
  | cons t ts ih =>
    have ht := GoodTerm_segs q t (hgood t (List.mem_cons_self _ _))
    rcases ts with _ | ⟨t2, ts⟩
    · intro s hs
      rw [intercalate_singleton] at hs
      exact Or.inr (ht s hs)
    · intro s hs
      rw [intercalate_cons_cons, List.singleton_append,
        segs_append_boundary _ _ (boundary_of_ascii 0x26 _ (by decide)),
        segs_ascii_cons 0x26 _ (by decide)] at hs
      rcases List.mem_append.mp hs with hs | hs
      · exact Or.inr (ht s hs)
      · rcases List.mem_cons.mp hs with rfl | hs
        · exact Or.inl rfl
        · exact ih (fun x hx => hgood x (List.mem_cons_of_mem _ hx)) s hs

theorem mem_intercalate (x c : Nat) (terms : List (List Nat))
    (h : c ∈ List.intercalate [x] terms) : c = x ∨ ∃ t ∈ terms, c ∈ t := by
  induction terms with
  | nil => rw [intercalate_nil] at h; simp at h
  | cons t ts ih =>
    rcases ts with _ | ⟨t2, ts⟩
    · rw [intercalate_singleton] at h
      exact Or.inr ⟨t, List.mem_cons_self _ _, h⟩
    · rw [intercalate_cons_cons, List.singleton_append] at h
      rcases List.mem_append.mp h with h | h
      · exact Or.inr ⟨t, List.mem_cons_self _ _, h⟩
      · rcases List.mem_cons.mp h with h | h
        · exact Or.inl h
        · rcases ih h with h | ⟨t', ht', hc⟩
          · exact Or.inl h
          · exact Or.inr ⟨t', List.mem_cons_of_mem _ ht', hc⟩

/-- The bytes of a good term: none of `|`, `(`, `)`, `:`, `&`, no ASCII white space. -/
theorem GoodTerm_bytes (q term : List Nat) (h : GoodTerm q term) :
    ∀ c ∈ term, c ≠ 0x7C ∧ c ≠ 0x28 ∧ c ≠ 0x29 ∧ c ≠ 0x3A ∧ (c < 0x80 → IsSpace c = false) := by
  have key : ∀ tok ∈ tokens q, ∀ c ∈ tok, c ≠ 0x7C ∧ c ≠ 0x28 ∧ c ≠ 0x29 ∧
      (c < 0x80 → IsSpace c = false) := by
    intro tok htok c hc
    have h1 := tokens_ascii q tok htok c hc
    refine ⟨?_, ?_, ?_, ?_⟩
    · intro h; subst h; exact absurd (h1 (by decide)) (by decide)
    · intro h; subst h; exact absurd (h1 (by decide)) (by decide)
    · intro h; subst h; exact absurd (h1 (by decide)) (by decide)
    · intro hlt; exact (isSkipable_false c (h1 hlt)).1
  rcases h with ⟨htok, hcolon, -⟩ | ⟨rest, -, rfl, htok, hcolon⟩
  · intro c hc
    obtain ⟨k1, k2, k3, k4⟩ := key term htok c hc
    exact ⟨k1, k2, k3, fun h => hcolon (h ▸ hc), k4⟩
  · intro c hc
    rcases List.mem_cons.mp hc with rfl | hc
    · exact ⟨by decide, by decide, by decide, by decide, fun _ => by decide⟩
    · obtain ⟨k1, k2, k3, k4⟩ := key _ htok c (List.mem_cons_of_mem _ hc)
      exact ⟨k1, k2, k3, fun h => hcolon (h ▸ hc), k4⟩

/-- In a join by `&` of terms that hold `!` at their start only, every `!` stands at
the start of the string or right after a `&`. -/
theorem bang_position (terms : List (List Nat))
    (hshape : ∀ t ∈ terms, ∃ c r, t = c :: r ∧ 0x21 ∉ r) :
    ∀ pre post, List.intercalate [0x26] terms = pre ++ 0x21 :: post →
      pre = [] ∨ pre.getLast? = some 0x26 := by
  have single : ∀ t : List Nat, (∃ c r, t = c :: r ∧ 0x21 ∉ r) →
      ∀ pre post, t = pre ++ 0x21 :: post → pre = [] := by
    rintro t ⟨c, r, rfl, hr⟩ pre post h
    rcases pre with _ | ⟨y, pre'⟩
    · rfl
    · simp only [List.cons_append, List.cons.injEq] at h
      exact absurd (by rw [h.2]; simp) hr
  induction terms with
  | nil => intro pre post h; rw [intercalate_nil] at h; exact absurd h (by simp)
  | cons t ts ih =>
    intro pre post h
    have ht := hshape t (List.mem_cons_self _ _)
    rcases ts with _ | ⟨t2, ts⟩
    · rw [intercalate_singleton] at h
      exact Or.inl (single t ht pre post h)
    · rw [intercalate_cons_cons, List.singleton_append] at h
      rcases List.append_eq_append_iff.mp h with ⟨a', h1, h2⟩ | ⟨c', h1, h2⟩
      · rcases a' with _ | ⟨y, a''⟩
        · simp at h2
        · simp only [List.cons_append, List.cons.injEq] at h2
          obtain ⟨rfl, h2⟩ := h2
          right
          rcases ih (fun x hx => hshape x (List.mem_cons_of_mem _ hx)) a'' post h2 with h3 | h3
          · rw [h1, h3]; simp
          · rw [h1, List.getLast?_append_of_ne_nil _ (by simp)]
            rcases a'' with _ | ⟨z, a3⟩
            · simp at h3
            · rw [List.getLast?_cons_cons]; exact h3
      · rcases c' with _ | ⟨y, c''⟩
        · simp at h2
        · simp only [List.cons_append, List.cons.injEq] at h2
          obtain ⟨rfl, -⟩ := h2
          exact Or.inl (single t ht pre c'' h1)

/-! ## Decoding a buffer that grows -/

/-- A multi-byte decoding of width one is an error. -/
theorem decodeMulti_width_one (p0 : Nat) (rest : List Nat)
    (hw : (decodeMulti p0 rest).2 < 2) : (decodeMulti p0 rest).1 = RuneError := by
  rcases rest with _ | ⟨b1, _ | ⟨b2, _ | ⟨b3, rest3⟩⟩⟩
  · rcases leadSize_cases p0 with h | h | h <;> simp [decodeMulti, h]
  · revert hw
    by_cases c1 : b1 < acceptLo p0 ∨ acceptHi p0 < b1 <;>
      rcases leadSize_cases p0 with h | h | h <;>
      simp [decodeMulti, h, c1]
  · revert hw
    by_cases c1 : b1 < acceptLo p0 ∨ acceptHi p0 < b1 <;>
      by_cases c2 : b2 < 0x80 ∨ 0xBF < b2 <;>
      rcases leadSize_cases p0 with h | h | h <;>
      simp [decodeMulti, h, c1, c2]
  · have l2 : ¬ (rest3.length + 1 + 1 + 1 + 1 < 2) := by omega
    have l3 : ¬ (rest3.length + 1 + 1 + 1 + 1 < 3) := by omega
    have l4 : ¬ (rest3.length + 1 + 1 + 1 + 1 < 4) := by omega
    revert hw
    by_cases c1 : b1 < acceptLo p0 ∨ acceptHi p0 < b1 <;>
      by_cases c2 : b2 < 0x80 ∨ 0xBF < b2 <;>
      by_cases c3 : b3 < 0x80 ∨ 0xBF < b3 <;>
      rcases leadSize_cases p0 with h | h | h <;>
      simp [decodeMulti, h, c1, c2, c3, l2, l3, l4]

/-- A complete multi-byte decoding depends on the bytes it consumed only. -/
theorem decodeMulti_take (p0 : Nat) (rest X : List Nat) (hw : 2 ≤ (decodeMulti p0 rest).2) :
    decodeMulti p0 (rest.take ((decodeMulti p0 rest).2 - 1) ++ X) = decodeMulti p0 rest := by
  rcases rest with _ | ⟨b1, _ | ⟨b2, _ | ⟨b3, rest3⟩⟩⟩
  · revert hw
    rcases leadSize_cases p0 with h | h | h <;> simp [decodeMulti, h]
  · revert hw
    by_cases c1 : b1 < acceptLo p0 ∨ acceptHi p0 < b1 <;>
      rcases leadSize_cases p0 with h | h | h <;>
      simp [decodeMulti, h, c1]
  · revert hw
    by_cases c1 : b1 < acceptLo p0 ∨ acceptHi p0 < b1 <;>
      by_cases c2 : b2 < 0x80 ∨ 0xBF < b2 <;>
      rcases leadSize_cases p0 with h | h | h <;>
      simp [decodeMulti, h, c1, c2]
  · have l2 : ¬ (rest3.length + 1 + 1 + 1 + 1 < 2) := by omega
    have l3 : ¬ (rest3.length + 1 + 1 + 1 + 1 < 3) := by omega
    have l4 : ¬ (rest3.length + 1 + 1 + 1 + 1 < 4) := by omega
    revert hw
    by_cases c1 : b1 < acceptLo p0 ∨ acceptHi p0 < b1 <;>
      by_cases c2 : b2 < 0x80 ∨ 0xBF < b2 <;>
      by_cases c3 : b3 < 0x80 ∨ 0xBF < b3 <;>
      rcases leadSize_cases p0 with h | h | h <;>
      simp [decodeMulti, h, c1, c2, c3, l2, l3, l4]

/-- A skippable code point is decoded from its own bytes, whatever follows them. -/
theorem decodeRune_take_skippable (p X : List Nat) (hne : p ≠ [])
    (hs : isSkipable (decodeRune p).1 = true) :
    decodeRune (p.take (decodeRune p).2 ++ X) = decodeRune p := by
  obtain ⟨p0, rest, rfl⟩ := List.exists_cons_of_ne_nil hne
  rw [decodeRune_cons] at hs ⊢
  by_cases h0 : p0 < 0x80
  · simp only [h0, if_true, List.take_succ_cons, List.take_zero, List.cons_append,
      List.nil_append, decodeRune_cons]
  · by_cases h1 : p0 < 0xC2 ∨ 0xF4 < p0
    · simp only [h0, h1, if_true, if_false, isSkipable_RuneError] at hs
      exact absurd hs (by simp)
    · simp only [h0, h1, if_false] at hs ⊢
      by_cases hw : (decodeMulti p0 rest).2 < 2
      · rw [decodeMulti_width_one p0 rest hw, isSkipable_RuneError] at hs
        exact absurd hs (by simp)
      · obtain ⟨k, hk⟩ : ∃ k, (decodeMulti p0 rest).2 = k + 1 := ⟨(decodeMulti p0 rest).2 - 1, by omega⟩
        have ht := decodeMulti_take p0 rest X (by omega)
        rw [hk] at ht ⊢
        simp only [Nat.add_sub_cancel] at ht
        rw [List.take_succ_cons, List.cons_append, decodeRune_cons]
        simp only [h0, h1, if_false]
        rw [ht]

/-- A skippable code point of a decoded input, put before any bytes, is decoded as
it was. -/
theorem segs_skippable_cons (p : List Nat) (a : Nat × List Nat) (ha : a ∈ segs p)
    (hs : skipP a = true) (X : List Nat) : segs (a.2 ++ X) = a :: segs X := by
  obtain ⟨sfx, hne, rfl⟩ := segs_mem_decode p a ha
  have hw := decodeRune_width_le sfx
  have hpos := decodeRune_width_pos sfx hne
  have hlen : (sfx.take (decodeRune sfx).2).length = (decodeRune sfx).2 := by
    rw [List.length_take]; omega
  have hne2 : sfx.take (decodeRune sfx).2 ++ X ≠ [] := by
    intro h
    have := congrArg List.length h
    rw [List.length_append, hlen] at this
    simp at this; omega
  simp only at hne2 ⊢
  rw [segs_of_ne_nil _ hne2, decodeRune_take_skippable sfx X hne hs]
  congr 2
  · rw [List.take_append_of_le_length (by omega), List.take_of_length_le (by omega)]
  · rw [List.drop_append_of_le_length (by omega), List.drop_of_length_le (by omega)]
    rfl

/-- A run of skippable code points of a decoded input, put before any bytes, is
decoded as it was. -/
theorem segs_skippable_append (p : List Nat) (A : List (Nat × List Nat))
    (hm : ∀ a ∈ A, a ∈ segs p) (hA : ∀ a ∈ A, skipP a = true) (X : List Nat) :
    segs (bytesOf A ++ X) = A ++ segs X := by
  induction A with
  | nil => rfl
  | cons a A ih =>
    rw [bytesOf_cons, List.append_assoc,
      segs_skippable_cons p a (hm a (List.mem_cons_self _ _)) (hA a (List.mem_cons_self _ _)),
      ih (fun x hx => hm x (List.mem_cons_of_mem _ hx))
        (fun x hx => hA x (List.mem_cons_of_mem _ hx))]
    rfl

/-- A run of code points that ends where a code point can start is decoded alone as
it is decoded in place. -/
theorem segs_run (data : List Nat) (X g Y : List (Nat × List Nat))
    (h3 : segs data = X ++ (g ++ Y)) (hb : Boundary (bytesOf Y)) : segs (bytesOf g) = g := by
  have e1 := segs_split data X (g ++ Y) h3
  have e2 := segs_split data (X ++ g) Y (by rw [h3]; simp)
  have d1 : data.drop (bytesOf X).length = bytesOf g ++ bytesOf Y := by
    have := bytesOf_segs (data.drop (bytesOf X).length)
    rw [e1.1, bytesOf_append] at this; exact this.symm
  have d2 : bytesOf Y = data.drop (bytesOf (X ++ g)).length := by
    have := bytesOf_segs (data.drop (bytesOf (X ++ g)).length)
    rw [e2.1] at this; exact this
  have e3 : segs (bytesOf g ++ bytesOf Y) = g ++ Y := by rw [← d1]; exact e1.1
  have e4 : segs (bytesOf Y) = Y := by rw [d2]; exact e2.1
  rw [segs_append_boundary _ _ hb, e4] at e3
  exact List.append_cancel_right e3

/-- The decoding of a grown buffer, up to and including the first delimiter that
follows a word. -/
theorem segs_append_delim (data more : List Nat) (A T R : List (Nat × List Nat))
    (d : Nat × List Nat) (hS : segs data = A ++ (T ++ d :: R))
    (hA : ∀ a ∈ A, skipP a = true) (hd : skipP d = true) :
    segs (data ++ more) = A ++ (T ++ d :: segs (bytesOf R ++ more)) := by
  have hAm : ∀ a ∈ A, a ∈ segs data := by intro a ha; rw [hS]; simp [ha]
  have hdm : d ∈ segs data := by rw [hS]; simp
  have hdata : data = bytesOf A ++ (bytesOf T ++ (d.2 ++ bytesOf R)) := by
    have := bytesOf_segs data
    rw [hS, bytesOf_append, bytesOf_append, bytesOf_cons] at this
    exact this.symm
  have hbnd : ∀ Z, Boundary (d.2 ++ Z) := by
    intro Z
    obtain ⟨sfx, hne, rfl⟩ := segs_mem_decode data d hdm
    exact skippable_boundary sfx Z hne hd
  have hT : segs (bytesOf T) = T := by
    refine segs_run data A T (d :: R) hS ?_
    rw [bytesOf_cons]; exact hbnd _
  have e : data ++ more = bytesOf A ++ (bytesOf T ++ (d.2 ++ (bytesOf R ++ more))) := by
    conv_lhs => rw [hdata]
    simp only [List.append_assoc]
  rw [e, segs_skippable_append data A hAm hA, segs_append_boundary _ _ (hbnd _), hT,
    segs_skippable_cons data d hdm hd]

/-- Growing the buffer keeps a token that was returned with `atEOF = false`. -/
theorem scanTokens_append_some (data more : List Nat) (f : Bool) (adv : Nat) (tok : List Nat)
    (e : Option Err) (h : scanTokens data false = (adv, some tok, e)) :
    scanTokens (data ++ more) f = (adv, some tok, e) := by
  obtain ⟨A, T, R, hS, hA, hT, hR⟩ := segs_decomp (segs data)
  rcases hR with rfl | ⟨hne, d, R', rfl, hd⟩
  · rw [List.append_nil] at hS
    rw [scanTokens_end data false A T hS hA hT] at h
    simp at h
  · rw [scanTokens_delim data false A T R' d hS hA hT hne hd] at h
    rw [scanTokens_delim (data ++ more) f A T _ d
      (segs_append_delim data more A T R' d hS hA hd) hA hT hne hd]
    exact h

/-- When no token is returned with `atEOF = false`, the bytes the scanner is asked to
drop do not change the tokens of the grown buffer. -/
theorem tokens_append_none (data more : List Nat) (adv : Nat) (e : Option Err)
    (h : scanTokens data false = (adv, none, e)) :
    adv ≤ data.length ∧ tokens (data ++ more) = tokens (data.drop adv ++ more) := by
  obtain ⟨A, T, R, hS, hA, hT, hR⟩ := segs_decomp (segs data)
  rcases hR with rfl | ⟨hne, d, R', rfl, hd⟩
  · rw [List.append_nil] at hS
    rw [scanTokens_end data false A T hS hA hT] at h
    simp only [Bool.false_eq_true, false_and, if_false, Prod.mk.injEq] at h
    obtain ⟨hadv, -⟩ := h
    subst hadv
    have h3 := segs_split data A T hS
    have hdrop : data.drop (bytesOf A).length = bytesOf T := by
      have := bytesOf_segs (data.drop (bytesOf A).length)
      rw [h3.1] at this; exact this.symm
    have hdata : data = bytesOf A ++ bytesOf T := by
      have := bytesOf_segs data
      rw [hS, bytesOf_append] at this; exact this.symm
    have hAm : ∀ a ∈ A, a ∈ segs data := by intro a ha; rw [hS]; simp [ha]
    refine ⟨by rw [length_eq_bytesOf_segs data, hS, bytesOf_append, List.length_append]; omega, ?_⟩
    rw [hdrop]
    conv_lhs => rw [hdata, List.append_assoc]
    rw [tokens_eq, tokens_eq, segs_skippable_append data A hAm hA, splitSegs_skip_run A _ hA]
  · rw [scanTokens_delim data false A T R' d hS hA hT hne hd] at h
    simp at h

theorem Reader.size_eq (r : Reader) : r.size = r.content.length := by
  unfold Reader.size Reader.content
  rw [List.length_flatten]

/-! ## Inputs without tokens -/

theorem mem_runes (q : List Nat) (s : Nat × List Nat) (hs : s ∈ segs q) : s.1 ∈ runes q :=
  List.mem_map.mpr ⟨s, hs, rfl⟩

/-- An input whose code points are all skippable has no token. -/
theorem tokens_all_skippable (q : List Nat) (h : ∀ r ∈ runes q, isSkipable r = true) :
    tokens q = [] := by
  have hA : ∀ a ∈ segs q, skipP a = true := fun a ha => h a.1 (mem_runes q a ha)
  have := splitSegs_skip_run (segs q) [] hA
  rw [List.append_nil] at this
  rw [tokens_eq, this]
  rfl

/-- The encoding of a string of skippable code points decodes to that string. -/
theorem runes_encode_skippable (rs : List Nat) (h : ∀ r ∈ rs, isSkipable r = true) :
    runes (rs.flatMap encodeRune) = rs := by
  induction rs with
  | nil => rfl
  | cons r rs ih =>
    have e : (r :: rs).flatMap encodeRune = encodeRune r ++ rs.flatMap encodeRune := by
      simp [List.flatMap]
    have ih1 := ih (fun x hx => h x (List.mem_cons_of_mem _ hx))
    unfold runes at ih1 ⊢
    rw [e, segs_encode_skippable r (h r (List.mem_cons_self _ _)), List.map_cons, ih1]

theorem foldl_parseStep_nil (norm : Normalizer) :
    finish (([] : List (List Nat)).foldl (parseStep norm) ParseState.init) = emptyQuery := rfl

/-! ## Maximal runs -/

theorem modifyHead_nil_append (L : List (List (Nat × List Nat))) :
    L.modifyHead (fun g => [] ++ g) = L := by
  cases L <;> simp [List.modifyHead]

/-- The runs `splitSegs` collects are the pieces between skippable code points, the
empty pieces left out. -/
theorem splitSegs_eq_splitOnP (S : List (Nat × List Nat)) : ∀ cur,
    splitSegs S cur =
      ((S.splitOnP skipP).modifyHead (fun g => cur ++ g)).filter (fun g => !g.isEmpty) := by
  induction S with
  | nil =>
    intro cur
    cases cur <;> simp [splitSegs, List.modifyHead]
  | cons s S ih =>
    intro cur
    cases hs : isSkipable s.1
    · have hp : skipP s = false := hs
      simp only [splitSegs, hs, Bool.false_eq_true, if_false, List.splitOnP_cons, hp]
      rw [ih, List.modifyHead_modifyHead]
      congr 2
      funext g
      simp
    · have hp : skipP s = true := hs
      have h0 := ih []
      rw [modifyHead_nil_append] at h0
      simp only [splitSegs, hs, if_true, List.splitOnP_cons, hp, List.modifyHead_cons,
        List.append_nil]
      cases cur with
      | nil => simp [h0]
      | cons c cur => simp [h0]

/-- The code points of the runs, in order, are the non-skippable code points of the
input. -/
theorem splitSegs_flatten (S : List (Nat × List Nat)) : ∀ cur,
    (splitSegs S cur).flatten = cur ++ S.filter wordP := by
  induction S with
  | nil =>
    intro cur
    cases cur <;> simp [splitSegs]
  | cons s S ih =>
    intro cur
    cases hs : isSkipable s.1
    · have hw : wordP s = true := by simp [wordP, hs]
      simp only [splitSegs, hs, Bool.false_eq_true, if_false]
      rw [ih, List.filter_cons_of_pos hw]
      simp
    · have hw : ¬ (wordP s = true) := by simp [wordP, hs]
      simp only [splitSegs, hs, if_true]
      rw [List.filter_cons_of_neg hw]
      cases cur with
      | nil => simp [ih]
      | cons c cur => simp [ih]

theorem bytesOf_flatten (L : List (List (Nat × List Nat))) :
    (L.map bytesOf).flatten = bytesOf L.flatten := by
  induction L with
  | nil => rfl
  | cons g L ih => simp [bytesOf_append, ih]

/-! ## The offsets `scanTokens` works with -/

/-- The shape of a decoded buffer, with the offsets of the end of the leading run of
skippable code points and of the end of the first word. -/
theorem scan_shape (data : List Nat) :
    ∃ A T R, segs data = A ++ (T ++ R) ∧ (∀ a ∈ A, skipP a = true) ∧
      (∀ t ∈ T, wordP t = true) ∧
      (R = [] ∨ (T ≠ [] ∧ ∃ d R', R = d :: R' ∧ skipP d = true)) ∧
      leadEnd data = (bytesOf A).length ∧
      wordEnd data = (bytesOf A).length + (bytesOf T).length ∧
      firstDelim data = R.head? := by
  obtain ⟨A, T, R, hS, hA, hT, hR⟩ := segs_decomp (segs data)
  have hX : T ++ R = [] ∨ ∃ x X', T ++ R = x :: X' ∧ skipP x = false := by
    rcases T with _ | ⟨t, T'⟩
    · rcases hR with rfl | ⟨hne, -⟩
      · exact Or.inl rfl
      · exact absurd rfl hne
    · refine Or.inr ⟨t, T' ++ R, rfl, ?_⟩
      have := hT t (List.mem_cons_self _ _)
      simpa [wordP_eq_not_skipP] using this
  have hY : R = [] ∨ ∃ x X', R = x :: X' ∧ wordP x = false := by
    rcases hR with rfl | ⟨-, d, R', rfl, hd⟩
    · exact Or.inl rfl
    · exact Or.inr ⟨d, R', rfl, by simp [wordP_eq_not_skipP, hd]⟩
  have h1 := takeWhile_skip_decomp A (T ++ R) hA hX
  have h2 := takeWhile_word_decomp T R hT hY
  refine ⟨A, T, R, hS, hA, hT, hR, ?_, ?_, ?_⟩
  · unfold leadEnd; rw [hS, h1.1]
  · unfold wordEnd leadEnd; rw [hS, h1.1, h1.2, h2.1]
  · unfold firstDelim; rw [hS, h1.2, h2.2]

theorem bytesOf_pos (data : List Nat) (T : List (Nat × List Nat)) (hm : ∀ t ∈ T, t ∈ segs data)
    (hne : T ≠ []) : 0 < (bytesOf T).length := by
  obtain ⟨t, T', rfl⟩ := List.exists_cons_of_ne_nil hne
  have := List.length_pos.mpr (segs_snd_ne_nil data t (hm t (List.mem_cons_self _ _)))
  rw [bytesOf_cons, List.length_append]; omega

theorem runes_bytesOf (S : List (Nat × List Nat)) (h : segs (bytesOf S) = S) :
    runes (bytesOf S) = S.map Prod.fst := by
  unfold runes; rw [h]

/-- The leading run of skippable code points, decoded alone. -/
theorem segs_lead (data : List Nat) (A X : List (Nat × List Nat)) (hS : segs data = A ++ X)
    (hA : ∀ a ∈ A, skipP a = true) : segs (bytesOf A) = A := by
  have hAm : ∀ a ∈ A, a ∈ segs data := by intro a ha; rw [hS]; simp [ha]
  have := segs_skippable_append data A hAm hA []
  simpa [segs_nil] using this

/-! ## The checked scanner -/

theorem sliceFromChecked_of_le (data : List Nat) (lo : Nat) (h : lo ≤ data.length) :
    sliceFromChecked data lo = some (data.drop lo) := by
  simp [sliceFromChecked, h]

theorem skipLeadingChecked_eq (data : List Nat) : ∀ (fuel start : Nat),
    skipLeadingChecked data fuel start = some (skipLeading data fuel start) := by
  intro fuel
  induction fuel with
  | zero => intro start; rfl
  | succ fuel ih =>
    intro start
    unfold skipLeadingChecked skipLeading
    by_cases hlt : start < data.length
    · rw [if_pos hlt, if_pos hlt, sliceFromChecked_of_le data start (by omega)]
      simp only
      cases hs : isSkipable (decodeRune (data.drop start)).1
      · simp
      · simp only [Bool.not_true, Bool.false_eq_true, if_false]
        exact ih _
    · rw [if_neg hlt, if_neg hlt]

theorem scanWordChecked_eq (data : List Nat) (start : Nat) : ∀ (fuel i : Nat), start ≤ i →
    scanWordChecked data start fuel i = some (scanWord data start fuel i) := by
  intro fuel
  induction fuel with
  | zero => intro i _; rfl
  | succ fuel ih =>
    intro i hi
    unfold scanWordChecked scanWord
    by_cases hlt : i < data.length
    · rw [if_pos hlt, if_pos hlt, sliceFromChecked_of_le data i (by omega)]
      simp only
      cases hs : isSkipable (decodeRune (data.drop i)).1
      · simp only [Bool.false_eq_true, if_false]
        exact ih _ (by omega)
      · have hc : sliceChecked data start i = some (slice data start i) := by
          simp [sliceChecked, hi, Nat.le_of_lt hlt]
        simp [hc]
    · rw [if_neg hlt, if_neg hlt]

/-- No slice expression of `scanTokens` is out of range. -/
theorem scanTokensChecked_eq (data : List Nat) (atEOF : Bool) :
    scanTokensChecked data atEOF = some (scanTokens data atEOF) := by
  unfold scanTokensChecked scanTokens
  rw [skipLeadingChecked_eq]
  simp only
  rw [scanWordChecked_eq data _ _ _ (le_refl _)]
  rcases scanWord data (skipLeading data (data.length + 1) 0) (data.length + 1)
      (skipLeading data (data.length + 1) 0) with _ | ⟨adv, tok⟩
  · simp only
    by_cases hc : (atEOF && decide (data.length > skipLeading data (data.length + 1) 0)) = true
    · rw [if_pos hc, if_pos hc]
      have : skipLeading data (data.length + 1) 0 ≤ data.length := by
        simp only [Bool.and_eq_true, decide_eq_true_eq] at hc
        omega
      rw [sliceFromChecked_of_le data _ this]
    · rw [if_neg hc, if_neg hc]
  · rfl

/-- The word between two offsets of the decoded buffer. -/
theorem slice_word (data : List Nat) (A T R : List (Nat × List Nat))
    (hS : segs data = A ++ (T ++ R)) :
    slice data (bytesOf A).length ((bytesOf A).length + (bytesOf T).length) = bytesOf T := by
  have hdata : data = (bytesOf A ++ bytesOf T) ++ bytesOf R := by
    have := bytesOf_segs data
    rw [hS, bytesOf_append, bytesOf_append] at this
    rw [List.append_assoc]; exact this.symm
  unfold slice
  conv_lhs => rw [hdata]
  rw [← List.length_append, List.take_left, List.drop_left]

/-! ## The incremental driver -/

/-- The incremental driver yields the tokens of the whole input. -/
theorem driveChunks_eq : ∀ (fuel : Nat) (chunks : List (List Nat)) (buf : List Nat),
    (buf ++ chunks.flatten).length + chunks.length < fuel →
    driveChunks fuel chunks buf = tokens (buf ++ chunks.flatten) := by
  intro fuel
  induction fuel with
  | zero => intro chunks buf h; omega
  | succ fuel ih =>
    intro chunks buf hlen
    rcases chunks with _ | ⟨c, cs⟩
    · simp [driveChunks]
    · rcases hsc : scanTokens buf false with ⟨adv, tok, e1⟩
      cases tok with
      | some tok =>
        obtain ⟨-, h1, h2⟩ := scanTokens_false_some buf adv tok e1 hsc
        have hg := scanTokens_append_some buf (c :: cs).flatten true adv tok e1 hsc
        rw [tokens_of_scan_some _ adv tok e1 hg h1, List.drop_append_of_le_length h2]
        simp only [driveChunks, hsc]
        rw [ih (c :: cs) (buf.drop adv) (by
          simp only [List.length_append, List.length_drop, List.length_cons] at hlen ⊢
          omega)]
      | none =>
        obtain ⟨h0, h1⟩ := tokens_append_none buf (c :: cs).flatten adv e1 hsc
        simp only [driveChunks, hsc]
        rw [ih cs (buf.drop adv ++ c) (by
          simp only [List.length_append, List.length_drop, List.length_cons,
            List.flatten_cons] at hlen ⊢
          omega), h1]
        simp

/-! ## Joining two runs of terms -/

theorem intercalate_append_ne (sep : List Nat) (X Y : List (List Nat)) (hX : X ≠ [])
    (hY : Y ≠ []) :
    List.intercalate sep (X ++ Y) =
      List.intercalate sep X ++ (sep ++ List.intercalate sep Y) := by
  induction X with
  | nil => exact absurd rfl hX
  | cons x X ih =>
    rcases X with _ | ⟨x2, X⟩
    · obtain ⟨y, Y', rfl⟩ := List.exists_cons_of_ne_nil hY
      rw [intercalate_singleton]
      exact intercalate_cons_cons sep x y Y'
    · have := ih (List.cons_ne_nil _ _)
      rw [List.cons_append, List.cons_append, intercalate_cons_cons, intercalate_cons_cons,
        ← List.cons_append, this]
      simp only [List.append_assoc]

theorem intercalate_eq_nil (sep : List Nat) (X : List (List Nat)) (hne : ∀ t ∈ X, t ≠ []) :
    List.intercalate sep X = [] ↔ X = [] := by
  constructor
  · intro h
    rcases X with _ | ⟨x, _ | ⟨x2, X⟩⟩
    · rfl
    · rw [intercalate_singleton] at h
      exact absurd h (hne x (List.mem_cons_self _ _))
    · rw [intercalate_cons_cons] at h
      have := (List.append_eq_nil.mp h).1
      exact absurd this (hne x (List.mem_cons_self _ _))
  · rintro rfl
    exact intercalate_nil sep

theorem specTerms_ne_nil (toks : List (List Nat)) : ∀ t ∈ specTerms toks, t ≠ [] := by
  intro t ht
  unfold specTerms at ht
  obtain ⟨tok, -, h⟩ := List.mem_filterMap.mp ht
  obtain ⟨-, h2⟩ := renderTerm_some tok t h
  rcases h2 with ⟨rfl, hne, -⟩ | ⟨rest, -, -, rfl⟩
  · exact hne
  · simp

/-- The reference search expression of two runs of tokens. -/
theorem specTSVector_append (a b : List (List Nat)) :
    specTSVector (a ++ b) =
      if specTSVector a = [] then specTSVector b
      else if specTSVector b = [] then specTSVector a
      else specTSVector a ++ ([0x26] ++ specTSVector b) := by
  unfold specTSVector
  rw [specTerms_append]
  have ha := intercalate_eq_nil [0x26] (specTerms a) (specTerms_ne_nil a)
  have hb := intercalate_eq_nil [0x26] (specTerms b) (specTerms_ne_nil b)
  by_cases h1 : specTerms a = []
  · rw [if_pos (ha.mpr h1), h1, List.nil_append]
  · rw [if_neg (fun h => h1 (ha.mp h))]
    by_cases h2 : specTerms b = []
    · rw [if_pos (hb.mpr h2), h2, List.append_nil]
    · rw [if_neg (fun h => h2 (hb.mp h)), intercalate_append_ne _ _ _ h1 h2]

theorem specLabels_append (a b : List (List Nat)) :
    specLabels (a ++ b) = specLabels a ++ specLabels b := by
  unfold specLabels; rw [List.filterMap_append]

/-! ## A buffer that is full without a token -/

theorem decodeRune_width_le_four (p : List Nat) : (decodeRune p).2 ≤ 4 := by
  rcases p with _ | ⟨p0, _ | ⟨b1, _ | ⟨b2, _ | ⟨b3, rest⟩⟩⟩⟩ <;>
    simp only [decodeRune, decodeMulti] <;> (repeat' split) <;> simp

/-- A decoded code point stands on at most four bytes. -/
theorem segs_snd_le_four (p : List Nat) : ∀ s ∈ segs p, s.2.length ≤ 4 := by
  intro s hs
  obtain ⟨sfx, -, rfl⟩ := segs_mem_decode p s hs
  have := decodeRune_width_le_four sfx
  simp only [List.length_take]
  omega

theorem exists_append_of_le (data U P Z : List Nat) (h : data ++ U = P ++ Z)
    (hl : P.length ≤ data.length) : ∃ X, data = P ++ X := by
  refine ⟨data.drop P.length, ?_⟩
  have h1 : data.take P.length = P := by
    have := congrArg (List.take P.length) h
    rw [List.take_append_of_le_length hl, List.take_left] at this
    exact this
  conv_lhs => rw [← List.take_append_drop P.length data, h1]

/-- The decoding of a leading run of skippable code points, a word and the skippable
code point that ends it does not depend on what follows. -/
theorem segs_shape_any (R : List Nat) (A T R' : List (Nat × List Nat)) (d : Nat × List Nat)
    (hS : segs R = A ++ (T ++ d :: R')) (hA : ∀ a ∈ A, skipP a = true)
    (hd : skipP d = true) (Z : List Nat) :
    segs (bytesOf A ++ (bytesOf T ++ (d.2 ++ Z))) = A ++ (T ++ d :: segs Z) := by
  have hAm : ∀ a ∈ A, a ∈ segs R := by intro a ha; rw [hS]; simp [ha]
  have hdm : d ∈ segs R := by rw [hS]; simp
  have hbnd : ∀ Y, Boundary (d.2 ++ Y) := by
    intro Y
    obtain ⟨sfx, hne, rfl⟩ := segs_mem_decode R d hdm
    exact skippable_boundary sfx Y hne hd
  have hT : segs (bytesOf T) = T := by
    refine segs_run R A T (d :: R') hS ?_
    rw [bytesOf_cons]; exact hbnd _
  rw [segs_skippable_append R A hAm hA, segs_append_boundary _ _ (hbnd _), hT,
    segs_skippable_cons R d hdm hd]

/-- The advance of `scanTokens` covers the leading run of skippable code points. -/
theorem leadEnd_le_advance (data : List Nat) (f : Bool) :
    leadEnd data ≤ (scanTokens data f).1 := by
  obtain ⟨A, T, R, hS, hA, hT, hR, hl, -, -⟩ := scan_shape data
  rw [hl]
  rcases hR with rfl | ⟨hne, d, R', rfl, hd⟩
  · rw [List.append_nil] at hS
    rw [scanTokens_end data f A T hS hA hT]
    have hlen : data.length = (bytesOf A).length + (bytesOf T).length := by
      rw [length_eq_bytesOf_segs, hS, bytesOf_append, List.length_append]
    split_ifs
    · simp only; omega
    · exact le_refl _
  · rw [scanTokens_delim data f A T R' d hS hA hT hne hd]
    simp only; omega

/-- A buffer whose first code point is skippable has a non-empty leading run. -/
theorem leadEnd_pos (data : List Nat) (a : Nat × List Nat) (X : List (Nat × List Nat))
    (hS : segs data = a :: X) (ha : skipP a = true) : 0 < leadEnd data := by
  unfold leadEnd
  rw [hS, List.takeWhile_cons, if_pos ha, bytesOf_cons, List.length_append]
  have := List.length_pos.mpr (segs_snd_ne_nil data a (by rw [hS]; simp))
  omega

/-- When a buffer of `maxTokenSize` bytes or more yields no token and no advance, the
input it is the start of has a token longer than `maxFit`. -/
theorem long_token_of_full (data U : List Nat) (e : Option Err)
    (h : scanTokens data false = (0, none, e)) (hlen : maxTokenSize ≤ data.length) :
    ∃ tok ∈ tokens (data ++ U), maxFit < tok.length := by
  have hmt : maxTokenSize = 65536 := rfl
  have hmf : maxFit = 65532 := rfl
  obtain ⟨A, T, Rr, hS, hA, hT, hR, -, -, -⟩ := scan_shape (data ++ U)
  have hbytes : data ++ U = bytesOf A ++ (bytesOf T ++ bytesOf Rr) := by
    have := bytesOf_segs (data ++ U)
    rw [hS, bytesOf_append, bytesOf_append] at this
    exact this.symm
  have hadv : leadEnd data = 0 := by
    have := leadEnd_le_advance data false
    rw [h] at this
    simpa using this
  -- the leading run of the input is empty
  have hA0 : A = [] := by
    rcases A with _ | ⟨a, A'⟩
    · rfl
    · exfalso
      have ham : a ∈ segs (data ++ U) := by rw [hS]; simp
      have ha4 := segs_snd_le_four _ a ham
      rw [bytesOf_cons, List.append_assoc] at hbytes
      obtain ⟨X, hX⟩ := exists_append_of_le data U a.2 _ hbytes (by omega)
      have hseg : segs data = a :: segs X := by
        rw [hX]
        exact segs_skippable_cons _ a ham (hA a (List.mem_cons_self _ _)) X
      have := leadEnd_pos data a _ hseg (hA a (List.mem_cons_self _ _))
      omega
  subst hA0
  simp only [List.nil_append, bytesOf_nil] at hS hbytes
  rcases hR with rfl | ⟨hne, d, R', rfl, hd⟩
  · rw [List.append_nil] at hS
    simp only [bytesOf_nil, List.append_nil] at hbytes
    have hT0 : T ≠ [] := by
      intro hnil
      subst hnil
      have := congrArg List.length hbytes
      rw [List.length_append, bytesOf_nil, List.length_nil] at this
      omega
    have hsc := scanTokens_end (data ++ U) true [] T (by simpa using hS) (by simp) hT
    rw [if_pos ⟨rfl, hT0⟩] at hsc
    have hpos : 0 < (data ++ U).length := by
      rw [List.length_append]; omega
    have ht := tokens_of_scan_some (data ++ U) _ _ _ hsc hpos
    refine ⟨bytesOf T, by rw [ht]; exact List.mem_cons_self _ _, ?_⟩
    rw [← hbytes, List.length_append]
    omega
  · have hdm : d ∈ segs (data ++ U) := by rw [hS]; simp
    have hd4 := segs_snd_le_four _ d hdm
    have hsc := scanTokens_delim (data ++ U) true [] T R' d (by simpa using hS) (by simp) hT
      hne hd
    have ht := tokens_of_scan_some (data ++ U) _ _ _ hsc (by
      have := List.length_pos.mpr (segs_snd_ne_nil _ d hdm)
      omega)
    refine ⟨bytesOf T, by rw [ht]; exact List.mem_cons_self _ _, ?_⟩
    by_contra hle
    have hfit : (bytesOf T ++ d.2).length ≤ data.length := by
      rw [List.length_append]; omega
    rw [bytesOf_cons] at hbytes
    have hb2 : data ++ U = (bytesOf T ++ d.2) ++ bytesOf R' := by
      rw [hbytes]; simp
    obtain ⟨X, hX⟩ := exists_append_of_le data U _ _ hb2 hfit
    have hseg : segs data = [] ++ (T ++ d :: segs X) := by
      rw [hX, List.append_assoc]
      have := segs_shape_any (data ++ U) [] T R' d (by simpa using hS) (by simp) hd X
      simpa [bytesOf_nil] using this
    rw [scanTokens_delim data false [] T (segs X) d hseg (by simp) hT hne hd] at h
    simp at h

/-! ## Reading -/

theorem noStall_cons (c : List Nat) (cs : List (List Nat)) (h : noStall (c :: cs) = true) :
    leadingEmpty (c :: cs) ≤ maxConsecutiveEmptyReads ∧ noStall cs = true := by
  simpa [noStall] using h

theorem leadingEmpty_le (chunks : List (List Nat)) (h : noStall chunks = true) :
    leadingEmpty chunks ≤ maxConsecutiveEmptyReads := by
  rcases chunks with _ | ⟨c, cs⟩
  · simp [leadingEmpty]
  · exact (noStall_cons c cs h).1

/-- The reading loop over a reader without stall: it returns bytes and no error, or
the reader's error once the reader has nothing left. -/
theorem readLoop_spec (n : Nat) (hn : 0 < n) : ∀ (k : Nat) (r : Reader),
    noStall r.chunks = true → leadingEmpty r.chunks < k →
    (readLoop n k r).2.2.err = r.err ∧ noStall (readLoop n k r).2.2.chunks = true ∧
    (((readLoop n k r).2.1 = none ∧ (readLoop n k r).1 ≠ [] ∧
        (readLoop n k r).1 ++ (readLoop n k r).2.2.content = r.content ∧
        (readLoop n k r).1.length ≤ n ∧
        (readLoop n k r).2.2.weight < r.weight) ∨
     ((readLoop n k r).2.1 = some r.err ∧ (readLoop n k r).1 = [] ∧ r.content = [] ∧
        (readLoop n k r).2.2.content = [] ∧ (readLoop n k r).2.2.weight ≤ r.weight)) := by
  intro k
  induction k with
  | zero => intro r _ h; omega
  | succ k ih =>
    intro r hst hk
    rcases r with ⟨chunks, err⟩
    rcases chunks with _ | ⟨c, cs⟩
    · refine ⟨?_, ?_, Or.inr ?_⟩ <;>
        simp [readLoop, Reader.Read, Reader.content, noStall]
    · obtain ⟨hle, hcs⟩ := noStall_cons c cs hst
      by_cases hc : c = []
      · subst hc
        have hk' : leadingEmpty cs < k := by
          simp only [leadingEmpty, if_true] at hk
          omega
        have hrd : readLoop n (k + 1) { chunks := [] :: cs, err := err } =
            readLoop n k { chunks := cs, err := err } := by
          simp [readLoop, Reader.Read]
        obtain ⟨i1, i2, i3⟩ := ih { chunks := cs, err := err } hcs hk'
        rw [hrd]
        refine ⟨i1, i2, ?_⟩
        rcases i3 with ⟨j1, j2, j3, j4, j5⟩ | ⟨j1, j2, j3, j4, j5⟩
        · left
          refine ⟨j1, j2, ?_, j4, ?_⟩
          · rw [j3]; simp [Reader.content]
          · simp only [Reader.weight, Reader.size, List.map_cons, List.length_nil,
              List.sum_cons, List.length_cons] at j5 ⊢
            omega
        · right
          refine ⟨j1, j2, ?_, j4, ?_⟩
          · simpa [Reader.content] using j3
          · simp only [Reader.weight, Reader.size, List.map_cons, List.length_nil,
              List.sum_cons, List.length_cons] at j5 ⊢
            omega
      · have hcl : 0 < c.length := List.length_pos.mpr hc
        by_cases hfit : c.length ≤ n
        · have hrd : readLoop n (k + 1) { chunks := c :: cs, err := err } =
              (c, none, { chunks := cs, err := err }) := by
            simp [readLoop, Reader.Read, hfit, hc]
          rw [hrd]
          refine ⟨rfl, hcs, Or.inl ⟨rfl, hc, ?_, hfit, ?_⟩⟩
          · simp [Reader.content]
          · simp only [Reader.weight, Reader.size, List.map_cons, List.sum_cons,
              List.length_cons]
            omega
        · have htk : c.take n ≠ [] := by
            intro h
            have := congrArg List.length h
            rw [List.length_take, List.length_nil] at this
            omega
          have hrd : readLoop n (k + 1) { chunks := c :: cs, err := err } =
              (c.take n, none, { chunks := c.drop n :: cs, err := err }) := by
            simp [readLoop, Reader.Read, hfit, htk]
          have hdr : c.drop n ≠ [] := by
            intro h
            have := congrArg List.length h
            rw [List.length_drop, List.length_nil] at this
            omega
          rw [hrd]
          refine ⟨rfl, ?_, Or.inl ⟨rfl, htk, ?_, ?_, ?_⟩⟩
          · simp [noStall, leadingEmpty, hdr, hcs]
          · simp only [Reader.content, List.flatten_cons]
            rw [← List.append_assoc, List.take_append_drop]
          · simp only [List.length_take]; omega
          · simp only [Reader.weight, Reader.size, List.map_cons, List.sum_cons,
              List.length_cons, List.length_drop]
            omega

/-! ## One iteration of the loop of `Scan` -/

theorem split_eq (s : Scanner) : s.split = scanTokens s.data s.err.isSome := by
  unfold Scanner.split
  by_cases h : s.data ≠ [] ∨ s.err ≠ none
  · rw [if_pos h]
  · rw [if_neg h]
    simp only [not_or, not_not] at h
    rw [h.1, h.2]
    rfl

/-- Reading into a buffer that has room, from a reader without stall. -/
theorem fill_spec (s : Scanner) (hI : s.Inv) (herr : s.err = none)
    (hsp : s.start + s.data.length < s.bufLen) :
    s.fill.Inv ∧ s.fill.pending = s.pending ∧ s.fill.r.err = s.r.err ∧
    (s.fill.err ≠ none ∨ s.fill.r.weight < s.r.weight) := by
  obtain ⟨h1, h2, h3, h4⟩ := hI
  have hk : leadingEmpty s.r.chunks < maxConsecutiveEmptyReads + 1 :=
    Nat.lt_succ_of_le (leadingEmpty_le _ h4)
  obtain ⟨i1, i2, i3⟩ := readLoop_spec (s.bufLen - (s.start + s.data.length)) (by omega)
    (maxConsecutiveEmptyReads + 1) s.r h4 hk
  rcases i3 with ⟨j1, j2, j3, j4, j5⟩ | ⟨j1, j2, j3, j4, j5⟩
  · refine ⟨⟨?_, h2, Or.inl ?_, i2⟩, ?_, i1, Or.inr j5⟩
    · simp only [Scanner.fill, List.length_append]
      omega
    · simpa [Scanner.fill] using j1
    · simp only [Scanner.pending, Scanner.fill, j1, herr, if_true, List.append_assoc, j3]
  · refine ⟨⟨?_, h2, Or.inr ?_, i2⟩, ?_, i1, Or.inl ?_⟩
    · simp only [Scanner.fill, j2, List.append_nil]
      omega
    · simp only [Scanner.fill, j1, i1]
    · simp only [Scanner.pending, Scanner.fill, j1, j2, herr, if_true, j3, List.append_nil]
      simp
    · simp only [Scanner.fill, j1]
      simp

theorem shift_spec (s : Scanner) (h1 : s.start + s.data.length ≤ s.bufLen) :
    s.shift.data = s.data ∧ s.shift.err = s.err ∧ s.shift.r = s.r ∧
    s.shift.bufLen = s.bufLen ∧ s.shift.start + s.shift.data.length ≤ s.shift.bufLen ∧
    (s.shift.start + s.shift.data.length = s.shift.bufLen → s.start = 0) := by
  unfold Scanner.shift
  by_cases hc : 0 < s.start ∧ (s.start + s.data.length = s.bufLen ∨ s.bufLen / 2 < s.start)
  · rw [if_pos hc]
    refine ⟨rfl, rfl, rfl, rfl, ?_, ?_⟩
    · simp only [Nat.zero_add]; omega
    · simp only [Nat.zero_add]; intro h; omega
  · rw [if_neg hc]
    refine ⟨rfl, rfl, rfl, rfl, h1, ?_⟩
    intro h
    by_contra h0
    exact hc ⟨by omega, Or.inl h⟩

theorem shift_start (s : Scanner) (h : s.start = 0) : s.shift = s := by
  unfold Scanner.shift
  rw [if_neg (by omega)]

theorem scanStep_none (s : Scanner) (adv : Nat) (e1 : Option Err)
    (hsc : scanTokens s.data s.err.isSome = (adv, none, e1)) :
    scanStep s =
      if (s.advance adv).err ≠ none then
        ScanStep.ret none { s.advance adv with start := 0, data := [] }
      else if (s.advance adv).shift.start + (s.advance adv).shift.data.length =
          (s.advance adv).shift.bufLen then
        if maxTokenSize ≤ (s.advance adv).shift.bufLen then
          ScanStep.ret none { (s.advance adv).shift with err := some (some ErrTooLong) }
        else ScanStep.again (s.advance adv).shift.grow.fill
      else ScanStep.again (s.advance adv).shift.fill := by
  have hsp : s.split = (adv, none, e1) := by rw [split_eq, hsc]
  unfold scanStep
  rw [hsp]

/-- An iteration of the loop of `Scan` that finds a token. -/
theorem scanStep_token (s : Scanner) (hI : s.Inv) (adv : Nat) (tok : List Nat) (e1 : Option Err)
    (hsc : scanTokens s.data s.err.isSome = (adv, some tok, e1)) :
    scanStep s = ScanStep.ret (some tok) (s.advance adv) ∧
    tokens s.pending = tok :: tokens (s.advance adv).pending ∧
    (s.advance adv).pending.length < s.pending.length ∧ (s.advance adv).Inv := by
  obtain ⟨h1, h2, h3, h4⟩ := hI
  obtain ⟨b1, b2, -⟩ := scanTokens_some_bounds s.data _ adv tok e1 hsc
  have hstep : scanStep s = ScanStep.ret (some tok) (s.advance adv) := by
    simp only [scanStep, split_eq, hsc]
  have hinv : (s.advance adv).Inv := by
    refine ⟨?_, h2, h3, h4⟩
    simp only [Scanner.advance, List.length_drop]
    omega
  refine ⟨hstep, ?_, ?_, hinv⟩
  · rcases herr : s.err with _ | x
    · rw [herr] at hsc
      have hg := scanTokens_append_some s.data s.r.content true adv tok e1 hsc
      have := tokens_of_scan_some _ adv tok e1 hg b1
      simpa [Scanner.pending, Scanner.advance, herr, List.drop_append_of_le_length b2] using this
    · rw [herr] at hsc
      have := tokens_of_scan_some _ adv tok e1 hsc b1
      simpa [Scanner.pending, Scanner.advance, herr] using this
  · simp only [Scanner.pending, Scanner.advance, List.length_append, List.length_drop]
    omega

/-- An iteration of the loop of `Scan` that finds no token while an error is held. -/
theorem scanStep_stop (s : Scanner) (hI : s.Inv) (x : Option Err) (herr : s.err = some x)
    (adv : Nat) (e1 : Option Err) (hsc : scanTokens s.data true = (adv, none, e1)) :
    scanStep s = ScanStep.ret none { s.advance adv with start := 0, data := [] } ∧
    tokens s.pending = [] ∧ s.err = some s.r.err := by
  obtain ⟨h1, h2, h3, h4⟩ := hI
  refine ⟨?_, ?_, ?_⟩
  · have hstep := scanStep_none s adv e1 (by rw [herr]; exact hsc)
    have herr1 : (s.advance adv).err ≠ none := by
      show s.err ≠ none
      rw [herr]; simp
    rw [if_pos herr1] at hstep
    exact hstep
  · have := tokens_of_scan_none s.data adv e1 hsc
    simpa [Scanner.pending, herr] using this
  · rcases h3 with h | h
    · rw [h] at herr; simp at herr
    · exact h

/-- An iteration of the loop of `Scan` that finds no token and holds no error: the
scanner gives up on a full buffer, or reads. -/
theorem scanStep_read (s : Scanner) (hI : s.Inv) (herr : s.err = none)
    (adv : Nat) (e1 : Option Err) (hsc : scanTokens s.data false = (adv, none, e1)) :
    (∃ s1, scanStep s = ScanStep.ret none s1 ∧ s1.err = some (some ErrTooLong) ∧
      ∃ tok ∈ tokens s.pending, maxFit < tok.length) ∨
    (∃ s1, scanStep s = ScanStep.again s1 ∧ tokens s1.pending = tokens s.pending ∧
      s1.pending.length ≤ s.pending.length ∧ s1.Inv ∧ s1.r.err = s.r.err ∧
      (s1.err ≠ none ∨ s1.r.weight < s.r.weight)) := by
  obtain ⟨h1, h2, h3, h4⟩ := hI
  obtain ⟨hadv, htok⟩ := tokens_append_none s.data s.r.content adv e1 hsc
  have ha1 : (s.advance adv).start + (s.advance adv).data.length ≤ (s.advance adv).bufLen := by
    simp only [Scanner.advance, List.length_drop]
    omega
  obtain ⟨g1, g2, g3, g4, g5, g6⟩ := shift_spec (s.advance adv) ha1
  have hpend : (s.advance adv).shift.pending = s.data.drop adv ++ s.r.content := by
    simp only [Scanner.pending, g1, g2, g3]
    simp [Scanner.advance, herr]
  have hpl : (s.data.drop adv ++ s.r.content).length ≤ s.pending.length := by
    simp only [Scanner.pending, herr, if_true, List.length_append, List.length_drop]
    omega
  have hI2 : (s.advance adv).shift.Inv := by
    refine ⟨g5, by rw [g4]; exact h2, Or.inl (by rw [g2]; exact herr), by rw [g3]; exact h4⟩
  have herr2 : (s.advance adv).shift.err = none := by rw [g2]; exact herr
  have hs_pending : tokens s.pending = tokens (s.data.drop adv ++ s.r.content) := by
    simp only [Scanner.pending, herr, if_true]
    exact htok
  have hstep := scanStep_none s adv e1 (by rw [herr]; exact hsc)
  have herr1 : ¬ ((s.advance adv).err ≠ none) := by
    intro h; exact h herr
  rw [if_neg herr1] at hstep
  by_cases hfull : (s.advance adv).shift.start + (s.advance adv).shift.data.length =
      (s.advance adv).shift.bufLen
  · rw [if_pos hfull] at hstep
    by_cases hmax : maxTokenSize ≤ (s.advance adv).shift.bufLen
    · left
      refine ⟨{ (s.advance adv).shift with err := some (some ErrTooLong) }, ?_, rfl, ?_⟩
      · rw [hstep, if_pos hmax]
      · have hs0 := g6 hfull
        have hst : s.start = 0 ∧ adv = 0 := by
          simp only [Scanner.advance] at hs0
          omega
        have hlen : maxTokenSize ≤ s.data.length := by
          have hsh := shift_start (s.advance adv) hs0
          rw [hsh] at hfull hmax
          simp only [Scanner.advance, List.length_drop] at hfull hmax
          omega
        rw [hst.2] at hsc
        have := long_token_of_full s.data s.r.content e1 hsc hlen
        simpa [Scanner.pending, herr] using this
    · right
      have hI3 : (s.advance adv).shift.grow.Inv := by
        obtain ⟨k1, k2, k3, k4⟩ := hI2
        refine ⟨?_, ?_, k3, k4⟩
        · simp only [Scanner.grow]
          have hs0 := g6 hfull
          have hsh := shift_start (s.advance adv) hs0
          rw [hsh] at hfull hmax ⊢
          rw [hs0] at hfull
          have hmt : maxTokenSize = 65536 := rfl
          have hsb : startBufSize = 4096 := rfl
          split_ifs <;> omega
        · simp only [Scanner.grow]
          exact Nat.min_le_right _ _
      have hsp : (s.advance adv).shift.grow.start + (s.advance adv).shift.grow.data.length <
          (s.advance adv).shift.grow.bufLen := by
        simp only [Scanner.grow]
        have hs0 := g6 hfull
        have hsh := shift_start (s.advance adv) hs0
        rw [hsh] at hfull hmax ⊢
        rw [hs0] at hfull
        have hmt : maxTokenSize = 65536 := rfl
        have hsb : startBufSize = 4096 := rfl
        split_ifs <;> omega
      have herr3 : (s.advance adv).shift.grow.err = none := herr2
      obtain ⟨f1, f2, f3, f4⟩ := fill_spec _ hI3 herr3 hsp
      have hp3 : (s.advance adv).shift.grow.pending = (s.advance adv).shift.pending := rfl
      refine ⟨(s.advance adv).shift.grow.fill, ?_, ?_, ?_, f1, ?_, ?_⟩
      · rw [hstep, if_neg hmax]
      · rw [f2, hp3, hpend, hs_pending]
      · rw [f2, hp3, hpend]; exact hpl
      · rw [f3]; show (s.advance adv).shift.r.err = s.r.err; rw [g3]; rfl
      · rcases f4 with f4 | f4
        · exact Or.inl f4
        · right
          have : (s.advance adv).shift.grow.r = s.r := by
            show (s.advance adv).shift.r = s.r
            rw [g3]; rfl
          rw [this] at f4; exact f4
  · right
    rw [if_neg hfull] at hstep
    have hsp : (s.advance adv).shift.start + (s.advance adv).shift.data.length <
        (s.advance adv).shift.bufLen := by
      omega
    obtain ⟨f1, f2, f3, f4⟩ := fill_spec _ hI2 herr2 hsp
    refine ⟨(s.advance adv).shift.fill, ?_, ?_, ?_, f1, ?_, ?_⟩
    · exact hstep
    · rw [f2, hpend, hs_pending]
    · rw [f2, hpend]; exact hpl
    · rw [f3, g3]; rfl
    · rcases f4 with f4 | f4
      · exact Or.inl f4
      · right
        have : (s.advance adv).shift.r = s.r := by rw [g3]; rfl
        rw [this] at f4; exact f4

/-! ## The scanner over a reader without stall -/

/-- The loop of `Scan`, with fuel for one iteration after the reader's last byte and
last chunk: it returns the first pending token, or `false` when no token is pending and
the reader has reported its error, or `false` with `bufio.ErrTooLong`, which takes a
pending token longer than `maxFit`. -/
theorem scanLoop_spec : ∀ (fuel : Nat) (s : Scanner), s.Inv →
    (if s.err = none then s.r.weight + 2 else 1) ≤ fuel →
    (∃ tok s1, scanLoop fuel s = (some tok, s1) ∧ tokens s.pending = tok :: tokens s1.pending ∧
      s1.pending.length < s.pending.length ∧ s1.Inv ∧ s1.r.err = s.r.err) ∨
    (∃ s1, scanLoop fuel s = (none, s1) ∧ tokens s.pending = [] ∧ s1.err = some s.r.err) ∨
    (∃ s1, scanLoop fuel s = (none, s1) ∧ s1.err = some (some ErrTooLong) ∧
      ∃ tok ∈ tokens s.pending, maxFit < tok.length) := by
  intro fuel
  induction fuel with
  | zero =>
    intro s _ h
    split_ifs at h <;> omega
  | succ fuel ih =>
    intro s hI hf
    rcases hsc : scanTokens s.data s.err.isSome with ⟨adv, tok, e1⟩
    cases tok with
    | some tok =>
      obtain ⟨k1, k2, k3, k4⟩ := scanStep_token s hI adv tok e1 hsc
      left
      exact ⟨tok, s.advance adv, by simp only [scanLoop, k1], k2, k3, k4, rfl⟩
    | none =>
      rcases herr : s.err with _ | x
      · rw [herr] at hsc
        rw [if_pos herr] at hf
        rcases scanStep_read s hI herr adv e1 hsc with ⟨s1, k1, k2, k3⟩ |
          ⟨s1, k1, k2, k3, k4, k5, k6⟩
        · right; right
          exact ⟨s1, by simp only [scanLoop, k1], k2, k3⟩
        · have hf1 : (if s1.err = none then s1.r.weight + 2 else 1) ≤ fuel := by
            split_ifs with h
            · rcases k6 with k6 | k6
              · exact absurd h k6
              · omega
            · omega
          have hl : scanLoop (fuel + 1) s = scanLoop fuel s1 := by
            simp only [scanLoop, k1]
          rw [hl]
          rcases ih s1 k4 hf1 with ⟨tok, s2, j1, j2, j3, j4, j5⟩ | ⟨s2, j1, j2, j3⟩ |
            ⟨s2, j1, j2, j3⟩
          · left
            exact ⟨tok, s2, j1, by rw [← k2, j2], by omega, j4, by rw [j5, k5]⟩
          · right; left
            exact ⟨s2, j1, by rw [← k2, j2], by rw [j3, k5]⟩
          · right; right
            exact ⟨s2, j1, j2, by rw [← k2]; exact j3⟩
      · rw [herr] at hsc
        obtain ⟨k1, k2, k3⟩ := scanStep_stop s hI x herr adv e1 hsc
        right; left
        refine ⟨{ s.advance adv with start := 0, data := [] },
          by simp only [scanLoop, k1], k2, ?_⟩
        show s.err = some s.r.err
        exact k3

/-- One call of `Scan` on a scanner over a reader without stall. -/
theorem Scan_spec (s : Scanner) (hI : s.Inv) :
    (∃ tok s1, s.Scan = (some tok, s1) ∧ tokens s.pending = tok :: tokens s1.pending ∧
      s1.pending.length < s.pending.length ∧ s1.Inv ∧ s1.r.err = s.r.err) ∨
    (∃ s1, s.Scan = (none, s1) ∧ tokens s.pending = [] ∧ s1.err = some s.r.err) ∨
    (∃ s1, s.Scan = (none, s1) ∧ s1.err = some (some ErrTooLong) ∧
      ∃ tok ∈ tokens s.pending, maxFit < tok.length) := by
  refine scanLoop_spec _ s hI ?_
  unfold Reader.weight
  split_ifs <;> omega

/-- The loop of `Parse` over a reader without stall: it folds the loop body over the
first `k` pending tokens; it takes all of them and ends with the reader's error held,
or it ends with `bufio.ErrTooLong` held, which takes a token longer than `maxFit`. -/
theorem parseLoop_spec (norm : Normalizer) : ∀ (fuel : Nat) (s : Scanner) (st : ParseState),
    s.Inv → s.pending.length < fuel →
    ∃ k, (parseLoop norm fuel s st).1 = ((tokens s.pending).take k).foldl (parseStep norm) st ∧
      (((parseLoop norm fuel s st).2.err = some s.r.err ∧
          (tokens s.pending).take k = tokens s.pending) ∨
        ((parseLoop norm fuel s st).2.err = some (some ErrTooLong) ∧
          ∃ tok ∈ tokens s.pending, maxFit < tok.length)) := by
  intro fuel
  induction fuel with
  | zero => intro s _ _ h; omega
  | succ fuel ih =>
    intro s st hI hlen
    rcases Scan_spec s hI with ⟨tok, s1, j1, j2, j3, j4, j5⟩ | ⟨s1, j1, j2, j3⟩ |
      ⟨s1, j1, j2, j3⟩
    · obtain ⟨k, i1, i2⟩ := ih s1 (parseStep norm st tok) j4 (by omega)
      refine ⟨k + 1, ?_, ?_⟩
      · simp only [parseLoop, j1]
        rw [i1, j2]
        rfl
      · simp only [parseLoop, j1]
        rcases i2 with ⟨a1, a2⟩ | ⟨a1, tk, a2, a3⟩
        · left
          refine ⟨by rw [a1, j5], ?_⟩
          rw [j2, List.take_succ_cons, a2]
        · right
          exact ⟨a1, tk, by rw [j2]; exact List.mem_cons_of_mem _ a2, a3⟩
    · refine ⟨0, ?_, Or.inl ⟨?_, ?_⟩⟩
      · simp only [parseLoop, j1]
        rfl
      · simp only [parseLoop, j1]
        exact j3
      · rw [j2]; rfl
    · refine ⟨0, ?_, Or.inr ⟨?_, j3⟩⟩
      · simp only [parseLoop, j1]
        rfl
      · simp only [parseLoop, j1]
        exact j2

theorem NewScanner_Inv (r : Reader) (hst : noStall r.chunks = true) : (NewScanner r).Inv :=
  ⟨le_refl _, Nat.zero_le _, Or.inl rfl, hst⟩

theorem Err_of_reader (s : Scanner) (e : Option Err) (h : s.err = some e) : s.Err = e := by
  unfold Scanner.Err
  rw [h]
  cases e <;> rfl

/-- The source's `Parse` over a reader without stall: the loop body folded over the
first `k` tokens of the bytes the reader delivers, then the defaulting of the limit.
All tokens are taken and the error is the reader's, or the error is
`bufio.ErrTooLong` and some token is longer than `maxFit`. -/
theorem Parse_spec (norm : Normalizer) (r : Reader) (hst : noStall r.chunks = true) :
    ∃ k, (Parse norm r).1 =
        finish (((tokens r.content).take k).foldl (parseStep norm) ParseState.init) ∧
      (((Parse norm r).2 = r.err ∧ (tokens r.content).take k = tokens r.content) ∨
        ((Parse norm r).2 = some ErrTooLong ∧ ∃ tok ∈ tokens r.content, maxFit < tok.length)) := by
  have hp : (NewScanner r).pending = r.content := by simp [NewScanner, Scanner.pending]
  obtain ⟨k, i1, i2⟩ := parseLoop_spec norm (r.size + 1) (NewScanner r) ParseState.init
    (NewScanner_Inv r hst) (by rw [hp, Reader.size_eq]; omega)
  rw [hp] at i1 i2
  refine ⟨k, ?_, ?_⟩
  · unfold Parse
    simp only [i1]
  · rcases i2 with ⟨a1, a2⟩ | ⟨a1, a2⟩
    · left
      refine ⟨?_, a2⟩
      unfold Parse
      exact Err_of_reader _ _ a1
    · right
      refine ⟨?_, a2⟩
      unfold Parse
      exact Err_of_reader _ _ a1

/-- The source's `Parse` over a reader without stall whose tokens fit the buffer: the
loop body folded over the tokens of the bytes the reader delivers, then the defaulting
of the limit; the error is the reader's. -/
theorem Parse_eq (norm : Normalizer) (r : Reader) (hst : noStall r.chunks = true)
    (hfit : Fits r.content) :
    Parse norm r =
      (finish ((tokens r.content).foldl (parseStep norm) ParseState.init), r.err) := by
  obtain ⟨k, i1, i2⟩ := Parse_spec norm r hst
  rcases i2 with ⟨a1, a2⟩ | ⟨-, tok, a2, a3⟩
  · rw [a2] at i1
    exact Prod.ext i1 a1
  · have := hfit tok a2
    omega

theorem content_stringsNewReader (q : List Nat) : (stringsNewReader q).content = q := by
  by_cases hq : q = []
  · subst hq; rfl
  · simp [stringsNewReader, Reader.content, hq]

theorem noStall_stringsNewReader (q : List Nat) :
    noStall (stringsNewReader q).chunks = true := by
  by_cases hq : q = []
  · subst hq; rfl
  · simp [stringsNewReader, noStall, leadingEmpty, hq]

/-- The source's `Parse` over an in-memory reader whose tokens fit the buffer. -/
theorem Parse_mem (norm : Normalizer) (q : List Nat) (hfit : Fits q) :
    Parse norm (stringsNewReader q) =
      (finish ((tokens q).foldl (parseStep norm) ParseState.init), none) := by
  have := Parse_eq norm (stringsNewReader q) (noStall_stringsNewReader q)
    (by rw [content_stringsNewReader]; exact hfit)
  rw [content_stringsNewReader] at this
  exact this

theorem String_eq (norm : Normalizer) (q : List Nat) (hfit : Fits q) :
    String norm q = finish ((tokens q).foldl (parseStep norm) ParseState.init) := by
  unfold String; rw [Parse_mem norm q hfit]

theorem Bytes_eq_String (norm : Normalizer) (q : List Nat) : Bytes norm q = String norm q := rfl

/-- The source's `String` on any input: the loop body folded over the first `k` tokens,
for some `k`, then the defaulting of the limit. -/
theorem String_take (norm : Normalizer) (q : List Nat) :
    ∃ k, String norm q =
      finish (((tokens q).take k).foldl (parseStep norm) ParseState.init) := by
  obtain ⟨k, i1, -⟩ := Parse_spec norm (stringsNewReader q) (noStall_stringsNewReader q)
  rw [content_stringsNewReader] at i1
  exact ⟨k, i1⟩

/-! ## A token too long for the buffer -/

theorem segs_ascii (p : List Nat) (h : ∀ c ∈ p, c < 0x80) :
    segs p = p.map (fun c => (c, [c])) := by
  induction p with
  | nil => rfl
  | cons c p ih =>
    rw [segs_ascii_cons c p (h c (List.mem_cons_self _ _)),
      ih (fun x hx => h x (List.mem_cons_of_mem _ hx))]
    rfl

theorem bytesOf_map_single (p : List Nat) : bytesOf (p.map (fun c => (c, [c]))) = p := by
  induction p with
  | nil => rfl
  | cons c p ih => rw [List.map_cons, bytesOf_cons, ih]; rfl

/-- On skippable ASCII bytes followed by non-skippable ASCII bytes `scanTokens` finds no
token with `atEOF = false` and asks to drop the skippable bytes. -/
theorem scanTokens_ascii_run (S L : List Nat) (hS : ∀ c ∈ S, c < 0x80 ∧ isSkipable c = true)
    (hL : ∀ c ∈ L, c < 0x80 ∧ isSkipable c = false) :
    scanTokens (S ++ L) false = (S.length, none, none) := by
  have hseg : segs (S ++ L) = S.map (fun c => (c, [c])) ++ L.map (fun c => (c, [c])) := by
    rw [segs_ascii, List.map_append]
    intro c hc
    rcases List.mem_append.mp hc with h | h
    · exact (hS c h).1
    · exact (hL c h).1
  rw [scanTokens_end (S ++ L) false _ _ hseg]
  · simp [bytesOf_map_single]
  · intro a ha
    obtain ⟨c, hc, rfl⟩ := List.mem_map.mp ha
    exact (hS c hc).2
  · intro a ha
    obtain ⟨c, hc, rfl⟩ := List.mem_map.mp ha
    simp [wordP, (hL c hc).2]

/-- Reading into a buffer that has room ends with an error only when the reader has
nothing left. -/
theorem fill_err (s : Scanner) (hI : s.Inv) (hsp : s.start + s.data.length < s.bufLen) :
    s.fill.err = none ∨ s.r.content = [] := by
  obtain ⟨h1, h2, h3, h4⟩ := hI
  have hk : leadingEmpty s.r.chunks < maxConsecutiveEmptyReads + 1 :=
    Nat.lt_succ_of_le (leadingEmpty_le _ h4)
  obtain ⟨-, -, i3⟩ := readLoop_spec (s.bufLen - (s.start + s.data.length)) (by omega)
    (maxConsecutiveEmptyReads + 1) s.r h4 hk
  rcases i3 with ⟨j1, -⟩ | ⟨-, -, j3, -⟩
  · left; simpa [Scanner.fill] using j1
  · right; exact j3

/-- The loop of `Scan` when the pending bytes are skippable ASCII bytes followed by
`maxTokenSize` or more non-skippable ASCII bytes: it fills the buffer and gives up with
`bufio.ErrTooLong`. -/
theorem scanLoop_tooLong : ∀ (fuel : Nat) (s : Scanner) (S L rest : List Nat),
    s.Inv → s.err = none → s.data ++ s.r.content = S ++ (L ++ rest) →
    (∀ c ∈ S, c < 0x80 ∧ isSkipable c = true) →
    (∀ c ∈ L, c < 0x80 ∧ isSkipable c = false) → maxTokenSize ≤ L.length →
    s.r.weight + 1 ≤ fuel →
    ∃ s1, scanLoop fuel s = (none, s1) ∧ s1.err = some (some ErrTooLong) := by
  intro fuel
  induction fuel with
  | zero => intro s S L rest _ _ _ _ _ _ h; omega
  | succ fuel ih =>
    intro s S L rest hI herr hdata hS hL hlen hfuel
    have hI0 := hI
    obtain ⟨h1, h2, h3, h4⟩ := hI
    have hmt : maxTokenSize = 65536 := rfl
    -- the buffer is a prefix of the skippable bytes and the long run
    have hdl : s.data.length ≤ (S ++ L).length := by
      rw [List.length_append]; omega
    have hd : s.data = S.take s.data.length ++ L.take (s.data.length - S.length) := by
      have h0 := congrArg (List.take s.data.length) hdata
      rw [List.take_left, ← List.append_assoc, List.take_append_of_le_length hdl,
        List.take_append_eq_append_take] at h0
      exact h0
    have hS1 : ∀ c ∈ S.take s.data.length, c < 0x80 ∧ isSkipable c = true :=
      fun c hc => hS c (List.mem_of_mem_take hc)
    have hL1 : ∀ c ∈ L.take (s.data.length - S.length), c < 0x80 ∧ isSkipable c = false :=
      fun c hc => hL c (List.mem_of_mem_take hc)
    have hsc : scanTokens s.data false =
        ((S.take s.data.length).length, none, none) := by
      conv_lhs => rw [hd]
      exact scanTokens_ascii_run _ _ hS1 hL1
    have hadvle : (S.take s.data.length).length ≤ s.data.length := by
      rw [List.length_take]; omega
    have hadvS : (S.take s.data.length).length ≤ S.length := by
      rw [List.length_take]; omega
    -- what is pending after the advance
    have hpend : s.data.drop (S.take s.data.length).length ++ s.r.content =
        S.drop (S.take s.data.length).length ++ (L ++ rest) := by
      have h0 := congrArg (List.drop (S.take s.data.length).length) hdata
      rw [List.drop_append_of_le_length hadvle, List.drop_append_of_le_length hadvS] at h0
      exact h0
    have hS' : ∀ c ∈ S.drop (S.take s.data.length).length, c < 0x80 ∧ isSkipable c = true :=
      fun c hc => hS c (List.mem_of_mem_drop hc)
    have hstep := scanStep_none s (S.take s.data.length).length none
      (by rw [herr]; exact hsc)
    have herr1 : ¬ ((s.advance (S.take s.data.length).length).err ≠ none) := by
      intro h; exact h herr
    rw [if_neg herr1] at hstep
    have ha1 : (s.advance (S.take s.data.length).length).start +
        (s.advance (S.take s.data.length).length).data.length ≤
        (s.advance (S.take s.data.length).length).bufLen := by
      simp only [Scanner.advance, List.length_drop]
      omega
    obtain ⟨g1, g2, g3, g4, g5, g6⟩ := shift_spec _ ha1
    have hI2 : (s.advance (S.take s.data.length).length).shift.Inv :=
      ⟨g5, by rw [g4]; exact h2, Or.inl (by rw [g2]; exact herr), by rw [g3]; exact h4⟩
    -- when the reader has nothing left the buffer is full at its maximal size
    have hempty : s.r.content = [] →
        (s.advance (S.take s.data.length).length).shift.start +
          (s.advance (S.take s.data.length).length).shift.data.length =
          (s.advance (S.take s.data.length).length).shift.bufLen ∧
        maxTokenSize ≤ (s.advance (S.take s.data.length).length).shift.bufLen := by
      intro hc
      rw [hc, List.append_nil] at hdata
      have hl2 := congrArg List.length hdata
      simp only [List.length_append] at hl2
      have hSl : S.length = 0 := by omega
      have hS0 : S = [] := List.length_eq_zero.mp hSl
      have hst0 : (s.advance (S.take s.data.length).length).start = 0 := by
        simp only [Scanner.advance, hS0, List.take_nil, List.length_nil]
        omega
      rw [shift_start _ hst0]
      simp only [Scanner.advance, hS0, List.take_nil, List.length_nil, List.drop_zero]
      omega
    by_cases hfull : (s.advance (S.take s.data.length).length).shift.start +
        (s.advance (S.take s.data.length).length).shift.data.length =
        (s.advance (S.take s.data.length).length).shift.bufLen
    · rw [if_pos hfull] at hstep
      by_cases hmax : maxTokenSize ≤ (s.advance (S.take s.data.length).length).shift.bufLen
      · rw [if_pos hmax] at hstep
        refine ⟨{ (s.advance (S.take s.data.length).length).shift with
          err := some (some ErrTooLong) }, ?_, rfl⟩
        simp only [scanLoop, hstep]
      · rw [if_neg hmax] at hstep
        have hs0 := g6 hfull
        have hsh := shift_start _ hs0
        have hI3 : (s.advance (S.take s.data.length).length).shift.grow.Inv := by
          obtain ⟨k1, k2, k3, k4⟩ := hI2
          refine ⟨?_, ?_, k3, k4⟩
          · simp only [Scanner.grow]
            rw [hsh] at hfull hmax ⊢
            rw [hs0] at hfull
            have hsb : startBufSize = 4096 := rfl
            split_ifs <;> omega
          · simp only [Scanner.grow]
            exact Nat.min_le_right _ _
        have hsp : (s.advance (S.take s.data.length).length).shift.grow.start +
            (s.advance (S.take s.data.length).length).shift.grow.data.length <
            (s.advance (S.take s.data.length).length).shift.grow.bufLen := by
          simp only [Scanner.grow]
          rw [hsh] at hfull hmax ⊢
          rw [hs0] at hfull
          have hsb : startBufSize = 4096 := rfl
          split_ifs <;> omega
        obtain ⟨f1, f2, f3, f4⟩ := fill_spec _ hI3 (by exact (g2.trans herr)) hsp
        have f5 := fill_err _ hI3 hsp
        have hr3 : (s.advance (S.take s.data.length).length).shift.grow.r = s.r := by
          show (s.advance (S.take s.data.length).length).shift.r = s.r
          rw [g3]; rfl
        rw [hr3] at f4 f5 f3
        have herr4 : (s.advance (S.take s.data.length).length).shift.grow.fill.err = none := by
          rcases f5 with f5 | f5
          · exact f5
          · exact absurd (hempty f5).2 hmax
        have hp4 : (s.advance (S.take s.data.length).length).shift.grow.fill.data ++
            (s.advance (S.take s.data.length).length).shift.grow.fill.r.content =
            S.drop (S.take s.data.length).length ++ (L ++ rest) := by
          have : (s.advance (S.take s.data.length).length).shift.grow.pending =
              s.data.drop (S.take s.data.length).length ++ s.r.content := by
            simp only [Scanner.pending]
            show (s.advance (S.take s.data.length).length).shift.data ++
              (if (s.advance (S.take s.data.length).length).shift.err = none then
                (s.advance (S.take s.data.length).length).shift.r.content else []) = _
            rw [g1, g2, g3]
            simp [Scanner.advance, herr]
          rw [← hpend, ← this, ← f2]
          simp only [Scanner.pending]
          rw [herr4, if_pos rfl]
        have hw : (s.advance (S.take s.data.length).length).shift.grow.fill.r.weight + 1 ≤
            fuel := by
          rcases f4 with f4 | f4
          · exact absurd herr4 f4
          · omega
        obtain ⟨s1, e1, e2⟩ := ih _ _ L rest f1 herr4 hp4 hS' hL hlen hw
        exact ⟨s1, by simp only [scanLoop, hstep]; exact e1, e2⟩
    · rw [if_neg hfull] at hstep
      have hsp : (s.advance (S.take s.data.length).length).shift.start +
          (s.advance (S.take s.data.length).length).shift.data.length <
          (s.advance (S.take s.data.length).length).shift.bufLen := by
        omega
      obtain ⟨f1, f2, f3, f4⟩ := fill_spec _ hI2 (by exact (g2.trans herr)) hsp
      have f5 := fill_err _ hI2 hsp
      have hr3 : (s.advance (S.take s.data.length).length).shift.r = s.r := by
        rw [g3]; rfl
      rw [hr3] at f4 f5 f3
      have herr4 : (s.advance (S.take s.data.length).length).shift.fill.err = none := by
        rcases f5 with f5 | f5
        · exact f5
        · exact absurd (hempty f5).1 hfull
      have hp4 : (s.advance (S.take s.data.length).length).shift.fill.data ++
          (s.advance (S.take s.data.length).length).shift.fill.r.content =
          S.drop (S.take s.data.length).length ++ (L ++ rest) := by
        have : (s.advance (S.take s.data.length).length).shift.pending =
            s.data.drop (S.take s.data.length).length ++ s.r.content := by
          simp only [Scanner.pending]
          rw [g1, g2, g3]
          simp [Scanner.advance, herr]
        rw [← hpend, ← this, ← f2]
        simp only [Scanner.pending]
        rw [herr4, if_pos rfl]
      have hw : (s.advance (S.take s.data.length).length).shift.fill.r.weight + 1 ≤ fuel := by
        rcases f4 with f4 | f4
        · exact absurd herr4 f4
        · omega
      obtain ⟨s1, e1, e2⟩ := ih _ _ L rest f1 herr4 hp4 hS' hL hlen hw
      exact ⟨s1, by simp only [scanLoop, hstep]; exact e1, e2⟩

/-- `Parse` over a reader without stall that delivers skippable ASCII bytes and then
`maxTokenSize` or more non-skippable ASCII bytes: no token is read, the `Query` is the
default one and the error is `bufio.ErrTooLong`. -/
theorem Parse_tooLong (norm : Normalizer) (r : Reader) (S L rest : List Nat)
    (hst : noStall r.chunks = true) (hc : r.content = S ++ (L ++ rest))
    (hS : ∀ c ∈ S, c < 0x80 ∧ isSkipable c = true)
    (hL : ∀ c ∈ L, c < 0x80 ∧ isSkipable c = false) (hlen : maxTokenSize ≤ L.length) :
    Parse norm r = (emptyQuery, some ErrTooLong) := by
  obtain ⟨s1, e1, e2⟩ := scanLoop_tooLong (r.size + r.chunks.length + 2) (NewScanner r) S L rest
    (NewScanner_Inv r hst) rfl (by simpa [NewScanner] using hc) hS hL hlen
    (by simp only [NewScanner, Reader.weight]; omega)
  have hscan : (NewScanner r).Scan = (none, s1) := e1
  have hsz : r.size + 1 = r.size + 1 := rfl
  unfold Parse
  simp only [parseLoop, hscan]
  exact Prod.ext rfl (Err_of_reader _ _ e2)

/-- `String` on skippable ASCII bytes followed by `maxTokenSize` or more non-skippable
ASCII bytes, whatever comes after them, returns the default `Query`. -/
theorem String_tooLong (norm : Normalizer) (S L rest : List Nat)
    (hS : ∀ c ∈ S, c < 0x80 ∧ isSkipable c = true)
    (hL : ∀ c ∈ L, c < 0x80 ∧ isSkipable c = false) (hlen : maxTokenSize ≤ L.length) :
    Parse norm (stringsNewReader (S ++ (L ++ rest))) = (emptyQuery, some ErrTooLong) :=
  Parse_tooLong norm _ S L rest (noStall_stringsNewReader _) (content_stringsNewReader _)
    hS hL hlen

/-! ## The fields of the query of an input -/

/-- The source's `String` on any input: the loop body folded over a prefix of the
tokens (all of them when they fit the buffer), then the defaulting of the limit. -/
theorem String_prefix_tokens (norm : Normalizer) (q : List Nat) :
    ∃ toks, toks <+: tokens q ∧ (Fits q → toks = tokens q) ∧
      String norm q = finish (toks.foldl (parseStep norm) ParseState.init) := by
  obtain ⟨k, i1, i2⟩ := Parse_spec norm (stringsNewReader q) (noStall_stringsNewReader q)
  rw [content_stringsNewReader] at i1 i2
  refine ⟨(tokens q).take k, List.take_prefix _ _, ?_, i1⟩
  intro hfit
  rcases i2 with ⟨-, a2⟩ | ⟨-, tok, a2, a3⟩
  · exact a2
  · have := hfit tok a2
    omega

theorem Fits_of_tokens_nil (q : List Nat) (h : tokens q = []) : Fits q := by
  intro tok htok
  rw [h] at htok
  simp at htok

theorem Fits_of_tokens_eq (q1 q2 : List Nat) (h : tokens q1 = tokens q2) (hfit : Fits q2) :
    Fits q1 := by
  intro tok htok
  rw [h] at htok
  exact hfit tok htok

theorem Fits_append_space (a b : List Nat) : Fits (a ++ str " " ++ b) ↔ Fits a ∧ Fits b := by
  unfold Fits
  rw [tokens_append_space]
  constructor
  · intro h
    exact ⟨fun t ht => h t (List.mem_append_left _ ht),
      fun t ht => h t (List.mem_append_right _ ht)⟩
  · rintro ⟨h1, h2⟩ t ht
    rcases List.mem_append.mp ht with h | h
    · exact h1 t h
    · exact h2 t h

theorem String_Limit (norm : Normalizer) (q : List Nat) (hfit : Fits q) :
    (String norm q).Limit =
      clampLimit ((((tokens q).filterMap limitOf).getLast?.map (fun v => (Atoi v).1)).getD 0) := by
  rw [String_eq norm q hfit, finish_Limit, run_Limit]; rfl

theorem String_TSVector (norm : Normalizer) (q : List Nat) (hfit : Fits q) :
    (String norm q).TSVector = specTSVector (tokens q) := by
  rw [String_eq norm q hfit, finish_TSVector, run_w]

theorem String_Status (norm : Normalizer) (q : List Nat) (hfit : Fits q) :
    (String norm q).Status = specStatus (tokens q) := by
  rw [String_eq norm q hfit, finish_Status, run_Status]; rfl

theorem String_Labels (norm : Normalizer) (q : List Nat) (hfit : Fits q) :
    (String norm q).Labels = specLabels (tokens q) := by
  rw [String_eq norm q hfit, finish_Labels, run_Labels]; rfl

theorem String_Assignee (norm : Normalizer) (q : List Nat) (hfit : Fits q) :
    (String norm q).Assignee = specAssignee norm (tokens q) := by
  rw [String_eq norm q hfit, finish_Assignee, run_Assignee]; rfl

/-- The terms of tokens of the input are terms of the input. -/
theorem specTerms_good_of_mem (q : List Nat) (toks : List (List Nat))
    (hsub : ∀ t ∈ toks, t ∈ tokens q) : ∀ term ∈ specTerms toks, GoodTerm q term := by
  intro term hterm
  unfold specTerms at hterm
  rw [List.mem_filterMap] at hterm
  obtain ⟨tok, htok, hr⟩ := hterm
  have hm : term ∈ specTerms (tokens q) := by
    unfold specTerms
    rw [List.mem_filterMap]
    exact ⟨tok, hsub tok htok, hr⟩
  exact specTerms_good q term hm

/-! ## The long token -/

theorem longToken_length : longToken.length = maxTokenSize := by
  unfold longToken
  exact List.length_replicate _ _

theorem longToken_byte : ∀ c ∈ longToken, c = 0x78 := by
  intro c hc
  unfold longToken at hc
  exact List.eq_of_mem_replicate hc

theorem longToken_word : ∀ c ∈ longToken, c < 0x80 ∧ isSkipable c = false := by
  intro c hc
  rw [longToken_byte c hc]
  decide

theorem longToken_ne_nil : longToken ≠ [] := by
  intro h
  have := longToken_length
  rw [h] at this
  exact absurd this (by decide)

theorem noSkippable_ascii (u : List Nat) (h : ∀ c ∈ u, c < 0x80 ∧ isSkipable c = false) :
    noSkippable u = true := by
  rw [noSkippable_iff, segs_ascii u (fun c hc => (h c hc).1)]
  intro s hs
  obtain ⟨c, hc, rfl⟩ := List.mem_map.mp hs
  simp [wordP, (h c hc).2]

theorem tokens_longToken : tokens longToken = [longToken] :=
  tokens_single longToken longToken_ne_nil (noSkippable_ascii _ longToken_word)

/-- The tokens of the long token, a space and an input. -/
theorem tokens_longToken_space (b : List Nat) :
    tokens (longToken ++ str " " ++ b) = longToken :: tokens b := by
  rw [tokens_append_space, tokens_longToken]
  rfl

theorem renderTerm_longToken : renderTerm longToken = some longToken := by
  have h3A : 0x3A ∉ longToken := by
    intro h
    exact absurd (longToken_byte _ h) (by decide)
  obtain ⟨c, rest, hcr⟩ := List.exists_cons_of_ne_nil longToken_ne_nil
  have hc : c = 0x78 := longToken_byte c (by rw [hcr]; exact List.mem_cons_self _ _)
  unfold renderTerm
  rw [if_neg h3A, hcr]
  simp only
  rw [if_neg (by rw [hc]; decide)]

theorem not_Fits_longToken (b : List Nat) : ¬ Fits (longToken ++ str " " ++ b) := by
  intro h
  have := h longToken (by rw [tokens_longToken_space]; exact List.mem_cons_self _ _)
  rw [longToken_length] at this
  exact absurd this (by decide)

/-- `String` on the long token followed by anything returns the default `Query`, and
`Parse` over the in-memory reader returns `bufio.ErrTooLong`. -/
theorem Parse_longToken (norm : Normalizer) (rest : List Nat) :
    Parse norm (stringsNewReader (longToken ++ rest)) = (emptyQuery, some ErrTooLong) := by
  have := String_tooLong norm [] longToken rest (by simp) longToken_word
    (by rw [longToken_length])
  simpa using this

theorem String_longToken (norm : Normalizer) (rest : List Nat) :
    String norm (longToken ++ rest) = emptyQuery := by
  unfold String
  rw [Parse_longToken]

theorem not_mem_longToken (c : Nat) (h : c ≠ 0x78) : c ∉ longToken :=
  fun hc => h (longToken_byte c hc)

theorem statusOf_longToken : statusOf longToken = none := by
  have hl : ∀ v : List Nat, v.length < maxTokenSize → longToken ≠ v := by
    intro v hv h
    have := longToken_length
    rw [h] at this
    omega
  unfold statusOf
  rw [if_neg (hl _ (by decide)), if_neg (hl _ (by decide)), if_neg (hl _ (by decide))]

theorem labelOf_longToken : labelOf longToken = none := by
  unfold labelOf
  rw [if_neg]
  rintro ⟨h, -⟩
  exact not_mem_longToken 0x3A (by decide) h

theorem assigneeOf_longToken : assigneeOf longToken = none := by
  unfold assigneeOf
  rw [if_neg]
  rintro ⟨h, -⟩
  exact not_mem_longToken 0x3A (by decide) h

theorem limitOf_longToken : limitOf longToken = none := by
  unfold limitOf
  rw [if_neg]
  rintro ⟨h, -⟩
  exact not_mem_longToken 0x3A (by decide) h

theorem specTSVector_longToken : specTSVector [longToken] = longToken := by
  unfold specTSVector specTerms
  rw [List.filterMap_cons, renderTerm_longToken]
  simp only [List.filterMap_nil]
  exact intercalate_singleton _ _

theorem String_longToken_alone (norm : Normalizer) : String norm longToken = emptyQuery := by
  have := String_longToken norm []
  rw [List.append_nil] at this
  exact this

theorem String_longToken_space (norm : Normalizer) (b : List Nat) :
    String norm (longToken ++ str " " ++ b) = emptyQuery := by
  rw [List.append_assoc]
  exact String_longToken norm _

/-! ## The long token with an unknown key -/

theorem longDirective_word : ∀ c ∈ longDirective, c < 0x80 ∧ isSkipable c = false := by
  intro c hc
  unfold longDirective at hc
  rcases List.mem_append.mp hc with h | h
  · have key : ∀ c ∈ str "another:", c < 0x80 ∧ isSkipable c = false := by decide
    exact key c h
  · exact longToken_word c h

theorem longDirective_length : maxTokenSize ≤ longDirective.length := by
  unfold longDirective
  rw [List.length_append, longToken_length]
  omega

theorem longDirective_ne_nil : longDirective ≠ [] := by
  intro h
  have := longDirective_length
  rw [h] at this
  exact absurd this (by decide)

theorem longDirective_key :
    0x3A ∈ longDirective ∧ keyOf longDirective = str "another:" := by
  have e : longDirective = [97, 110, 111, 116, 104, 101, 114] ++ 0x3A :: longToken := by
    unfold longDirective
    have : str "another:" = [97, 110, 111, 116, 104, 101, 114] ++ [0x3A] := by decide
    rw [this, List.append_assoc]
    rfl
  obtain ⟨h1, h2, -⟩ := key_value_split [97, 110, 111, 116, 104, 101, 114] longToken (by decide)
  rw [e]
  refine ⟨h1, ?_⟩
  rw [h2]
  decide

/-- `String` on a space, the long token with the unknown key and anything returns the
default `Query`. -/
theorem String_longDirective (norm : Normalizer) (b : List Nat) :
    String norm ([] ++ str " " ++ longDirective ++ str " " ++ b) = emptyQuery := by
  have e : [] ++ str " " ++ longDirective ++ str " " ++ b =
      str " " ++ (longDirective ++ (str " " ++ b)) := by
    simp only [List.nil_append, List.append_assoc]
  have hS : ∀ c ∈ str " ", c < 0x80 ∧ isSkipable c = true := by decide
  unfold String
  rw [e, String_tooLong norm (str " ") longDirective (str " " ++ b) hS longDirective_word
    longDirective_length]

/-! ## The claims -/

/-- C1, refuted at the input of `maxTokenSize` bytes `x`: the input is one token, the
reference value is the input itself, and `String` returns an empty `TSVector`: the
scanner fills its buffer without finding the end of the token and gives up with
`bufio.ErrTooLong`, which `String` discards. -/
theorem C1_long_token_counterexample :
    tokens longToken = [longToken] ∧
    specTSVector (tokens longToken) = longToken ∧
    longToken.length = 65536 ∧
    (String idNorm longToken).TSVector = [] ∧
    (String idNorm longToken).TSVector ≠ specTSVector (tokens longToken) ∧
    (Parse idNorm (stringsNewReader longToken)).2 = some ErrTooLong := by
  have h1 : specTSVector (tokens longToken) = longToken := by
    rw [tokens_longToken, specTSVector_longToken]
  have h2 : (String idNorm longToken).TSVector = [] := by
    rw [String_longToken_alone]; rfl
  refine ⟨tokens_longToken, h1, longToken_length, h2, ?_, ?_⟩
  · rw [h1, h2]
    exact fun h => longToken_ne_nil h.symm
  · have := Parse_longToken idNorm []
    rw [List.append_nil] at this
    rw [this]

/-- C1 as amended: for every input whose tokens fit the buffer of the scanner (each is
at most `maxFit = 65532` bytes long), `Parse` over an in-memory reader, `String` and
`Bytes` set `TSVector` to the reference value: the tokens in order, without those that
contain `:` and those that are empty once one leading `-` is removed, each rendered as
`!` and the rest when it begins with `-` and as itself otherwise, joined by a single
`&`.  A bare `-` contributes nothing and negates nothing, `--foo` yields `!-foo`, and
the two inputs of the test table give `!a&t-est-&of&!time` and `test`. -/
theorem C1_tsvector_reference (norm : Normalizer) (q : List Nat) (hfit : Fits q) :
    (Parse norm (stringsNewReader q)).1.TSVector = specTSVector (tokens q) ∧
    (String norm q).TSVector = specTSVector (tokens q) ∧
    (Bytes norm q).TSVector = specTSVector (tokens q) ∧
    (Parse norm (stringsNewReader q)).2 = none ∧
    (∀ pre post : List (List Nat),
      specTSVector (pre ++ [str "-"] ++ post) = specTSVector (pre ++ post)) ∧
    (String norm (str "--foo")).TSVector = str "!-foo" ∧
    (String norm (str "-a t-est- of -time status:open")).TSVector = str "!a&t-est-&of&!time" ∧
    (String norm (str "- test")).TSVector = str "test" := by
  refine ⟨String_TSVector norm q hfit, String_TSVector norm q hfit,
    String_TSVector norm q hfit, ?_, ?_, ?_, ?_, ?_⟩
  · rw [Parse_mem norm q hfit]
  · intro pre post
    have h : specTerms [str "-"] = [] := by decide
    unfold specTSVector
    rw [specTerms_append, specTerms_append, specTerms_append, h, List.append_nil]
  · rw [String_TSVector _ _ (by decide)]; decide
  · rw [String_TSVector _ _ (by decide)]; decide
  · rw [String_TSVector _ _ (by decide)]; decide

/-- C1 as amended, at the first input of the test table. -/
theorem C1_tsvector_reference_witness :
    Fits (str "-a t-est- of -time status:open") ∧
    (String idNorm (str "-a t-est- of -time status:open")).TSVector =
      specTSVector (tokens (str "-a t-est- of -time status:open")) ∧
    (String idNorm (str "-a t-est- of -time status:open")).TSVector =
      str "!a&t-est-&of&!time" :=
  ⟨by decide, (C1_tsvector_reference idNorm _ (by decide)).2.1, by decide⟩

/-- C2, refuted at `limit:50 limit:abc`: the first `limit:` token has the valid value
`50`, the second has a value `Atoi` rejects, the raw limit after the loop is `0`, not
`50`, and the final `Limit` is `15`, not the clamp of `50`. -/
theorem C2_failed_limit_counterexample :
    tokens (str "limit:50 limit:abc") = [str "limit:" ++ str "50", str "limit:" ++ str "abc"] ∧
    Atoi (str "50") = (50, none) ∧
    (Atoi (str "abc")).2 = some NumErr.ErrSyntax ∧
    ((tokens (str "limit:50 limit:abc")).foldl (parseStep idNorm) ParseState.init).parsed.Limit
      = 0 ∧
    (String idNorm (str "limit:50 limit:abc")).Limit = 15 ∧
    (String idNorm (str "limit:50 limit:abc")).Limit ≠ clampLimit 50 := by
  decide

/-- C2 as amended: for every input whose tokens fit the buffer of the scanner and whose
last `limit:` token has a value that `Atoi` rejects, the final `Limit` is the clamp of
the value `Atoi` returns next to its error, whatever the earlier `limit:` tokens are:
`15` after a syntax error (`Atoi` returns `0`), and `100` or `10` after a range error
(`Atoi` returns the largest or the smallest `int`). -/
theorem C2_failed_limit_overwrites (norm : Normalizer) (q : List Nat)
    (pre post : List (List Nat)) (v : List Nat) (hfit : Fits q)
    (hq : tokens q = pre ++ [str "limit:" ++ v] ++ post)
    (hpost : ∀ t ∈ post, limitOf t = none)
    (hv : (Atoi v).2 ≠ none) :
    (String norm q).Limit = clampLimit (Atoi v).1 ∧
    ((String norm q).Limit = 15 ∨ (String norm q).Limit = 100 ∨ (String norm q).Limit = 10) ∧
    ((Atoi v).2 = some NumErr.ErrSyntax → (String norm q).Limit = 15) ∧
    ((Atoi v).2 = some NumErr.ErrRange →
      (String norm q).Limit = 100 ∨ (String norm q).Limit = 10) := by
  have hL : (String norm q).Limit = clampLimit (Atoi v).1 := by
    rw [String_Limit norm q hfit, hq, last_limit pre post _ hpost]; rfl
  obtain ⟨h1, h2⟩ := Atoi_error_value v
  have hs : (Atoi v).2 = some NumErr.ErrSyntax → (String norm q).Limit = 15 := by
    intro he
    rw [hL, h1 he]; rfl
  have hr : (Atoi v).2 = some NumErr.ErrRange →
      (String norm q).Limit = 100 ∨ (String norm q).Limit = 10 := by
    intro he
    rcases h2 he with h | h
    · left; rw [hL, h]; decide
    · right; rw [hL, h]; decide
  refine ⟨hL, ?_, hs, hr⟩
  rcases he : (Atoi v).2 with _ | e
  · exact absurd he hv
  · cases e with
    | ErrSyntax => exact Or.inl (hs he)
    | ErrRange => exact Or.inr (hr he)

/-- C2 as amended, at concrete inputs: a non-numeric value after `limit:50`, and a
value beyond the `int` range after `limit:50`. -/
theorem C2_failed_limit_overwrites_witness :
    ((Fits (str "limit:50 limit:abc") ∧
      tokens (str "limit:50 limit:abc") = [str "limit:50"] ++ [str "limit:" ++ str "abc"] ++ [] ∧
      (∀ t ∈ ([] : List (List Nat)), limitOf t = none) ∧ (Atoi (str "abc")).2 ≠ none) ∧
     (String idNorm (str "limit:50 limit:abc")).Limit = clampLimit (Atoi (str "abc")).1) ∧
    ((Fits (str "limit:50 limit:99999999999999999999") ∧
      tokens (str "limit:50 limit:99999999999999999999") =
        [str "limit:50"] ++ [str "limit:" ++ str "99999999999999999999"] ++ [] ∧
      (∀ t ∈ ([] : List (List Nat)), limitOf t = none) ∧
      (Atoi (str "99999999999999999999")).2 ≠ none) ∧
     (String idNorm (str "limit:50 limit:99999999999999999999")).Limit =
       clampLimit (Atoi (str "99999999999999999999")).1) :=
  ⟨⟨⟨by decide, by decide, by decide, by decide⟩,
    (C2_failed_limit_overwrites idNorm (str "limit:50 limit:abc") [str "limit:50"] []
      (str "abc") (by decide) (by decide) (by decide) (by decide)).1⟩,
   ⟨⟨by decide, by decide, by decide, by decide⟩,
    (C2_failed_limit_overwrites idNorm (str "limit:50 limit:99999999999999999999")
      [str "limit:50"] [] (str "99999999999999999999") (by decide) (by decide) (by decide)
      (by decide)).1⟩⟩

/-- C3, refuted at the input of `maxTokenSize` bytes `x`, a space and `limit:80`: the
last `limit:` token has the value `80`, and the final `Limit` is `15`: the scanner gives
up on the long token and never reads the limit. -/
theorem C3_long_token_counterexample :
    tokens (longToken ++ str " " ++ str "limit:80") =
      [longToken] ++ [str "limit:" ++ Itoa 80] ++ [] ∧
    (String idNorm (longToken ++ str " " ++ str "limit:80")).Limit = 15 ∧
    (String idNorm (longToken ++ str " " ++ str "limit:80")).Limit ≠ 80 := by
  have h1 : tokens (str "limit:80") = [str "limit:" ++ Itoa 80] := by decide
  have h2 : (String idNorm (longToken ++ str " " ++ str "limit:80")).Limit = 15 := by
    rw [String_longToken_space]; rfl
  refine ⟨?_, h2, ?_⟩
  · rw [tokens_longToken_space, h1]; rfl
  · rw [h2]; decide

/-- C3 as amended: for every `n` that fits the 64-bit `int` and every input whose
tokens fit the buffer of the scanner and whose last `limit:` token has the decimal
representation of `n` as its value, the final `Limit` is `15` if `n = 0`, else `10` if
`n < 10`, else `100` if `n > 100`, else `n`, whatever the earlier tokens are; an input
without `limit:` token ends with `Limit` 15; and the inputs `limit:0`, `limit:5`,
`limit:110`, `limit:-1`, `limit:80` end with 15, 10, 100, 10, 80. -/
theorem C3_limit_of_last_token (norm : Normalizer) (q : List Nat) (pre post : List (List Nat))
    (n : Int) (hfit : Fits q) (hlo : -(2 : Int) ^ 63 ≤ n) (hhi : n < (2 : Int) ^ 63)
    (hq : tokens q = pre ++ [str "limit:" ++ Itoa n] ++ post)
    (hpost : ∀ t ∈ post, limitOf t = none) :
    (String norm q).Limit =
      (if n = 0 then 15 else if n < 10 then 10 else if n > 100 then 100 else n) ∧
    (∀ q1 : List Nat, (∀ t ∈ tokens q1, limitOf t = none) → (String norm q1).Limit = 15) ∧
    (String norm (str "limit:0")).Limit = 15 ∧
    (String norm (str "limit:5")).Limit = 10 ∧
    (String norm (str "limit:110")).Limit = 100 ∧
    (String norm (str "limit:-1")).Limit = 10 ∧
    (String norm (str "limit:80")).Limit = 80 := by
  refine ⟨?_, ?_, ?_, ?_, ?_, ?_, ?_⟩
  · rw [String_Limit norm q hfit, hq, last_limit pre post _ hpost]
    simp only [Option.map_some', Option.getD_some, Atoi_Itoa n hlo hhi]
    rfl
  · intro q1 h
    obtain ⟨toks, hpre, -, hs⟩ := String_prefix_tokens norm q1
    have hp : toks.filterMap limitOf = [] := by
      rw [List.filterMap_eq_nil_iff]
      exact fun t ht => h t (hpre.subset ht)
    rw [hs, finish_Limit, run_Limit, hp]
    rfl
  · rw [String_Limit _ _ (by decide)]; decide
  · rw [String_Limit _ _ (by decide)]; decide
  · rw [String_Limit _ _ (by decide)]; decide
  · rw [String_Limit _ _ (by decide)]; decide
  · rw [String_Limit _ _ (by decide)]; decide

/-- C3 as amended, at a concrete input: the last `limit:` token of
`limit:200 x limit:80 y` has the value `80`. -/
theorem C3_limit_of_last_token_witness :
    (Fits (str "limit:200 x limit:80 y") ∧
      -(2 : Int) ^ 63 ≤ 80 ∧ (80 : Int) < (2 : Int) ^ 63 ∧
      tokens (str "limit:200 x limit:80 y") =
        [str "limit:200", str "x"] ++ [str "limit:" ++ Itoa 80] ++ [str "y"] ∧
      (∀ t ∈ [str "y"], limitOf t = none)) ∧
    (String idNorm (str "limit:200 x limit:80 y")).Limit = 80 :=
  ⟨⟨by decide, by decide, by decide, by decide, by decide⟩,
    (C3_limit_of_last_token idNorm (str "limit:200 x limit:80 y") [str "limit:200", str "x"]
      [str "y"] 80 (by decide) (by decide) (by decide) (by decide) (by decide)).1⟩

/-- C4: for every input whatsoever the `Limit` of the returned `Query` is at least
`10` and at most `100`: for `String` and `Bytes` on every content and for `Parse` on
every reader, with any normalizer; so it is never `0`, negative or above `100`, also
after malformed, overflowing and repeated `limit:` tokens. -/
theorem C4_limit_range (norm : Normalizer) (q : List Nat) (r : Reader) :
    (10 ≤ (String norm q).Limit ∧ (String norm q).Limit ≤ 100) ∧
    (10 ≤ (Bytes norm q).Limit ∧ (Bytes norm q).Limit ≤ 100) ∧
    (10 ≤ (Parse norm r).1.Limit ∧ (Parse norm r).1.Limit ≤ 100) ∧
    (String norm (str "limit:abc")).Limit = 15 ∧
    (String norm (str "limit:")).Limit = 15 ∧
    (String norm (str "limit:99999999999999999999")).Limit = 100 ∧
    (String norm (str "limit:-99999999999999999999")).Limit = 10 ∧
    (String norm (str "limit:7 limit:x limit:-3 limit:1000")).Limit = 100 := by
  refine ⟨finish_Limit_range _, finish_Limit_range _, finish_Limit_range _, ?_, ?_, ?_, ?_, ?_⟩
  · rw [String_Limit _ _ (by decide)]; decide
  · rw [String_Limit _ _ (by decide)]; decide
  · rw [String_Limit _ _ (by decide)]; decide
  · rw [String_Limit _ _ (by decide)]; decide
  · rw [String_Limit _ _ (by decide)]; decide

/-- C5, refuted at the input of `maxTokenSize` bytes `x`, a space and `status:open`:
the last token that names a status is `status:open`, and the final `Status` is
`StatusAny`: the scanner gives up on the long token and never reads the status. -/
theorem C5_long_token_counterexample :
    tokens (longToken ++ str " " ++ str "status:open") = [longToken, str "status:open"] ∧
    specStatus (tokens (longToken ++ str " " ++ str "status:open")) = IssueStatus.StatusOpen ∧
    (String idNorm (longToken ++ str " " ++ str "status:open")).Status =
      IssueStatus.StatusAny ∧
    (String idNorm (longToken ++ str " " ++ str "status:open")).Status ≠
      specStatus (tokens (longToken ++ str " " ++ str "status:open")) := by
  have h0 : tokens (str "status:open") = [str "status:open"] := by decide
  have h1 : specStatus (tokens (longToken ++ str " " ++ str "status:open")) =
      IssueStatus.StatusOpen := by
    rw [tokens_longToken_space, h0]
    unfold specStatus
    rw [List.filterMap_cons, statusOf_longToken]
    decide
  have h2 : (String idNorm (longToken ++ str " " ++ str "status:open")).Status =
      IssueStatus.StatusAny := by
    rw [String_longToken_space]; rfl
  refine ⟨by rw [tokens_longToken_space, h0], h1, h2, ?_⟩
  rw [h1, h2]
  decide

/-- C5 as amended: for every input whose tokens fit the buffer of the scanner (each is
at most `maxFit = 65532` bytes long) the final `Status` (of `String`, `Bytes` and
`Parse` over an in-memory reader) is the one named by the last token that is exactly
`status:open`, `status:closed` or `status:any`, and `StatusAny` without such a token; a
`status:` token with any other value leaves the status of the earlier tokens unchanged.
The inputs `status:open status:any`, `status:open status:bad` and `a  test\tstatus:a`
end `StatusAny`, `StatusOpen`, `StatusAny`. -/
theorem C5_status_last_valid (norm : Normalizer) (q : List Nat) (hfit : Fits q) :
    (String norm q).Status = specStatus (tokens q) ∧
    (Bytes norm q).Status = specStatus (tokens q) ∧
    (Parse norm (stringsNewReader q)).1.Status = specStatus (tokens q) ∧
    (∀ (toks : List (List Nat)) (v : List Nat),
      v ≠ str "open" → v ≠ str "closed" → v ≠ str "any" →
        specStatus (toks ++ [str "status:" ++ v]) = specStatus toks) ∧
    (String norm (str "status:open status:any")).Status = IssueStatus.StatusAny ∧
    (String norm (str "status:open status:bad")).Status = IssueStatus.StatusOpen ∧
    (String norm (str "a  test\tstatus:a")).Status = IssueStatus.StatusAny ∧
    (String norm (str "status:closed status: status:Open status:opens")).Status =
      IssueStatus.StatusClosed := by
  refine ⟨String_Status norm q hfit, String_Status norm q hfit, String_Status norm q hfit,
    ?_, ?_, ?_, ?_, ?_⟩
  · intro toks v h1 h2 h3
    have e1 : str "status:open" = str "status:" ++ str "open" := by decide
    have e2 : str "status:closed" = str "status:" ++ str "closed" := by decide
    have e3 : str "status:any" = str "status:" ++ str "any" := by decide
    have hnone : statusOf (str "status:" ++ v) = none := by
      unfold statusOf
      rw [e1, e2, e3]
      simp [h1, h2, h3]
    unfold specStatus
    rw [List.filterMap_append]
    simp [List.filterMap_cons, hnone]
  · rw [String_Status _ _ (by decide)]; decide
  · rw [String_Status _ _ (by decide)]; decide
  · rw [String_Status _ _ (by decide)]; decide
  · rw [String_Status _ _ (by decide)]; decide

/-- C5 as amended, at the input `status:closed x status:bad`. -/
theorem C5_status_last_valid_witness :
    Fits (str "status:closed x status:bad") ∧
    (String idNorm (str "status:closed x status:bad")).Status =
      specStatus (tokens (str "status:closed x status:bad")) ∧
    (String idNorm (str "status:closed x status:bad")).Status = IssueStatus.StatusClosed :=
  ⟨by decide, (C5_status_last_valid idNorm _ (by decide)).1, by decide⟩

/-- C6, refuted at the input of `maxTokenSize` bytes `x`, a space and `label:bug`: the
token `label:bug` has the non-empty value `bug`, and `Labels` is empty: the scanner
gives up on the long token and never reads the label. -/
theorem C6_long_token_counterexample :
    tokens (longToken ++ str " " ++ str "label:bug") = [longToken, str "label:bug"] ∧
    specLabels (tokens (longToken ++ str " " ++ str "label:bug")) = [str "bug"] ∧
    (String idNorm (longToken ++ str " " ++ str "label:bug")).Labels = [] ∧
    (String idNorm (longToken ++ str " " ++ str "label:bug")).Labels ≠
      specLabels (tokens (longToken ++ str " " ++ str "label:bug")) := by
  have h0 : tokens (str "label:bug") = [str "label:bug"] := by decide
  have h1 : specLabels (tokens (longToken ++ str " " ++ str "label:bug")) = [str "bug"] := by
    rw [tokens_longToken_space, h0]
    unfold specLabels
    rw [List.filterMap_cons, labelOf_longToken]
    decide
  have h2 : (String idNorm (longToken ++ str " " ++ str "label:bug")).Labels = [] := by
    rw [String_longToken_space]; rfl
  refine ⟨by rw [tokens_longToken_space, h0], h1, h2, ?_⟩
  rw [h1, h2]
  decide

/-- C6 as amended: for every input whose tokens fit the buffer of the scanner (each is
at most `maxFit = 65532` bytes long) `Labels` (of `String`, `Bytes` and `Parse` over an
in-memory reader) is the sequence, in order of appearance, of the non-empty texts after
the prefix of every token whose text up to and including its first `:` is `label:`;
values are copied as they are, duplicates are kept, an empty value adds nothing.  The
input `label:a label:b label: ` gives `[a, b]`. -/
theorem C6_labels_in_order (norm : Normalizer) (q : List Nat) (hfit : Fits q) :
    (String norm q).Labels = specLabels (tokens q) ∧
    (Bytes norm q).Labels = specLabels (tokens q) ∧
    (Parse norm (stringsNewReader q)).1.Labels = specLabels (tokens q) ∧
    (String norm (str "label:a label:b label: ")).Labels = [str "a", str "b"] ∧
    (String norm (str "status:open another:bad assignee:me label:a label:b label: ")).Labels =
      [str "a", str "b"] ∧
    (String norm (str "label:b label:a label:b x:label:c label:a:b")).Labels =
      [str "b", str "a", str "b", str "a:b"] := by
  refine ⟨String_Labels norm q hfit, String_Labels norm q hfit, String_Labels norm q hfit,
    ?_, ?_, ?_⟩
  · rw [String_Labels _ _ (by decide)]; decide
  · rw [String_Labels _ _ (by decide)]; decide
  · rw [String_Labels _ _ (by decide)]; decide

/-- C6 as amended, at the input `label:b x label: label:a label:b`. -/
theorem C6_labels_in_order_witness :
    Fits (str "label:b x label: label:a label:b") ∧
    (String idNorm (str "label:b x label: label:a label:b")).Labels =
      specLabels (tokens (str "label:b x label: label:a label:b")) ∧
    (String idNorm (str "label:b x label: label:a label:b")).Labels =
      [str "b", str "a", str "b"] :=
  ⟨by decide, (C6_labels_in_order idNorm _ (by decide)).1, by decide⟩

/-- C7, refuted at the input of `maxTokenSize` bytes `x`, a space and `assignee:me`,
with the normalizer that returns its argument: the last `assignee:` token has the value
`me`, and `Assignee` is empty: the scanner gives up on the long token and never reads
the assignee. -/
theorem C7_long_token_counterexample :
    tokens (longToken ++ str " " ++ str "assignee:me") = [longToken, str "assignee:me"] ∧
    specAssignee idNorm (tokens (longToken ++ str " " ++ str "assignee:me")) = str "me" ∧
    (String idNorm (longToken ++ str " " ++ str "assignee:me")).Assignee = [] ∧
    (String idNorm (longToken ++ str " " ++ str "assignee:me")).Assignee ≠
      specAssignee idNorm (tokens (longToken ++ str " " ++ str "assignee:me")) := by
  have h0 : tokens (str "assignee:me") = [str "assignee:me"] := by decide
  have h1 : specAssignee idNorm (tokens (longToken ++ str " " ++ str "assignee:me")) =
      str "me" := by
    rw [tokens_longToken_space, h0]
    unfold specAssignee
    rw [List.filterMap_cons, assigneeOf_longToken]
    decide
  have h2 : (String idNorm (longToken ++ str " " ++ str "assignee:me")).Assignee = [] := by
    rw [String_longToken_space]; rfl
  refine ⟨by rw [tokens_longToken_space, h0], h1, h2, ?_⟩
  rw [h1, h2]
  decide

/-- C7 as amended: for every input whose tokens fit the buffer of the scanner (each is
at most `maxFit = 65532` bytes long) and every username normalizer (any function that
returns a string and possibly an error), `Assignee` (of `String`, `Bytes` and `Parse`
over an in-memory reader) is the string the normalizer returns for the value of the
last `assignee:` token, whether or not it reported an error, and empty without such a
token.  With a normalizer that returns its argument the input of the test table gives
`me`; with one that fails on `b` and returns `x` for it, the failed normalization of
the second token overwrites the first assignee. -/
theorem C7_assignee_last_normalized (norm : Normalizer) (q : List Nat) (hfit : Fits q) :
    (String norm q).Assignee = specAssignee norm (tokens q) ∧
    (Bytes norm q).Assignee = specAssignee norm (tokens q) ∧
    (Parse norm (stringsNewReader q)).1.Assignee = specAssignee norm (tokens q) ∧
    ((∀ t ∈ tokens q, assigneeOf t = none) → (String norm q).Assignee = []) ∧
    (∀ (toks : List (List Nat)) (v : List Nat),
      specAssignee norm (toks ++ [str "assignee:" ++ v]) = (norm v).1) ∧
    (String idNorm (str "status:open another:bad assignee:me label:a label:b label: ")).Assignee =
      str "me" ∧
    (String (fun v => if v = str "b" then (str "x", some "failed") else (v, none))
      (str "assignee:a assignee:b")).Assignee = str "x" := by
  refine ⟨String_Assignee norm q hfit, String_Assignee norm q hfit,
    String_Assignee norm q hfit, ?_, ?_, ?_, ?_⟩
  · intro h
    have hp : (tokens q).filterMap assigneeOf = [] := by
      rw [List.filterMap_eq_nil_iff]; exact h
    rw [String_Assignee norm q hfit]
    unfold specAssignee
    rw [hp]; rfl
  · intro toks v
    have e : str "assignee:" = [97, 115, 115, 105, 103, 110, 101, 101] ++ [0x3A] := by decide
    obtain ⟨h1, h2, h3⟩ :=
      key_value_split [97, 115, 115, 105, 103, 110, 101, 101] v (by decide)
    have e2 : str "assignee:" ++ v = [97, 115, 115, 105, 103, 110, 101, 101] ++ 0x3A :: v := by
      rw [e]; simp
    have ha : assigneeOf (str "assignee:" ++ v) = some v := by
      unfold assigneeOf
      rw [e2, if_pos ⟨h1, by rw [h2, e]⟩, h3]
    unfold specAssignee
    rw [List.filterMap_append]
    simp [List.filterMap_cons, ha]
  · rw [String_Assignee _ _ (by decide)]; decide
  · rw [String_Assignee _ _ (by decide)]; decide

/-- C7 as amended, at the input `assignee:a x assignee:me y`. -/
theorem C7_assignee_last_normalized_witness :
    Fits (str "assignee:a x assignee:me y") ∧
    (String idNorm (str "assignee:a x assignee:me y")).Assignee =
      specAssignee idNorm (tokens (str "assignee:a x assignee:me y")) ∧
    (String idNorm (str "assignee:a x assignee:me y")).Assignee = str "me" :=
  ⟨by decide, (C7_assignee_last_normalized idNorm _ (by decide)).1, by decide⟩

/-- C8, refuted at the token `another:` followed by `maxTokenSize` bytes `x`, with the
empty input before it and `foo` after it: the token is non-empty, holds no skippable
code point, contains `:` and has the unknown key `another:`; with it the parse returns
the default `Query` (the scanner gives up on the token and never reads `foo`), without
it the search expression is `foo`. -/
theorem C8_long_directive_counterexample :
    (longDirective ≠ [] ∧ noSkippable longDirective = true ∧ 0x3A ∈ longDirective ∧
      keyOf longDirective ≠ str "status:" ∧ keyOf longDirective ≠ str "label:" ∧
      keyOf longDirective ≠ str "limit:" ∧ keyOf longDirective ≠ str "assignee:") ∧
    (String idNorm ([] ++ str " " ++ longDirective ++ str " " ++ str "foo")).TSVector = [] ∧
    (String idNorm ([] ++ str " " ++ str "foo")).TSVector = str "foo" ∧
    String idNorm ([] ++ str " " ++ longDirective ++ str " " ++ str "foo") ≠
      String idNorm ([] ++ str " " ++ str "foo") := by
  have hk := longDirective_key.2
  have h1 : (String idNorm ([] ++ str " " ++ longDirective ++ str " " ++ str "foo")).TSVector
      = [] := by
    rw [String_longDirective]; rfl
  have h2 : (String idNorm ([] ++ str " " ++ str "foo")).TSVector = str "foo" := by decide
  refine ⟨⟨longDirective_ne_nil, noSkippable_ascii _ longDirective_word, longDirective_key.1,
    ?_, ?_, ?_, ?_⟩, h1, h2, ?_⟩
  · rw [hk]; decide
  · rw [hk]; decide
  · rw [hk]; decide
  · rw [hk]; decide
  · intro h
    rw [h, h2] at h1
    exact absurd h1 (by decide)

/-- C8 as amended: for every token `u` (non-empty, without skippable code point) that
contains `:` and whose text up to and including its first `:` is none of `status:`,
`label:`, `limit:`, `assignee:` (compared byte for byte), and for all inputs `a` and
`b` such that the tokens of `a ++ " " ++ u ++ " " ++ b` fit the buffer of the scanner
(each is at most `maxFit = 65532` bytes long), parsing `a ++ " " ++ u ++ " " ++ b`
returns the `Query` that parsing `a ++ " " ++ b` returns, equal in every field, for
`String`, `Bytes` and `Parse` over an in-memory reader: the loop body leaves its whole
state unchanged on `u`, and `u` contributes no term to the search expression. -/
theorem C8_unknown_directive_ignored (norm : Normalizer) (u a b : List Nat)
    (hne : u ≠ []) (hskip : noSkippable u = true) (hcolon : 0x3A ∈ u)
    (h1 : keyOf u ≠ str "status:") (h2 : keyOf u ≠ str "label:")
    (h3 : keyOf u ≠ str "limit:") (h4 : keyOf u ≠ str "assignee:")
    (hfit : Fits (a ++ str " " ++ u ++ str " " ++ b)) :
    String norm (a ++ str " " ++ u ++ str " " ++ b) = String norm (a ++ str " " ++ b) ∧
    Bytes norm (a ++ str " " ++ u ++ str " " ++ b) = Bytes norm (a ++ str " " ++ b) ∧
    Parse norm (stringsNewReader (a ++ str " " ++ u ++ str " " ++ b)) =
      Parse norm (stringsNewReader (a ++ str " " ++ b)) ∧
    tokens (a ++ str " " ++ u ++ str " " ++ b) = tokens a ++ [u] ++ tokens b ∧
    tokens (a ++ str " " ++ b) = tokens a ++ tokens b ∧
    (∀ st : ParseState, parseStep norm st u = st) ∧
    renderTerm u = none := by
  have hstep : ∀ st : ParseState, parseStep norm st u = st :=
    fun st => parseStep_unknown norm st u hcolon h1 h2 h3 h4
  have hfold : (tokens (a ++ str " " ++ u ++ str " " ++ b)).foldl (parseStep norm)
      ParseState.init = (tokens (a ++ str " " ++ b)).foldl (parseStep norm) ParseState.init := by
    rw [tokens_with_unknown u a b hne hskip, tokens_append_space]
    simp only [List.foldl_append, List.foldl_cons, List.foldl_nil, hstep]
  have hfit2 : Fits (a ++ str " " ++ b) := by
    intro tok htok
    apply hfit tok
    rw [tokens_with_unknown u a b hne hskip]
    rw [tokens_append_space] at htok
    rcases List.mem_append.mp htok with h | h
    · exact List.mem_append_left _ (List.mem_append_left _ h)
    · exact List.mem_append_right _ h
  have hP : Parse norm (stringsNewReader (a ++ str " " ++ u ++ str " " ++ b)) =
      Parse norm (stringsNewReader (a ++ str " " ++ b)) := by
    rw [Parse_mem norm _ hfit, Parse_mem norm _ hfit2, hfold]
  refine ⟨?_, ?_, hP, tokens_with_unknown u a b hne hskip, tokens_append_space a b, hstep,
    renderTerm_of_mem u hcolon⟩
  · unfold String; rw [hP]
  · rw [Bytes_eq_String, Bytes_eq_String]; unfold String; rw [hP]

/-- C8 as amended, at concrete tokens: `another:bad`, `Status:open`, `-label:x` and `:`
between `status:open limit:20` and `label:x y`. -/
theorem C8_unknown_directive_ignored_witness :
    ((str "another:bad" ≠ [] ∧ noSkippable (str "another:bad") = true ∧
        0x3A ∈ str "another:bad" ∧ keyOf (str "another:bad") ≠ str "status:" ∧
        keyOf (str "another:bad") ≠ str "label:" ∧ keyOf (str "another:bad") ≠ str "limit:" ∧
        keyOf (str "another:bad") ≠ str "assignee:" ∧
        Fits (str "status:open limit:20" ++ str " " ++ str "another:bad" ++ str " " ++
          str "label:x y")) ∧
      String idNorm (str "status:open limit:20" ++ str " " ++ str "another:bad" ++ str " " ++
          str "label:x y") =
        String idNorm (str "status:open limit:20" ++ str " " ++ str "label:x y")) ∧
    String idNorm (str "status:open limit:20" ++ str " " ++ str "Status:open" ++ str " " ++
        str "label:x y") =
      String idNorm (str "status:open limit:20" ++ str " " ++ str "label:x y") ∧
    String idNorm (str "status:open limit:20" ++ str " " ++ str "-label:x" ++ str " " ++
        str "label:x y") =
      String idNorm (str "status:open limit:20" ++ str " " ++ str "label:x y") ∧
    String idNorm (str "status:open limit:20" ++ str " " ++ str ":" ++ str " " ++
        str "label:x y") =
      String idNorm (str "status:open limit:20" ++ str " " ++ str "label:x y") :=
  ⟨⟨⟨by decide, by decide, by decide, by decide, by decide, by decide, by decide, by decide⟩,
    (C8_unknown_directive_ignored idNorm (str "another:bad") (str "status:open limit:20")
      (str "label:x y") (by decide) (by decide) (by decide) (by decide) (by decide)
      (by decide) (by decide) (by decide)).1⟩,
   (C8_unknown_directive_ignored idNorm (str "Status:open") (str "status:open limit:20")
      (str "label:x y") (by decide) (by decide) (by decide) (by decide) (by decide)
      (by decide) (by decide) (by decide)).1,
   (C8_unknown_directive_ignored idNorm (str "-label:x") (str "status:open limit:20")
      (str "label:x y") (by decide) (by decide) (by decide) (by decide) (by decide)
      (by decide) (by decide) (by decide)).1,
   (C8_unknown_directive_ignored idNorm (str ":") (str "status:open limit:20")
      (str "label:x y") (by decide) (by decide) (by decide) (by decide) (by decide)
      (by decide) (by decide) (by decide)).1⟩

/-- C9, refuted at `status:open`: no term is accepted, `TSVector` is empty, so it
holds no `&` where the claim counts "terms minus one", and splitting it on `&` yields
one term, the empty one. -/
theorem C9_no_term_counterexample :
    specTerms (tokens (str "status:open")) = [] ∧
    (String idNorm (str "status:open")).TSVector = [] ∧
    (countByte 0x26 (String idNorm (str "status:open")).TSVector : Int) ≠
      ((specTerms (tokens (str "status:open"))).length : Int) - 1 ∧
    List.splitOn 0x26 (String idNorm (str "status:open")).TSVector = [[]] ∧
    (∃ t ∈ List.splitOn 0x26 (String idNorm (str "status:open")).TSVector, stripBang t = []) := by
  decide

/-- C9 as amended: for every input, the tokens `toks` that the scanner delivers to the
loop of `Parse` are a prefix of the tokens of the input, and all of them when the
tokens of the input fit the buffer of the scanner (each is at most `maxFit = 65532`
bytes long); the accepted terms are the terms of `toks`, and `TSVector` is their join.
`TSVector` neither starts nor ends with `&` and holds no `&&`; no accepted term is
empty once one leading `!` is removed; with no accepted term `TSVector` is empty; with
at least one, splitting `TSVector` on `&` yields exactly the accepted terms and the
number of `&` is the number of accepted terms minus one; and a non-empty run of
skippable code points (UTF-8 encoded) between two inputs whose tokens fit the buffer
gives the `TSVector` that a single space gives. -/
theorem C9_separator_placement (norm : Normalizer) (q : List Nat) :
    ∃ toks : List (List Nat), toks <+: tokens q ∧ (Fits q → toks = tokens q) ∧
      (String norm q).TSVector = List.intercalate [0x26] (specTerms toks) ∧
      (String norm q).TSVector.head? ≠ some 0x26 ∧
      (String norm q).TSVector.getLast? ≠ some 0x26 ∧
      ¬ ([0x26, 0x26] <:+: (String norm q).TSVector) ∧
      (∀ t ∈ specTerms toks, stripBang t ≠ []) ∧
      (specTerms toks = [] → (String norm q).TSVector = []) ∧
      (specTerms toks ≠ [] →
        List.splitOn 0x26 (String norm q).TSVector = specTerms toks ∧
        (∀ t ∈ List.splitOn 0x26 (String norm q).TSVector, stripBang t ≠ []) ∧
        countByte 0x26 (String norm q).TSVector + 1 = (specTerms toks).length) ∧
      (∀ a b rs : List Nat, rs ≠ [] → (∀ r ∈ rs, isSkipable r = true) →
        Fits (a ++ str " " ++ b) →
        (String norm (a ++ rs.flatMap encodeRune ++ b)).TSVector =
          (String norm (a ++ str " " ++ b)).TSVector) := by
  obtain ⟨toks, hpre, hall, hs⟩ := String_prefix_tokens norm q
  have hv : (String norm q).TSVector = List.intercalate [0x26] (specTerms toks) := by
    rw [hs, finish_TSVector, run_w]; rfl
  have hgood := specTerms_good_of_mem q toks (fun t ht => hpre.subset ht)
  have hshape := fun t ht => GoodTerm_shape q t (hgood t ht)
  have hx : ∀ t ∈ specTerms toks, 0x26 ∉ t := by
    intro t ht
    obtain ⟨c, r, rfl, h1, h2, -, -⟩ := hshape t ht
    simp only [List.mem_cons, not_or]
    exact ⟨fun h => h1 h.symm, h2⟩
  have hnn : ∀ t ∈ specTerms toks, t ≠ [] := by
    intro t ht
    obtain ⟨c, r, rfl, -⟩ := hshape t ht
    simp
  have hstrip : ∀ t ∈ specTerms toks, stripBang t ≠ [] := by
    intro t ht
    obtain ⟨c, r, rfl, -, -, -, h⟩ := hshape t ht
    exact h
  refine ⟨toks, hpre, hall, hv, ?_⟩
  rw [hv]
  refine ⟨?_, ?_, ?_, hstrip, ?_, ?_, ?_⟩
  · rcases hts : specTerms toks with _ | ⟨t, ts⟩
    · simp [intercalate_nil]
    · rw [hts] at hnn hx
      rw [head?_intercalate _ t ts (hnn t (List.mem_cons_self _ _))]
      intro h
      exact hx t (List.mem_cons_self _ _) (List.mem_of_mem_head? h)
  · rw [getLast?_intercalate _ _ hnn]
    intro h
    rw [Option.bind_eq_some] at h
    obtain ⟨t, ht, hl⟩ := h
    exact hx t (List.mem_of_mem_getLast? ht) (List.mem_of_mem_getLast? hl)
  · rintro ⟨pre, post, h⟩
    have h' : List.intercalate [0x26] (specTerms toks) = pre ++ 0x26 :: (0x26 :: post) := by
      rw [← h]; simp
    obtain ⟨k, hk0, hk1, -, hpost⟩ := intercalate_split 0x26 _ hx pre _ h'
    have hdrop : (specTerms toks).drop k ≠ [] := by
      intro hnil
      have := congrArg List.length hnil
      simp at this; omega
    obtain ⟨t, ts, hts⟩ := List.exists_cons_of_ne_nil hdrop
    have htm : t ∈ specTerms toks :=
      List.mem_of_mem_drop (by rw [hts]; exact List.mem_cons_self _ _)
    have hhead := head?_intercalate 0x26 t ts (hnn t htm)
    rw [← hts, ← hpost] at hhead
    exact hx t htm (List.mem_of_mem_head? hhead.symm)
  · intro h; rw [h, intercalate_nil]
  · intro hne
    have hsplit := List.splitOn_intercalate (specTerms toks) 0x26 hx hne
    refine ⟨hsplit, ?_, ?_⟩
    · rw [hsplit]; exact hstrip
    · exact count_intercalate 0x26 _ hx hne
  · intro a b rs hne hrs hfit
    have ht : tokens (a ++ rs.flatMap encodeRune ++ b) = tokens (a ++ str " " ++ b) := by
      rw [tokens_append_runes a b rs hne hrs, tokens_append_space]
    rw [String_TSVector norm _ (Fits_of_tokens_eq _ _ ht hfit), String_TSVector norm _ hfit, ht]

/-- C10: for every input, the tokens `toks` that the scanner delivers to the loop of
`Parse` are a prefix of the tokens of the input (all of them when each token of the
input is at most `maxFit = 65532` bytes long), and `TSVector` is the terms of `toks`
joined by `&`, each term a free-text token of the input (a contiguous piece of it,
without `:`) copied as it is, or `!` and the rest of a free-text token `-rest`;
decoded as UTF-8 `TSVector` holds no white space code point and none of `|`, `(`, `)`,
`:`, and none of these bytes; every `&` in it stands between two joined runs of terms,
and every `!` in it stands at the start of the string or right after a `&`. -/
theorem C10_expression_alphabet (norm : Normalizer) (q : List Nat) :
    ∃ toks : List (List Nat), toks <+: tokens q ∧ (Fits q → toks = tokens q) ∧
      (String norm q).TSVector = List.intercalate [0x26] (specTerms toks) ∧
      (∀ term ∈ specTerms toks,
        (term ∈ tokens q ∧ 0x3A ∉ term ∧ term.head? ≠ some 0x2D) ∨
        (∃ rest, rest ≠ [] ∧ term = 0x21 :: rest ∧ 0x2D :: rest ∈ tokens q ∧ 0x3A ∉ rest)) ∧
      (∀ tok ∈ tokens q, tok <:+: q ∧ 0x26 ∉ tok ∧ 0x21 ∉ tok) ∧
      (∀ r ∈ runes (String norm q).TSVector,
        IsSpace r = false ∧ r ≠ 0x7C ∧ r ≠ 0x28 ∧ r ≠ 0x29 ∧ r ≠ 0x3A) ∧
      (∀ c ∈ (String norm q).TSVector,
        c ≠ 0x7C ∧ c ≠ 0x28 ∧ c ≠ 0x29 ∧ c ≠ 0x3A ∧ (c < 0x80 → IsSpace c = false)) ∧
      (∀ pre post, (String norm q).TSVector = pre ++ 0x26 :: post →
        ∃ k, 0 < k ∧ k < (specTerms toks).length ∧
          pre = List.intercalate [0x26] ((specTerms toks).take k) ∧
          post = List.intercalate [0x26] ((specTerms toks).drop k)) ∧
      (∀ pre post, (String norm q).TSVector = pre ++ 0x21 :: post →
        pre = [] ∨ pre.getLast? = some 0x26) := by
  obtain ⟨toks, hpre, hall, hs⟩ := String_prefix_tokens norm q
  have hv : (String norm q).TSVector = List.intercalate [0x26] (specTerms toks) := by
    rw [hs, finish_TSVector, run_w]; rfl
  have hgood := specTerms_good_of_mem q toks (fun t ht => hpre.subset ht)
  have hshape := fun t ht => GoodTerm_shape q t (hgood t ht)
  have hx : ∀ t ∈ specTerms toks, 0x26 ∉ t := by
    intro t ht
    obtain ⟨c, r, rfl, h1, h2, -, -⟩ := hshape t ht
    simp only [List.mem_cons, not_or]
    exact ⟨fun h => h1 h.symm, h2⟩
  refine ⟨toks, hpre, hall, hv, hgood, ?_, ?_, ?_, ?_, ?_⟩
  · intro tok htok
    exact ⟨tokens_contiguous q tok htok,
      token_no_skip_byte q tok htok 0x26 (by decide) (by decide),
      token_no_skip_byte q tok htok 0x21 (by decide) (by decide)⟩
  · intro r hr
    rw [hv] at hr
    unfold runes at hr
    rw [List.mem_map] at hr
    obtain ⟨s, hs, rfl⟩ := hr
    rcases intercalate_segs q _ hgood s hs with rfl | rfl | ⟨hw, h58⟩
    · decide
    · decide
    · have hns : isSkipable s.1 = false := by simpa [wordP] using hw
      obtain ⟨k1, -, k3, -, k5, k6⟩ := isSkipable_false s.1 hns
      exact ⟨k1, k3, k5, k6, h58⟩
  · intro c hc
    rw [hv] at hc
    rcases mem_intercalate 0x26 c _ hc with rfl | ⟨t, ht, hct⟩
    · exact ⟨by decide, by decide, by decide, by decide, fun _ => by decide⟩
    · exact GoodTerm_bytes q t (hgood t ht) c hct
  · intro pre post h
    rw [hv] at h
    exact intercalate_split 0x26 _ hx pre post h
  · intro pre post h
    rw [hv] at h
    refine bang_position _ ?_ pre post h
    intro t ht
    obtain ⟨c, r, rfl, -, -, h3, -⟩ := hshape t ht
    exact ⟨c, r, rfl, h3⟩

/-- C11: an input whose code points are all skippable (white space and `! | & ( )`),
the empty input included, has no token, and `String`, `Bytes` and `Parse` over any
reader that delivers it without more than 100 empty reads in a row return the `Query`
with `TSVector` empty, `Status` `StatusAny`, `Limit` 15, no `Labels` and `Assignee`
empty.  The hypothesis holds of the encoding of every string of skippable
characters. -/
theorem C11_only_skippable (norm : Normalizer) (q : List Nat)
    (h : ∀ r ∈ runes q, isSkipable r = true) :
    tokens q = [] ∧
    String norm q =
      { Status := IssueStatus.StatusAny, TSVector := [], Assignee := [], Limit := 15,
        Labels := [] } ∧
    Bytes norm q = String norm q ∧
    (∀ rd : Reader, rd.content = q → noStall rd.chunks = true →
      (Parse norm rd).1 = String norm q) ∧
    (∀ rs : List Nat, (∀ r ∈ rs, isSkipable r = true) → runes (rs.flatMap encodeRune) = rs) := by
  have ht := tokens_all_skippable q h
  have hfit : Fits q := Fits_of_tokens_nil q ht
  refine ⟨ht, ?_, rfl, ?_, runes_encode_skippable⟩
  · rw [String_eq norm q hfit, ht]; rfl
  · intro rd hrd hst
    rw [Parse_eq norm rd hst (by rw [hrd]; exact hfit), String_eq norm q hfit, hrd]

/-- C11 at the input of the test table, and at the empty input. -/
theorem C11_only_skippable_witness :
    ((∀ r ∈ runes (str " &| !(\t)  "), isSkipable r = true) ∧
      tokens (str " &| !(\t)  ") = [] ∧
      String idNorm (str " &| !(\t)  ") =
        { Status := IssueStatus.StatusAny, TSVector := [], Assignee := [], Limit := 15,
          Labels := [] }) ∧
    ((∀ r ∈ runes [], isSkipable r = true) ∧
      String idNorm [] =
        { Status := IssueStatus.StatusAny, TSVector := [], Assignee := [], Limit := 15,
          Labels := [] }) :=
  ⟨⟨by decide, (C11_only_skippable idNorm _ (by decide)).1,
      (C11_only_skippable idNorm _ (by decide)).2.1⟩,
    ⟨by decide, (C11_only_skippable idNorm [] (by decide)).2.1⟩⟩

/-- C12: tokenizing a complete buffer (calling `scanTokens` with `atEOF = true` on the
remaining bytes and dropping `advance` of them until no token is returned) ends
within `len(data) + 1` calls and yields, in input order, the maximal runs of
consecutive non-skippable code points: the pieces of the decoded input between
skippable code points, the empty ones left out.  Every token is non-empty and holds no
skippable code point and no skippable ASCII byte, and the concatenation of the tokens
is the input without its skippable code points. -/
theorem C12_tokens_maximal_runs (data : List Nat) :
    (∀ fuel, data.length < fuel → tokensAux fuel data = tokens data) ∧
    tokens data =
      (((segs data).splitOnP skipP).filter (fun g => !g.isEmpty)).map bytesOf ∧
    (∀ tok ∈ tokens data, tok ≠ [] ∧ (∀ r ∈ runes tok, isSkipable r = false) ∧
      (∀ c ∈ tok, c < 0x80 → isSkipable c = false) ∧ tok <:+: data) ∧
    (tokens data).flatten = bytesOf ((segs data).filter (fun s => !isSkipable s.1)) := by
  refine ⟨?_, ?_, ?_, ?_⟩
  · intro fuel hf
    rw [tokensAux_eq fuel data hf, tokens_eq]
  · rw [tokens_eq, splitSegs_eq_splitOnP, modifyHead_nil_append]
  · intro tok htok
    refine ⟨tokens_ne_nil data tok htok, ?_, tokens_ascii data tok htok,
      tokens_contiguous data tok htok⟩
    have := tokens_noSkippable data tok htok
    unfold noSkippable at this
    rw [List.all_eq_true] at this
    intro r hr
    simpa using this r hr
  · rw [tokens_eq, bytesOf_flatten, splitSegs_flatten]
    rfl

/-- C13, refuted at two readers that reach the end of their input without a failed
`Read`: one that delivers `maxTokenSize` bytes `x`, for which `Parse` returns
`bufio.ErrTooLong`, and one that returns `(0, nil)` for 101 reads in a row before it
delivers `foo`, for which `Parse` returns `io.ErrNoProgress`; and at a reader that
delivers `maxTokenSize` bytes `x` and then fails with `Bad err`, for which `Parse`
returns `bufio.ErrTooLong`, not `Bad err`. -/
theorem C13_scanner_error_counterexample :
    (stringsNewReader longToken).err = none ∧
    (Parse idNorm (stringsNewReader longToken)).2 = some ErrTooLong ∧
    (Parse idNorm { chunks := List.replicate 101 [] ++ [str "foo"], err := none }).2 =
      some ErrNoProgress ∧
    (Parse idNorm { chunks := [longToken], err := some "Bad err" }).2 = some ErrTooLong ∧
    (Parse idNorm { chunks := [longToken], err := some "Bad err" }).2 ≠ some "Bad err" := by
  have h1 : (Parse idNorm (stringsNewReader longToken)).2 = some ErrTooLong := by
    have := Parse_longToken idNorm []
    rw [List.append_nil] at this
    rw [this]
  have h2 : (Parse idNorm { chunks := [longToken], err := some "Bad err" }).2 =
      some ErrTooLong := by
    have := Parse_tooLong idNorm { chunks := [longToken], err := some "Bad err" } []
      longToken [] (by decide) (by simp [Reader.content]) (by simp) longToken_word
      (by rw [longToken_length])
    rw [this]
  refine ⟨rfl, h1, by decide, h2, ?_⟩
  rw [h2]
  decide

/-- C13 as amended: for every reader that never returns `(0, nil)` for more than 100
reads in a row and whose content has only tokens that fit the buffer of the scanner
(each is at most `maxFit = 65532` bytes long), the error `Parse` returns is the error
the reader reported: the read error, unchanged, when a `Read` fails, and `nil` when the
reader reaches the end of its input.  The reader of the test, whose first `Read` fails
with `Bad err`, makes `Parse` return `Bad err`. -/
theorem C13_read_error_returned (norm : Normalizer) (r : Reader)
    (hst : noStall r.chunks = true) (hfit : Fits r.content) :
    (Parse norm r).2 = r.err ∧
    (∀ e : Err, r.err = some e → (Parse norm r).2 = some e) ∧
    (r.err = none → (Parse norm r).2 = none) ∧
    (Parse norm { chunks := [], err := some "Bad err" }).2 = some "Bad err" := by
  have h : (Parse norm r).2 = r.err := by rw [Parse_eq norm r hst hfit]
  refine ⟨h, ?_, ?_, ?_⟩
  · intro e he; rw [h, he]
  · intro he; rw [h, he]
  · rw [Parse_eq norm _ (by decide) (by decide)]

/-- C13 as amended, at the reader of the test, whose first `Read` fails with `Bad err`,
and at a reader that delivers `label:bug fo` and `o` before it fails. -/
theorem C13_read_error_returned_witness :
    ((noStall ([] : List (List Nat)) = true ∧
      Fits (Reader.content { chunks := [], err := some "Bad err" })) ∧
     (Parse idNorm { chunks := [], err := some "Bad err" }).2 = some "Bad err") ∧
    ((noStall [str "label:bug fo", str "o"] = true ∧
      Fits (Reader.content { chunks := [str "label:bug fo", str "o"], err := some "Bad err" })) ∧
     (Parse idNorm { chunks := [str "label:bug fo", str "o"], err := some "Bad err" }).2 =
       some "Bad err") :=
  ⟨⟨⟨by decide, by decide⟩,
    (C13_read_error_returned idNorm { chunks := [], err := some "Bad err" }
      (by decide) (by decide)).1⟩,
   ⟨⟨by decide, by decide⟩,
    (C13_read_error_returned idNorm
      { chunks := [str "label:bug fo", str "o"], err := some "Bad err" }
      (by decide) (by decide)).1⟩⟩

/-- C14, refuted at a reader that delivers `label:bug fo`, then `o`, then fails with
`Bad err`: `Parse` returns the error together with a `Query` that holds the label and the
term read before the failure. -/
theorem C14_partial_result_counterexample :
    Parse idNorm { chunks := [str "label:bug fo", str "o"], err := some "Bad err" } =
      ({ Status := IssueStatus.StatusAny, TSVector := str "foo", Assignee := [], Limit := 15,
         Labels := [str "bug"] }, some "Bad err") ∧
    (Parse idNorm { chunks := [str "label:bug fo", str "o"], err := some "Bad err" }).1 ≠
      emptyQuery := by
  decide

/-- C14 as amended: for every reader, failing or not, that never returns `(0, nil)` for
more than 100 reads in a row and whose content has only tokens that fit the buffer of
the scanner (each is at most `maxFit = 65532` bytes long), `Parse` returns the reader's
error together with the `Query` of all the bytes delivered before it: the loop body
folded over their tokens and the limit defaulted, which is what `String` returns for
those bytes. -/
theorem C14_partial_result_kept (norm : Normalizer) (r : Reader)
    (hst : noStall r.chunks = true) (hfit : Fits r.content) :
    Parse norm r = (String norm r.content, r.err) ∧
    (Parse norm r).1 = finish ((tokens r.content).foldl (parseStep norm) ParseState.init) ∧
    (∀ e : Err, r.err = some e →
      (Parse norm r).2 = some e ∧ (Parse norm r).1 = String norm r.content) := by
  have h : Parse norm r = (String norm r.content, r.err) := by
    rw [Parse_eq norm r hst hfit, String_eq norm _ hfit]
  refine ⟨h, by rw [Parse_eq norm r hst hfit], ?_⟩
  intro e he
  rw [h, he]
  exact ⟨rfl, rfl⟩

/-- C14 as amended, at a reader that delivers `status:open fo`, then `o limit:20`, then
fails with `Bad err`. -/
theorem C14_partial_result_kept_witness :
    (noStall [str "status:open fo", str "o limit:20"] = true ∧
      Fits (Reader.content
        { chunks := [str "status:open fo", str "o limit:20"], err := some "Bad err" })) ∧
    Parse idNorm { chunks := [str "status:open fo", str "o limit:20"], err := some "Bad err" } =
      (String idNorm (str "status:open foo limit:20"), some "Bad err") ∧
    (String idNorm (str "status:open foo limit:20")).TSVector = str "foo" :=
  ⟨⟨by decide, by decide⟩,
    (C14_partial_result_kept idNorm
      { chunks := [str "status:open fo", str "o limit:20"], err := some "Bad err" }
      (by decide) (by decide)).1,
    by decide⟩

/-- C15, refuted at the content of `maxTokenSize` bytes `x`: `Parse` over the in-memory
reader of it returns the error `bufio.ErrTooLong`. -/
theorem C15_long_token_counterexample :
    Parse idNorm (stringsNewReader longToken) = (String idNorm longToken, some ErrTooLong) ∧
    Parse idNorm (bytesNewReader longToken) = (Bytes idNorm longToken, some ErrTooLong) ∧
    (Parse idNorm (stringsNewReader longToken)).2 ≠ none := by
  have h1 : Parse idNorm (stringsNewReader longToken) = (emptyQuery, some ErrTooLong) := by
    have := Parse_longToken idNorm []
    rw [List.append_nil] at this
    exact this
  have h2 : Parse idNorm (stringsNewReader longToken) =
      (String idNorm longToken, some ErrTooLong) := by
    rw [String_longToken_alone, h1]
  refine ⟨h2, h2, ?_⟩
  rw [h1]
  exact fun h => Option.noConfusion h

/-- C15 as amended: for every content the three entry points agree: `String`, `Bytes`
and the `Query` of `Parse` over an in-memory reader of the same bytes are equal, field
by field; and when the tokens of the content fit the buffer of the scanner (each is at
most `maxFit = 65532` bytes long) `Parse` returns no error on such a reader, however
the reader cuts the content into reads, as long as it does not return `(0, nil)` for
more than 100 reads in a row. -/
theorem C15_entry_points_agree (norm : Normalizer) (q : List Nat) :
    String norm q = Bytes norm q ∧
    (Parse norm (stringsNewReader q)).1 = String norm q ∧
    (Parse norm (bytesNewReader q)).1 = Bytes norm q ∧
    (Parse norm (bytesNewReader q)).1 = (Parse norm (stringsNewReader q)).1 ∧
    ((String norm q).Status = (Bytes norm q).Status ∧
      (String norm q).TSVector = (Bytes norm q).TSVector ∧
      (String norm q).Assignee = (Bytes norm q).Assignee ∧
      (String norm q).Limit = (Bytes norm q).Limit ∧
      (String norm q).Labels = (Bytes norm q).Labels) ∧
    ((Parse norm (stringsNewReader q)).1.Status = (String norm q).Status ∧
      (Parse norm (stringsNewReader q)).1.TSVector = (String norm q).TSVector ∧
      (Parse norm (stringsNewReader q)).1.Assignee = (String norm q).Assignee ∧
      (Parse norm (stringsNewReader q)).1.Limit = (String norm q).Limit ∧
      (Parse norm (stringsNewReader q)).1.Labels = (String norm q).Labels) ∧
    (Fits q → Parse norm (stringsNewReader q) = (String norm q, none) ∧
      Parse norm (bytesNewReader q) = (Bytes norm q, none)) ∧
    (∀ rd : Reader, rd.content = q → rd.err = none → noStall rd.chunks = true → Fits q →
      Parse norm rd = (String norm q, none)) := by
  refine ⟨rfl, rfl, rfl, rfl, ⟨rfl, rfl, rfl, rfl, rfl⟩, ⟨rfl, rfl, rfl, rfl, rfl⟩, ?_, ?_⟩
  · intro hfit
    have h2 : Parse norm (stringsNewReader q) = (String norm q, none) := by
      rw [Parse_mem norm q hfit, String_eq norm q hfit]
    exact ⟨h2, h2⟩
  · intro rd hc he hst hfit
    rw [Parse_eq norm rd hst (by rw [hc]; exact hfit), String_eq norm q hfit, hc, he]

/-- C15 as amended, at the input of the test table, read at once and in two pieces. -/
theorem C15_entry_points_agree_witness :
    Fits (str "-a t-est- of -time status:open") ∧
    Parse idNorm (stringsNewReader (str "-a t-est- of -time status:open")) =
      (String idNorm (str "-a t-est- of -time status:open"), none) ∧
    Parse idNorm { chunks := [str "-a t-est- of -ti", str "me status:open"], err := none } =
      (String idNorm (str "-a t-est- of -time status:open"), none) :=
  ⟨by decide,
    ((C15_entry_points_agree idNorm (str "-a t-est- of -time status:open")).2.2.2.2.2.2.1
      (by decide)).1,
    (C15_entry_points_agree idNorm (str "-a t-est- of -time status:open")).2.2.2.2.2.2.2
      { chunks := [str "-a t-est- of -ti", str "me status:open"], err := none }
      (by decide) rfl (by decide) (by decide)⟩

/-- C16, refuted at the buffer of two spaces and `ab`: with `atEOF = false` no token
is returned and the advance is `2`, the two leading spaces, not zero. -/
theorem C16_need_more_counterexample :
    scanTokens (str "  ab") false = (2, none, none) ∧
    (scanTokens (str "  ab") false).1 ≠ 0 := by
  decide

/-- C16 as amended: when `scanTokens`, called with `atEOF = false`, returns no token,
the error is `nil` and the advance is the byte length of the leading run of skippable
code points: the bytes before it decode to skippable code points only, the bytes
after it hold none, and it is zero exactly when the buffer is empty or begins with a
non-skippable code point. -/
theorem C16_need_more_advance (data : List Nat) (h : (scanTokens data false).2.1 = none) :
    (scanTokens data false).2.2 = none ∧
    (scanTokens data false).1 = leadEnd data ∧
    leadEnd data ≤ data.length ∧
    (∀ r ∈ runes (data.take (leadEnd data)), isSkipable r = true) ∧
    (∀ r ∈ runes (data.drop (leadEnd data)), isSkipable r = false) ∧
    ((scanTokens data false).1 = 0 ↔ (data = [] ∨ isSkipable (decodeRune data).1 = false)) := by
  obtain ⟨A, T, R, hS, hA, hT, hR, hl, -, -⟩ := scan_shape data
  rcases hR with rfl | ⟨hne, d, R', rfl, hd⟩
  · rw [List.append_nil] at hS
    have hsc := scanTokens_end data false A T hS hA hT
    simp only [Bool.false_eq_true, false_and, if_false] at hsc
    have h3 := segs_split data A T hS
    have hlen : data.length = (bytesOf A).length + (bytesOf T).length := by
      rw [length_eq_bytesOf_segs, hS, bytesOf_append, List.length_append]
    have hAm : ∀ a ∈ A, a ∈ segs data := by intro a ha; rw [hS]; simp [ha]
    rw [hsc, hl]
    refine ⟨rfl, rfl, by omega, ?_, ?_, ?_⟩
    · rw [h3.2]
      unfold runes
      rw [segs_lead data A T hS hA]
      intro r hr
      obtain ⟨a, ha, rfl⟩ := List.mem_map.mp hr
      exact hA a ha
    · unfold runes
      rw [h3.1]
      intro r hr
      obtain ⟨t, ht, rfl⟩ := List.mem_map.mp hr
      have := hT t ht
      simpa [wordP] using this
    · simp only
      constructor
      · intro h0
        by_cases hd : data = []
        · exact Or.inl hd
        · right
          have hA0 : A = [] := by
            by_contra hne
            have := bytesOf_pos data A hAm hne
            omega
          subst hA0
          rw [List.nil_append, segs_of_ne_nil data hd] at hS
          rcases T with _ | ⟨t, T'⟩
          · simp at hS
          · have ht := hT t (List.mem_cons_self _ _)
            simp only [List.cons.injEq] at hS
            rw [← hS.1] at ht
            simpa [wordP] using ht
      · rintro (hd | hd)
        · subst hd
          rw [segs_nil] at hS
          have : A = [] := by
            rcases A with _ | ⟨a, A'⟩
            · rfl
            · simp at hS
          rw [this]; rfl
        · by_cases hd0 : data = []
          · subst hd0
            rw [segs_nil] at hS
            have : A = [] := by
              rcases A with _ | ⟨a, A'⟩
              · rfl
              · simp at hS
            rw [this]; rfl
          · rw [segs_of_ne_nil data hd0] at hS
            rcases A with _ | ⟨a, A'⟩
            · rfl
            · have ha := hA a (List.mem_cons_self _ _)
              simp only [List.cons_append, List.cons.injEq] at hS
              rw [← hS.1] at ha
              simp only [skipP] at ha
              rw [hd] at ha
              exact absurd ha (by simp)
  · rw [scanTokens_delim data false A T R' d hS hA hT hne hd] at h
    simp at h

/-- C16 as amended, at a buffer of two spaces and `ab`, and at the buffer `ab`. -/
theorem C16_need_more_advance_witness :
    ((scanTokens (str "  ab") false).2.1 = none ∧
      (scanTokens (str "  ab") false).1 = leadEnd (str "  ab") ∧ leadEnd (str "  ab") = 2) ∧
    ((scanTokens (str "ab") false).2.1 = none ∧ (scanTokens (str "ab") false).1 = 0) :=
  ⟨⟨by decide, (C16_need_more_advance (str "  ab") (by decide)).2.1, by decide⟩,
    ⟨by decide, ((C16_need_more_advance (str "ab") (by decide)).2.2.2.2.2).mpr
      (Or.inr (by decide))⟩⟩

/-- C17: for every buffer and either value of `atEOF`, with `leadEnd data` the offset
just past the leading run of skippable code points and `wordEnd data` the offset of
the first skippable code point at or after it: when there is such a code point `d`,
`scanTokens` returns the non-empty token `data[leadEnd:wordEnd]`, the advance
`wordEnd` plus the encoded width of `d`, and no error; when there is none, `atEOF` is
true and `leadEnd < len(data)`, it returns the token `data[leadEnd:]` and the advance
`len(data)`; otherwise it returns no token and the advance `leadEnd`. -/
theorem C17_scanTokens_outcome (data : List Nat) (atEOF : Bool) :
    leadEnd data ≤ wordEnd data ∧ wordEnd data ≤ data.length ∧
    (∀ r ∈ runes (data.take (leadEnd data)), isSkipable r = true) ∧
    (∀ r ∈ runes (slice data (leadEnd data) (wordEnd data)), isSkipable r = false) ∧
    (∀ d, firstDelim data = some d →
      isSkipable d.1 = true ∧
      decodeRune (data.drop (wordEnd data)) = (d.1, d.2.length) ∧
      leadEnd data < wordEnd data ∧
      slice data (leadEnd data) (wordEnd data) ≠ [] ∧
      scanTokens data atEOF =
        (wordEnd data + d.2.length, some (slice data (leadEnd data) (wordEnd data)), none)) ∧
    (firstDelim data = none →
      wordEnd data = data.length ∧
      (atEOF = true → leadEnd data < data.length →
        scanTokens data atEOF = (data.length, some (data.drop (leadEnd data)), none)) ∧
      (¬ (atEOF = true ∧ leadEnd data < data.length) →
        scanTokens data atEOF = (leadEnd data, none, none))) := by
  obtain ⟨A, T, R, hS, hA, hT, hR, hl, hw, hf⟩ := scan_shape data
  have hAm : ∀ a ∈ A, a ∈ segs data := by intro a ha; rw [hS]; simp [ha]
  have hTm : ∀ t ∈ T, t ∈ segs data := by intro a ha; rw [hS]; simp [ha]
  have hRm : ∀ t ∈ R, t ∈ segs data := by intro a ha; rw [hS]; simp [ha]
  have hlen : data.length = (bytesOf A).length + (bytesOf T).length + (bytesOf R).length := by
    rw [length_eq_bytesOf_segs, hS, bytesOf_append, bytesOf_append, List.length_append,
      List.length_append]
    omega
  have hRb : Boundary (bytesOf R) := by
    refine bytesOf_boundary data R hRm ?_
    rcases hR with h | ⟨-, h⟩
    · exact Or.inl h
    · exact Or.inr h
  have hsl := slice_word data A T R hS
  have h3 := segs_split data A (T ++ R) hS
  have hTseg : segs (bytesOf T) = T := segs_run data A T R hS hRb
  rw [hl, hw]
  refine ⟨by omega, by omega, ?_, ?_, ?_, ?_⟩
  · rw [h3.2]
    unfold runes
    rw [segs_lead data A (T ++ R) hS hA]
    intro r hr
    obtain ⟨a, ha, rfl⟩ := List.mem_map.mp hr
    exact hA a ha
  · rw [hsl]
    unfold runes
    rw [hTseg]
    intro r hr
    obtain ⟨t, ht, rfl⟩ := List.mem_map.mp hr
    have := hT t ht
    simpa [wordP] using this
  · intro d0 hd0
    rw [hf] at hd0
    rcases hR with rfl | ⟨hne, d, R', rfl, hd⟩
    · simp at hd0
    · simp only [List.head?_cons, Option.some.injEq] at hd0
      subst hd0
      have hpos := bytesOf_pos data T hTm hne
      have h4 := segs_split data (A ++ T) (d :: R') (by rw [hS]; simp)
      rw [bytesOf_append, List.length_append] at h4
      have hne2 : data.drop ((bytesOf A).length + (bytesOf T).length) ≠ [] := by
        intro hnil
        rw [hnil, segs_nil] at h4
        simp at h4
      have h5 := h4.1
      rw [segs_of_ne_nil _ hne2] at h5
      simp only [List.cons.injEq] at h5
      have hwle := decodeRune_width_le (data.drop ((bytesOf A).length + (bytesOf T).length))
      refine ⟨hd, ?_, by omega, ?_, ?_⟩
      · rw [← h5.1]
        simp only [List.length_take]
        rw [Nat.min_eq_left hwle]
      · rw [hsl]
        intro hnil
        rw [hnil] at hpos
        simp at hpos
      · rw [hsl]
        exact scanTokens_delim data atEOF A T R' d hS hA hT hne hd
  · intro hnone
    rw [hf] at hnone
    rcases hR with rfl | ⟨hne, d, R', rfl, hd⟩
    · rw [List.append_nil] at hS
      have hsc := scanTokens_end data atEOF A T hS hA hT
      have hb0 : (bytesOf ([] : List (Nat × List Nat))).length = 0 := rfl
      rw [hb0] at hlen
      have hdrop : data.drop (bytesOf A).length = bytesOf T := by
        have := bytesOf_segs (data.drop (bytesOf A).length)
        rw [h3.1, List.append_nil] at this; exact this.symm
      refine ⟨by omega, ?_, ?_⟩
      · intro he hlt
        have hT0 : T ≠ [] := by
          intro hnil
          subst hnil
          simp [bytesOf_nil] at hlen
          omega
        rw [hsc, if_pos ⟨he, hT0⟩, hdrop]
      · intro hc
        have hc2 : ¬ (atEOF = true ∧ T ≠ []) := by
          rintro ⟨he, hT0⟩
          exact hc ⟨he, by have := bytesOf_pos data T hTm hT0; omega⟩
        rw [hsc, if_neg hc2]
    · simp at hnone

/-- C18: for every buffer of arbitrary bytes and either value of `atEOF`, no slice
expression of `scanTokens` is out of range (the checked scanner never panics and
returns what the unchecked one returns), the returned error is `nil`, the advance is
at most `len(data)`, and a returned token is a non-empty slice `data[lo:hi]` that
lies within the first `advance` bytes. -/
theorem C18_scanTokens_in_bounds (data : List Nat) (atEOF : Bool) :
    scanTokensChecked data atEOF = some (scanTokens data atEOF) ∧
    (scanTokens data atEOF).2.2 = none ∧
    (scanTokens data atEOF).1 ≤ data.length ∧
    (∀ tok, (scanTokens data atEOF).2.1 = some tok →
      ∃ lo hi, lo < hi ∧ hi ≤ (scanTokens data atEOF).1 ∧ tok = slice data lo hi) := by
  refine ⟨scanTokensChecked_eq data atEOF, ?_⟩
  obtain ⟨A, T, R, hS, hA, hT, hR, -, -, -⟩ := scan_shape data
  have hTm : ∀ t ∈ T, t ∈ segs data := by intro a ha; rw [hS]; simp [ha]
  have hlen : data.length = (bytesOf A).length + (bytesOf T).length + (bytesOf R).length := by
    rw [length_eq_bytesOf_segs, hS, bytesOf_append, bytesOf_append, List.length_append,
      List.length_append]
    omega
  have hsl := slice_word data A T R hS
  rcases hR with rfl | ⟨hne, d, R', rfl, hd⟩
  · have hS' : segs data = A ++ T := by rw [hS, List.append_nil]
    have hsc := scanTokens_end data atEOF A T hS' hA hT
    have hb0 : (bytesOf ([] : List (Nat × List Nat))).length = 0 := rfl
    rw [hb0] at hlen
    by_cases hc : atEOF = true ∧ T ≠ []
    · rw [if_pos hc] at hsc
      rw [hsc]
      refine ⟨rfl, le_refl _, ?_⟩
      intro tok htok
      simp only [Option.some.injEq] at htok
      have hpos := bytesOf_pos data T hTm hc.2
      exact ⟨(bytesOf A).length, (bytesOf A).length + (bytesOf T).length, by omega, by omega,
        by rw [hsl, htok]⟩
    · rw [if_neg hc] at hsc
      rw [hsc]
      refine ⟨rfl, by simp only; omega, ?_⟩
      intro tok htok
      simp at htok
  · rw [scanTokens_delim data atEOF A T R' d hS hA hT hne hd]
    have hpos := bytesOf_pos data T hTm hne
    refine ⟨rfl, ?_, ?_⟩
    · simp only
      rw [hlen, bytesOf_cons, List.length_append]
      omega
    · intro tok htok
      simp only [Option.some.injEq] at htok
      exact ⟨(bytesOf A).length, (bytesOf A).length + (bytesOf T).length, by omega,
        by simp only; omega, by rw [hsl, htok]⟩

/-- C19: chunk independence.  For every way of cutting an input into consecutive
chunks (`chunks.flatten` is the input, and a cut may fall inside a code point), the
tokens of the incremental driver (split with `atEOF = false`, drop `advance`, emit a
returned token, append the next chunk when none is returned, `atEOF = true` once all
chunks are buffered) are the tokens of the whole input in one buffer; and a token
returned with `atEOF = false` is returned, with the same advance, on every extension of
the buffer and either flag.  `Parse` over a reader that delivers the chunks returns the
`Query` of the whole input when no token is longer than `maxFit = 65532` bytes and the
reader never returns `(0, nil)` for more than 100 reads in a row.  The chunks `a 0xC2`
and `0xA0 b` cut a no-break space in two and yield `a` and `b`. -/
theorem C19_chunk_independence (chunks : List (List Nat)) (err : Option Err) :
    (∀ fuel, chunks.flatten.length + chunks.length < fuel →
      driveChunks fuel chunks [] = tokens chunks.flatten) ∧
    (∀ (data more : List Nat) (f : Bool) (adv : Nat) (tok : List Nat) (e : Option Err),
      scanTokens data false = (adv, some tok, e) →
      scanTokens (data ++ more) f = (adv, some tok, e)) ∧
    (∀ norm : Normalizer, noStall chunks = true → Fits chunks.flatten →
      (Parse norm { chunks := chunks, err := err }).1 = String norm chunks.flatten) ∧
    driveChunks 7 [[0x61, 0xC2], [0xA0, 0x62]] [] = [[0x61], [0x62]] ∧
    tokens [0x61, 0xC2, 0xA0, 0x62] = [[0x61], [0x62]] ∧
    (Parse idNorm { chunks := [[0x61, 0xC2], [0xA0, 0x62]], err := none }).1.TSVector =
      str "a&b" := by
  refine ⟨?_, ?_, ?_, by decide, by decide, by decide⟩
  · intro fuel hf
    rw [driveChunks_eq fuel chunks [] (by simpa using hf)]
    rfl
  · intro data more f adv tok e h
    exact scanTokens_append_some data more f adv tok e h
  · intro norm hst hfit
    rw [Parse_eq norm { chunks := chunks, err := err } hst hfit, String_eq norm _ hfit]
    rfl

/-- C20, refuted at `a` the input of `maxTokenSize` bytes `x` and `b` the input
`label:q z`: `String` returns the default `Query` for `a` and for `a`, a space and `b`
(the scanner gives up on the long token), so the `Labels` of the concatenation are
empty, not the label `q` of `b`, and its `TSVector` is empty, not the `TSVector` `z` of
`b`. -/
theorem C20_long_token_counterexample :
    (String idNorm (longToken ++ str " " ++ str "label:q z")).Labels = [] ∧
    (String idNorm longToken).Labels ++ (String idNorm (str "label:q z")).Labels = [str "q"] ∧
    (String idNorm (longToken ++ str " " ++ str "label:q z")).Labels ≠
      (String idNorm longToken).Labels ++ (String idNorm (str "label:q z")).Labels ∧
    (String idNorm longToken).TSVector = [] ∧
    (String idNorm (str "label:q z")).TSVector = str "z" ∧
    (String idNorm (longToken ++ str " " ++ str "label:q z")).TSVector ≠
      (String idNorm (str "label:q z")).TSVector := by
  have h1 : (String idNorm (longToken ++ str " " ++ str "label:q z")).Labels = [] := by
    rw [String_longToken_space]; rfl
  have h2 : (String idNorm longToken).Labels ++ (String idNorm (str "label:q z")).Labels =
      [str "q"] := by
    rw [String_longToken_alone]; decide
  have h3 : (String idNorm longToken).TSVector = [] := by
    rw [String_longToken_alone]; rfl
  have h4 : (String idNorm (str "label:q z")).TSVector = str "z" := by decide
  have h5 : (String idNorm (longToken ++ str " " ++ str "label:q z")).TSVector = [] := by
    rw [String_longToken_space]; rfl
  refine ⟨h1, h2, ?_, h3, h4, ?_⟩
  · rw [h1, h2]; decide
  · rw [h5, h4]; decide

/-- C20 as amended: for all inputs `a` and `b`, the tokens of `a`, a space and `b` are
the tokens of `a` followed by those of `b`; and when these tokens fit the buffer of the
scanner (each is at most `maxFit = 65532` bytes long), the `Labels` are those of `a`
followed by those of `b`, and the `TSVector` is that of `a`, `&` and that of `b` when
both are non-empty, and whichever of the two is non-empty (or the empty string)
otherwise. -/
theorem C20_concat_with_separator (norm : Normalizer) (a b : List Nat)
    (hfit : Fits (a ++ str " " ++ b)) :
    tokens (a ++ str " " ++ b) = tokens a ++ tokens b ∧
    (String norm (a ++ str " " ++ b)).Labels = (String norm a).Labels ++ (String norm b).Labels ∧
    (String norm (a ++ str " " ++ b)).TSVector =
      (if (String norm a).TSVector = [] then (String norm b).TSVector
       else if (String norm b).TSVector = [] then (String norm a).TSVector
       else (String norm a).TSVector ++ str "&" ++ (String norm b).TSVector) ∧
    ((String norm a).TSVector ≠ [] → (String norm b).TSVector ≠ [] →
      (String norm (a ++ str " " ++ b)).TSVector =
        (String norm a).TSVector ++ str "&" ++ (String norm b).TSVector) := by
  have ht := tokens_append_space a b
  obtain ⟨ha, hb⟩ := (Fits_append_space a b).mp hfit
  have hv : (String norm (a ++ str " " ++ b)).TSVector =
      (if (String norm a).TSVector = [] then (String norm b).TSVector
       else if (String norm b).TSVector = [] then (String norm a).TSVector
       else (String norm a).TSVector ++ str "&" ++ (String norm b).TSVector) := by
    rw [String_TSVector norm _ hfit, String_TSVector norm a ha, String_TSVector norm b hb, ht,
      specTSVector_append, str_amp, List.append_assoc]
  refine ⟨ht, ?_, hv, ?_⟩
  · rw [String_Labels norm _ hfit, String_Labels norm a ha, String_Labels norm b hb, ht,
      specLabels_append]
  · intro h1 h2
    rw [hv, if_neg h1, if_neg h2]

/-- C20 as amended, at `a` the input `label:x foo` and `b` the input `-bar label:y`. -/
theorem C20_concat_with_separator_witness :
    Fits (str "label:x foo" ++ str " " ++ str "-bar label:y") ∧
    (String idNorm (str "label:x foo" ++ str " " ++ str "-bar label:y")).Labels =
      (String idNorm (str "label:x foo")).Labels ++
        (String idNorm (str "-bar label:y")).Labels ∧
    (String idNorm (str "label:x foo" ++ str " " ++ str "-bar label:y")).Labels =
      [str "x", str "y"] ∧
    (String idNorm (str "label:x foo" ++ str " " ++ str "-bar label:y")).TSVector =
      str "foo&!bar" :=
  ⟨by decide,
    (C20_concat_with_separator idNorm (str "label:x foo") (str "-bar label:y")
      (by decide)).2.1,
    by decide, by decide⟩

end Soquee
